import Mathlib

/-!
# go-sqlite: the memory VFS, the connection, the host callbacks and the Bloom filter

A shallow embedding of `vfs/memdb/memdb.go` (advisory locks, data and `Open` of
the in-memory VFS), of `conn.go` (arena allocator, `Exec`, `PrepareFlags`,
`Close`, the error translator, `SetInterrupt` and its interrupter goroutines),
of `vfs.go` (the host callbacks for opening, closing and reading files) and of
`ext/bloom/bloom.go` (`Update` and `Filter` of the Bloom filter table), and a
model of the lock bytes of the OS-file VFS after the spec, with the properties
proved about them.
-/

namespace sqlite3

/-- Modelled from the spec: the result-code constants (`const.go`) are not among
the sources. The spec names the codes and says extended codes follow "the
standard high-byte scheme `(extended & 0xff) == primary`"; the values are the
standard ones of the engine's C interface. A result code is a machine integer. -/
abbrev ErrorCode := Nat

/-- Modelled from the spec: result code `OK`. -/
def _OK : ErrorCode := 0
/-- Modelled from the spec: result code `BUSY`. -/
def BUSY : ErrorCode := 5
/-- Modelled from the spec: result code `NOMEM`. -/
def NOMEM : ErrorCode := 7
/-- Modelled from the spec: result code `INTERRUPT`. -/
def INTERRUPT : ErrorCode := 9
/-- Modelled from the spec: primary result code `IOERR`. -/
def IOERR : ErrorCode := 10
/-- Modelled from the spec: extended result code `IOERR_NOMEM`. -/
def IOERR_NOMEM : ErrorCode := IOERR ||| (12 <<< 8)
/-- Modelled from the spec: extended result code `IOERR_LOCK`. -/
def IOERR_LOCK : ErrorCode := IOERR ||| (15 <<< 8)

end sqlite3

namespace vfs

/-- Modelled from the spec: the declaration of `vfs.LockLevel` is not among the
sources. The spec gives the five levels, totally ordered
`NONE < SHARED < RESERVED < PENDING < EXCLUSIVE`. -/
inductive LockLevel where
  | LOCK_NONE
  | LOCK_SHARED
  | LOCK_RESERVED
  | LOCK_PENDING
  | LOCK_EXCLUSIVE
  deriving DecidableEq, Repr

/-- Position of a level in the total order. -/
def LockLevel.toNat : LockLevel → Nat
  | .LOCK_NONE => 0
  | .LOCK_SHARED => 1
  | .LOCK_RESERVED => 2
  | .LOCK_PENDING => 3
  | .LOCK_EXCLUSIVE => 4

instance : LE LockLevel := ⟨fun a b => a.toNat ≤ b.toNat⟩
instance : LT LockLevel := ⟨fun a b => a.toNat < b.toNat⟩
instance (a b : LockLevel) : Decidable (a ≤ b) := inferInstanceAs (Decidable (a.toNat ≤ b.toNat))
instance (a b : LockLevel) : Decidable (a < b) := inferInstanceAs (Decidable (a.toNat < b.toNat))

end vfs

namespace memdb

open vfs vfs.LockLevel

/-- Size of a sector, `const sectorSize = 65536`. -/
def sectorSize : Nat := 65536

/-- The `memDB` struct. A `*memFile` is identified by the index of the file
among the files opened on the database; `nil` is `none`. The two mutexes only
serialise the calls and are not represented. `shared` counts files, so it stays
far from the bounds of a Go `int`; it is an `Int` here. -/
structure memDB where
  pending : Option Nat
  reserved : Option Nat
  data : List (List Nat)
  size : Int
  shared : Int
  deriving DecidableEq

/-- The `memFile` struct without its `*memDB` pointer, which is the database of
the enclosing `State`. -/
structure memFile where
  lock : LockLevel
  readOnly : Bool
  deriving DecidableEq

/-- What a method leaves behind: the receiver, its database and the error
returned (`none` is `nil`). -/
structure Result where
  file : memFile
  db : memDB
  err : Option sqlite3.ErrorCode
  deriving DecidableEq

/-- `func (m *memFile) Lock(lock vfs.LockLevel) error` from its start to the
point where it gives `lockMtx` up: at a `return`, or in the wait loop
`for before := time.Now(); m.shared > 1; { ... }` after a test `m.shared > 1`
that holds. There the error is `BUSY`: it is what the call returns when
`time.Since(before) > spinWait`; when not, the loop unlocks the mutex, lets the
other goroutines run, locks it and tests again, which is `State.spin`, and the
call as a whole is `State.Lock`. `self` is the identity of `m`. -/
def memFile.Lock (self : Nat) (m : memFile) (db : memDB) (lock : LockLevel) : Result :=
  if m.lock ≥ lock then ⟨m, db, none⟩
  else if m.readOnly && decide (lock ≥ LOCK_RESERVED) then ⟨m, db, some sqlite3.IOERR_LOCK⟩
  else
    match lock with
    | LOCK_SHARED =>
      if db.pending ≠ none then ⟨m, db, some sqlite3.BUSY⟩
      else ⟨{ m with lock := lock }, { db with shared := db.shared + 1 }, none⟩
    | LOCK_RESERVED =>
      if db.reserved ≠ none then ⟨m, db, some sqlite3.BUSY⟩
      else ⟨{ m with lock := lock }, { db with reserved := some self }, none⟩
    | LOCK_EXCLUSIVE =>
      if m.lock < LOCK_PENDING then
        if db.pending ≠ none then ⟨m, db, some sqlite3.BUSY⟩
        else
          let m1 : memFile := { m with lock := LOCK_PENDING }
          let db1 : memDB := { db with pending := some self }
          if db1.shared > 1 then ⟨m1, db1, some sqlite3.BUSY⟩
          else ⟨{ m1 with lock := lock }, db1, none⟩
      else
        if db.shared > 1 then ⟨m, db, some sqlite3.BUSY⟩
        else ⟨{ m with lock := lock }, db, none⟩
    | _ => ⟨{ m with lock := lock }, db, none⟩

/-- `func (m *memFile) Unlock(lock vfs.LockLevel) error`. -/
def memFile.Unlock (self : Nat) (m : memFile) (db : memDB) (lock : LockLevel) : Result :=
  if m.lock ≤ lock then ⟨m, db, none⟩
  else
    let db1 : memDB := if db.pending = some self then { db with pending := none } else db
    let db2 : memDB := if db1.reserved = some self then { db1 with reserved := none } else db1
    let db3 : memDB := if lock < LOCK_SHARED then { db2 with shared := db2.shared - 1 } else db2
    ⟨{ m with lock := lock }, db3, none⟩

/-- `func (m *memFile) Close() error`. -/
def memFile.Close (self : Nat) (m : memFile) (db : memDB) : Result :=
  m.Unlock self db LOCK_NONE

/-- One database together with the files opened on it. A file that is opened
later starts at `LOCK_NONE` and touches nothing until its first call, so it is
listed from the start. -/
structure State where
  db : memDB
  files : List memFile
  deriving DecidableEq

/-- Lock level of file `i` (`LOCK_NONE` where there is no such file). -/
def State.lockOf (s : State) (i : Nat) : LockLevel :=
  match s.files[i]? with
  | some m => m.lock
  | none => LOCK_NONE

/-- Run a method of file `i` and store what it leaves behind. -/
def State.run (s : State) (i : Nat) (f : Nat → memFile → memDB → Result) :
    State × Option sqlite3.ErrorCode :=
  match s.files[i]? with
  | some m => let r := f i m s.db; (⟨r.db, s.files.set i r.file⟩, r.err)
  | none => (s, none)

/-- What the calls do while they hold `lockMtx`: a step is the part of a call
from taking the mutex to giving it up. `Unlock`, `Close` and a `Lock` that does
not wait are one step; a `Lock(EXCLUSIVE)` that waits makes a step for each
test of its loop. -/
inductive Step where
  | Lock (i : Nat) (lock : LockLevel)
  | Unlock (i : Nat) (lock : LockLevel)
  | Close (i : Nat)
  deriving DecidableEq

/-- The file that takes the step. -/
def Step.file : Step → Nat
  | .Lock i _ => i
  | .Unlock i _ => i
  | .Close i => i

/-- Outcome of a step: the state after it and the error. -/
def State.step (s : State) : Step → State × Option sqlite3.ErrorCode
  | .Lock i lock => s.run i (fun self m db => m.Lock self db lock)
  | .Unlock i lock => s.run i (fun self m db => m.Unlock self db lock)
  | .Close i => s.run i (fun self m db => m.Close self db)

/-- Run a list of steps, dropping the errors. -/
def State.steps (s : State) : List Step → State
  | [] => s
  | c :: cs => State.steps (s.step c).1 cs

/-- Whether `Lock(lock)` of file `i` gets to the wait loop and finds
`m.shared > 1` at its first test: the level asked for is `EXCLUSIVE`, neither
guard at the head of `Lock` returns, and the file is at `PENDING` already or
there is no pending holder, so that it becomes the pending holder. -/
def State.waits (s : State) (i : Nat) (lock : LockLevel) : Bool :=
  match s.files[i]? with
  | none => false
  | some m =>
    decide (lock = LOCK_EXCLUSIVE) && !decide (m.lock ≥ lock) && !m.readOnly &&
      (!decide (m.lock < LOCK_PENDING) || decide (s.db.pending = none)) &&
      decide (s.db.shared > 1)

/-- The assignment `m.lock = lock` at the end of `Lock`, for file `i`. -/
def State.setLock (s : State) (i : Nat) (lock : LockLevel) : State :=
  match s.files[i]? with
  | none => s
  | some m => ⟨s.db, s.files.set i { m with lock := lock }⟩

/-- The wait loop of `Lock(LOCK_EXCLUSIVE)` of file `i`,
`for before := time.Now(); m.shared > 1; { ... }`, after a test `m.shared > 1`
that held. The list has an entry for each test `time.Since(before) > spinWait`
that is false: the steps that the other files take between
`m.lockMtx.Unlock()` and `m.lockMtx.Lock()`. Then `m.shared` is read again.
When the list is used up the time has expired (`return sqlite3.BUSY`). -/
def State.spin (i : Nat) (lock : LockLevel) : State → List (List Step) →
    State × Option sqlite3.ErrorCode
  | s, [] => (s, some sqlite3.BUSY)
  | s, others :: rest =>
    if (s.steps others).db.shared > 1 then State.spin i lock (s.steps others) rest
    else ((s.steps others).setLock i lock, none)

/-- The call `Lock(lock)` of file `i` from its start to its return, with the
steps `between` of the other files while it waits. -/
def State.Lock (s : State) (i : Nat) (lock : LockLevel) (between : List (List Step)) :
    State × Option sqlite3.ErrorCode :=
  if s.waits i lock then State.spin i lock (s.step (.Lock i lock)).1 between
  else s.step (.Lock i lock)

/-- The states in which the wait loop reads `m.shared`, as long as it finds it
above 1: the state in which the loop is entered, and the state after each
round of steps of the other files. -/
def State.polled : State → List (List Step) → List State
  | s, [] => [s]
  | s, others :: rest => s :: State.polled (s.steps others) rest

/-- The calls a database receives, each from its start to its return with no
step of another file in between. A `Lock` carries the number of polls its spin
budget allows. A call during which other files take steps is `State.Lock`; it
goes through states that these calls reach too, each of its steps being a
`Lock` with no poll left. -/
inductive Call where
  | Lock (i : Nat) (lock : LockLevel) (polls : Nat)
  | Unlock (i : Nat) (lock : LockLevel)
  | Close (i : Nat)
  deriving DecidableEq

/-- Outcome of a call: the state after it and the error returned. -/
def State.call (s : State) : Call → State × Option sqlite3.ErrorCode
  | .Lock i lock polls => s.Lock i lock (List.replicate polls [])
  | .Unlock i lock => s.run i (fun self m db => m.Unlock self db lock)
  | .Close i => s.run i (fun self m db => m.Close self db)

/-- A fresh database (`new(memDB)`) with one file per entry of `readOnly`, all
at `LOCK_NONE`. -/
def State.fresh (readOnly : List Bool) : State :=
  ⟨⟨none, none, [], 0, 0⟩, readOnly.map (fun ro => ⟨LOCK_NONE, ro⟩)⟩

/-- States reached from a fresh database by calls that the protocol `P`
admits in the state where they are made. -/
inductive Reachable (P : State → Call → Prop) : State → Prop where
  | fresh (readOnly : List Bool) : Reachable P (State.fresh readOnly)
  | call {s : State} (c : Call) : Reachable P s → P s c → Reachable P (s.call c).1

/-- No restriction on the calls. -/
def anyCall : State → Call → Prop := fun _ _ => True

/-- The calling discipline: a file requests a level above `SHARED` only while
it holds at least `SHARED`, and unlocks only to `SHARED` or `NONE`. -/
def protocol (s : State) : Call → Prop
  | .Lock i lock _ => LOCK_SHARED < lock → LOCK_SHARED ≤ s.lockOf i
  | .Unlock _ lock => lock = LOCK_SHARED ∨ lock = LOCK_NONE
  | .Close _ => True

instance protocol.decidable (s : State) : (c : Call) → Decidable (protocol s c)
  | .Lock i lock _ => inferInstanceAs (Decidable (LOCK_SHARED < lock → LOCK_SHARED ≤ s.lockOf i))
  | .Unlock _ lock => inferInstanceAs (Decidable (lock = LOCK_SHARED ∨ lock = LOCK_NONE))
  | .Close _ => inferInstanceAs (Decidable True)

/-- Whether the call is a direct request for `PENDING`. -/
def Call.requestsPending : Call → Bool
  | .Lock _ LOCK_PENDING _ => true
  | _ => false

/-- The calling discipline of the engine, which in addition never requests
`PENDING` itself: the level is only passed through on the way to `EXCLUSIVE`. -/
def engineProtocol (s : State) (c : Call) : Prop :=
  protocol s c ∧ c.requestsPending = false

instance engineProtocol.decidable (s : State) (c : Call) : Decidable (engineProtocol s c) :=
  inferInstanceAs (Decidable (protocol s c ∧ c.requestsPending = false))

/-- Every call of the list is admitted by `P` in the state where it is made. -/
def admitted (P : State → Call → Prop) : State → List Call → Prop
  | _, [] => True
  | s, c :: cs => P s c ∧ admitted P (s.call c).1 cs

instance admitted.decidable (P : State → Call → Prop) [inst : ∀ s c, Decidable (P s c)] :
    (s : State) → (cs : List Call) → Decidable (admitted P s cs)
  | _, [] => inferInstanceAs (Decidable True)
  | s, c :: cs =>
    have : Decidable (admitted P (s.call c).1 cs) := admitted.decidable P (s.call c).1 cs
    inferInstanceAs (Decidable (P s c ∧ admitted P (s.call c).1 cs))

/-- What a file at level `l` contributes to the count of shared holders. -/
def held (l : LockLevel) : Int := if LOCK_SHARED ≤ l then 1 else 0

/-- Number of files that hold `SHARED` or more. -/
def State.holders (s : State) : Nat :=
  s.files.countP (fun m => decide (LOCK_SHARED ≤ m.lock))

/-- Run a list of calls, dropping the errors. -/
def State.calls (s : State) : List Call → State
  | [] => s
  | c :: cs => State.calls (s.call c).1 cs

/-- Two writable files; file 0 takes `SHARED`, requests `PENDING` itself and
then `EXCLUSIVE`; file 1 then asks for `SHARED`. -/
def pendingRequested : State :=
  (State.fresh [false, false]).calls
    [.Lock 0 LOCK_SHARED 0, .Lock 0 LOCK_PENDING 0, .Lock 0 LOCK_EXCLUSIVE 0,
     .Lock 1 LOCK_SHARED 0]

/-- Two writable files; file 0 goes `SHARED`, `RESERVED`, `EXCLUSIVE`; file 1
then asks for `SHARED`. -/
def writerAlone : State :=
  (State.fresh [false, false]).calls
    [.Lock 0 LOCK_SHARED 0, .Lock 0 LOCK_RESERVED 0, .Lock 0 LOCK_EXCLUSIVE 0,
     .Lock 1 LOCK_SHARED 0]

/-- Two writable files both take `SHARED`; file 0 takes `RESERVED`; file 1
requests `EXCLUSIVE`. -/
def writerAndWaiter : State :=
  (State.fresh [false, false]).calls
    [.Lock 0 LOCK_SHARED 0, .Lock 1 LOCK_SHARED 0, .Lock 0 LOCK_RESERVED 0,
     .Lock 1 LOCK_EXCLUSIVE 0]

/-- Two writable files, both at `SHARED`. -/
def bothShared : State :=
  (State.fresh [false, false]).calls [.Lock 0 LOCK_SHARED 0, .Lock 1 LOCK_SHARED 0]

/-- Three writable files at `SHARED`; file 2 is the pending holder, left at
`PENDING` by a `Lock(EXCLUSIVE)` that found three shared holders. -/
def waiterPending : State :=
  (State.fresh [false, false, false]).calls
    [.Lock 0 LOCK_SHARED 0, .Lock 1 LOCK_SHARED 0, .Lock 2 LOCK_SHARED 0,
     .Lock 2 LOCK_EXCLUSIVE 0]

/-- What every admitted call does to the receiver `m` and to the database:
the facts from which the invariant `Inv` is carried along. -/
structure Sound (me : Nat) (m : memFile) (db : memDB) (r : Result) : Prop where
  shared : r.db.shared = db.shared + held r.file.lock - held m.lock
  pending_other : ∀ k, k ≠ me → r.db.pending = some k → db.pending = some k
  pending_me : r.db.pending = some me →
    (db.pending = some me → LOCK_PENDING ≤ m.lock) → LOCK_PENDING ≤ r.file.lock
  reserved_me : r.file.lock = LOCK_RESERVED →
    (m.lock = LOCK_RESERVED → db.reserved = some me) → r.db.reserved = some me
  reserved_other : ∀ k, k ≠ me → db.reserved = some k → r.db.reserved = some k

/-- What a call of the engine protocol does in addition. -/
structure EngineSound (me : Nat) (m : memFile) (db : memDB) (r : Result) : Prop where
  pending_of : (LOCK_PENDING ≤ m.lock → db.pending = some me) →
    LOCK_PENDING ≤ r.file.lock → r.db.pending = some me
  pending_kept : ∀ k, k ≠ me → db.pending = some k → r.db.pending = some k
  exclusive_new : r.file.lock = LOCK_EXCLUSIVE → m.lock ≠ LOCK_EXCLUSIVE →
    db.shared ≤ 1 ∧ LOCK_SHARED ≤ m.lock
  none_stays : m.lock = LOCK_NONE → db.pending ≠ none → r.file.lock = LOCK_NONE

/-- Invariant of the lock state under the calling discipline. -/
structure Inv (s : State) : Prop where
  shared_eq : s.db.shared = s.holders
  pending_holds : ∀ i, s.db.pending = some i → LOCK_PENDING ≤ s.lockOf i
  reserved_holds : ∀ i, s.lockOf i = LOCK_RESERVED → s.db.reserved = some i

/-- Invariant of the lock state under the engine protocol. -/
structure EngineInv (s : State) : Prop where
  inv : Inv s
  pending_of : ∀ i, LOCK_PENDING ≤ s.lockOf i → s.db.pending = some i
  exclusive_alone : ∀ i j, s.lockOf i = LOCK_EXCLUSIVE → j ≠ i → s.lockOf j = LOCK_NONE


end memdb

/-! ## The arena and the call gateway (`conn.go`) -/

namespace sqlite3

/-- A Go `string` or `[]byte`: its bytes, as numbers below 256. -/
abbrev Bytes := List Nat

/-- Conversion to `uint32`: the value modulo `2^32`. -/
def u32 (n : Nat) : Nat := n % 2 ^ 32

/-- Modelled from the spec: the constant `ptrlen` (`const.go`) is not among the
sources. Pointers are offsets into the engine's 32-bit linear memory, so one
pointer takes four bytes. -/
def ptrlen : Nat := 4

/-- The fatal conditions, raised with `panic`. `boundsErr` is the run-time
panic of a slice expression out of range. -/
inductive Fatal where
  | oomErr
  | rangeErr
  | boundsErr
  deriving DecidableEq, Repr

/-- The calls made to the exported entries of the engine (`c.api.*.Call`),
with their arguments; `moduleClose` is the call `c.mem.mod.Close` that closes
the module instance. -/
inductive ApiCall where
  | malloc (size : Nat)
  | free (ptr : Nat)
  | errstr (rc : Nat)
  | errmsg (handle : Nat)
  | erroff (handle : Nat)
  | exec (handle sqlPtr : Nat)
  | prepare (handle sqlPtr len flags stmtPtr tailPtr : Nat)
  | close (handle : Nat)
  | moduleClose
  deriving DecidableEq, Repr

/-- What `prepare` leaves behind: its result code and the two words it stored
at `stmtPtr` and `tailPtr`. -/
structure PrepareAnswer where
  rc : Nat
  stmt : Nat
  tail : Nat
  deriving DecidableEq, Repr

/-- The world outside the host code. The engine is not part of the sources; what
it answers to a call is given as a function of the calls made before. For
`exec`, `prepare`, `errstr`, `errmsg` and `erroff`, `none` stands for a call
that itself failed (`err != nil`, respectively `r == nil`); `malloc` and `free`
are taken to complete. Strings and words that the host reads back from the
linear memory after a call are part of the answer. `closed` tells which signal
channels have been closed and `memSize` is the size of the linear memory.
`close` answers the engine's `close` entry like `exec`; `moduleClose` tells
whether closing the module instance returns an error. -/
structure Env where
  closed : Nat → Bool
  memSize : Nat
  malloc : List ApiCall → Nat
  exec : List ApiCall → Option Nat
  prepare : List ApiCall → Option PrepareAnswer
  errstr : List ApiCall → Option Bytes
  errmsg : List ApiCall → Option Bytes
  erroff : List ApiCall → Option Nat
  close : List ApiCall → Option Nat
  moduleClose : List ApiCall → Bool

/-- Modelled from the spec: the `Error` type (`error.go`) is not among the
sources; these are the fields `conn.go` assigns. -/
structure Error where
  code : Nat
  str : Bytes
  msg : Bytes
  sql : Bytes
  deriving DecidableEq, Repr

/-- Modelled from the spec: `Error.Code` (`error.go`) is not among the sources;
the primary code is the low byte, `(extended & 0xff) == primary`. -/
def Error.Code (e : Error) : ErrorCode := e.code % 256

/-- Modelled from the spec: `Error.ExtendedCode` (`error.go`) is not among the
sources; the extended code is the code itself. -/
def Error.ExtendedCode (e : Error) : ErrorCode := e.code

/-- A Go `error` as returned by the methods of `Conn`: an `*Error`, or the
error of an engine call that itself failed. -/
inductive GoError where
  | sqlite (e : Error)
  | host
  deriving DecidableEq, Repr

/-- The `arena` struct; its `c *Conn` is the connection that owns it. -/
structure arena where
  base : Nat
  next : Nat
  size : Nat
  ptrs : List Nat
  deriving DecidableEq, Repr

/-- The fields of `Conn` used here. `done` is `none` for a nil channel and the
identity of the channel otherwise; `waiter` tells whether `c.waiter` is not
nil, that is, whether an interrupter goroutine is running. -/
structure Conn where
  arena : arena
  handle : Nat
  done : Option Nat
  waiter : Bool
  deriving DecidableEq, Repr

/-- A `*Stmt`. -/
structure Stmt where
  handle : Nat
  deriving DecidableEq, Repr

/-- `func (c *Conn) free(ptr uint32)`: the trace after the call. -/
def Conn.free (t : List ApiCall) (ptr : Nat) : List ApiCall :=
  if ptr = 0 then t else t ++ [.free ptr]

/-- `func (c *Conn) new(size uint32) uint32`. -/
def Conn.new (env : Env) (t : List ApiCall) (size : Nat) : Except Fatal Nat × List ApiCall :=
  let ptr := u32 (env.malloc t)
  if ptr = 0 ∧ size ≠ 0 then (.error .oomErr, t ++ [.malloc size])
  else (.ok ptr, t ++ [.malloc size])

/-- `func (c *Conn) newArena(size uint32) arena`. -/
def Conn.newArena (env : Env) (t : List ApiCall) (size : Nat) :
    Except Fatal sqlite3.arena × List ApiCall :=
  match Conn.new env t size with
  | (.ok base, t1) => (.ok { base := base, next := 0, size := size, ptrs := [] }, t1)
  | (.error e, t1) => (.error e, t1)

/-- `func (a *arena) reset()`: the arena and the trace after the call. -/
def arena.reset (t : List ApiCall) (a : arena) : arena × List ApiCall :=
  ({ a with ptrs := [], next := 0 }, a.ptrs.foldl Conn.free t)

/-- `func (a *arena) new(size uint32) uint32`; the additions are `uint32`
additions. Returned are the pointer (or the fatal condition raised), the arena
and the trace after the call. -/
def arena.new (env : Env) (t : List ApiCall) (a : arena) (size : Nat) :
    Except Fatal Nat × arena × List ApiCall :=
  if u32 (a.next + size) ≤ a.size then
    (.ok (u32 (a.base + a.next)), { a with next := u32 (a.next + size) }, t)
  else
    match Conn.new env t size with
    | (.ok ptr, t1) => (.ok ptr, { a with ptrs := a.ptrs ++ [ptr] }, t1)
    | (.error e, t1) => (.error e, a, t1)

/-- Modelled from the spec: `memory.writeString` (`mem.go`) is not among the
sources. It writes the bytes of `s` and a NUL at `ptr`; by the spec every access
is validated against the memory bounds and raises the fatal range condition
when out of range. The bytes written are not represented. -/
def writeString (env : Env) (ptr : Nat) (s : Bytes) : Except Fatal Unit :=
  if ptr + (s.length + 1) ≤ env.memSize then .ok () else .error .rangeErr

/-- `func (a *arena) string(s string) uint32`. -/
def arena.string (env : Env) (t : List ApiCall) (a : arena) (s : Bytes) :
    Except Fatal Nat × arena × List ApiCall :=
  match arena.new env t a (u32 (s.length + 1)) with
  | (.ok ptr, a1, t1) =>
    match writeString env ptr s with
    | .ok _ => (.ok ptr, a1, t1)
    | .error e => (.error e, a1, t1)
  | (.error e, a1, t1) => (.error e, a1, t1)

/-- `func (c *Conn) interrupted() bool`: a receive from a nil channel never
proceeds, a receive from a closed channel does. -/
def Conn.interrupted (env : Env) (c : Conn) : Bool :=
  match c.done with
  | none => false
  | some ch => env.closed ch

/-- The bytes of the literal "not an error". -/
def notAnError : Bytes := [110, 111, 116, 32, 97, 110, 32, 101, 114, 114, 111, 114]

/-- The `switch err.msg` at the end of `Conn.error`. -/
def Error.dedup (e : Error) : Error :=
  if e.msg = e.str ∨ e.msg = notAnError then { e with msg := [] } else e

/-- `func (c *Conn) error(rc uint64, sql ...string) error`; `none` is `nil`. -/
def Conn.error (env : Env) (t : List ApiCall) (c : Conn) (rc : Nat) (sql : Option Bytes) :
    Except Fatal (Option Error) × List ApiCall :=
  if rc = _OK then (.ok none, t)
  else
    let err : Error := { code := rc, str := [], msg := [], sql := [] }
    if err.Code = NOMEM ∨ err.ExtendedCode = IOERR_NOMEM then (.error .oomErr, t)
    else
      let err1 : Error :=
        match env.errstr t with
        | some s => { err with str := s }
        | none => err
      let t1 := t ++ [.errstr rc]
      let err2 : Error :=
        match env.errmsg t1 with
        | some s => { err1 with msg := s }
        | none => err1
      let t2 := t1 ++ [.errmsg c.handle]
      match sql with
      | none => (.ok (some err2.dedup), t2)
      | some q =>
        let t3 := t2 ++ [.erroff c.handle]
        match env.erroff t2 with
        | none => (.ok (some err2.dedup), t3)
        | some off =>
          if off ≠ 2 ^ 32 - 1 then
            if off ≤ q.length then (.ok (some { err2 with sql := q.drop off }.dedup), t3)
            else (.error .boundsErr, t3)
          else (.ok (some err2.dedup), t3)

/-- What a method of `Conn` leaves behind: its results or the fatal condition
it raised, the connection and the calls made to the engine. -/
structure Outcome (α : Type) where
  result : Except Fatal α
  conn : Conn
  trace : List ApiCall

/-- The deferred `c.arena.reset()`, run on every way out of a method, also when
a fatal condition is raised; `a` is the arena as the method left it. -/
def Conn.deferReset {α : Type} (c : Conn) (a : sqlite3.arena)
    (r : Except Fatal α × List ApiCall) : Outcome α :=
  ⟨r.1, { c with arena := (arena.reset r.2 a).1 }, (arena.reset r.2 a).2⟩

/-- `func (c *Conn) Exec(sql string) error`. -/
def Conn.Exec (env : Env) (t : List ApiCall) (c : Conn) (sql : Bytes) :
    Outcome (Option GoError) :=
  match arena.string env t c.arena sql with
  | (.error e, a1, t1) => c.deferReset a1 (.error e, t1)
  | (.ok sqlPtr, a1, t1) =>
    if c.interrupted env then
      match Conn.error env t1 c INTERRUPT none with
      | (.ok e, t2) => c.deferReset a1 (.ok (e.map GoError.sqlite), t2)
      | (.error f, t2) => c.deferReset a1 (.error f, t2)
    else
      let t2 := t1 ++ [.exec c.handle sqlPtr]
      match env.exec t1 with
      | none => c.deferReset a1 (.ok (some .host), t2)
      | some rc =>
        match Conn.error env t2 c rc none with
        | (.ok e, t3) => c.deferReset a1 (.ok (e.map GoError.sqlite), t3)
        | (.error f, t3) => c.deferReset a1 (.error f, t3)

/-- The three results of `PrepareFlags`: `stmt`, `tail`, `err`. -/
structure Prepared where
  stmt : Option Stmt
  tail : Bytes
  err : Option GoError
  deriving DecidableEq, Repr

/-- The head of `PrepareFlags`: the allocations of `stmtPtr`, `tailPtr` and
`sqlPtr`, in this order. -/
def Conn.marshal (env : Env) (t : List ApiCall) (a : sqlite3.arena) (sql : Bytes) :
    Except Fatal (Nat × Nat × Nat) × sqlite3.arena × List ApiCall :=
  match arena.new env t a ptrlen with
  | (.error e, a1, t1) => (.error e, a1, t1)
  | (.ok stmtPtr, a1, t1) =>
    match arena.new env t1 a1 ptrlen with
    | (.error e, a2, t2) => (.error e, a2, t2)
    | (.ok tailPtr, a2, t2) =>
      match arena.string env t2 a2 sql with
      | (.error e, a3, t3) => (.error e, a3, t3)
      | (.ok sqlPtr, a3, t3) => (.ok (stmtPtr, tailPtr, sqlPtr), a3, t3)

/-- `func (c *Conn) PrepareFlags(sql string, flags PrepareFlag)
(stmt *Stmt, tail string, err error)`. -/
def Conn.PrepareFlags (env : Env) (t : List ApiCall) (c : Conn) (sql : Bytes) (flags : Nat) :
    Outcome Prepared :=
  match Conn.marshal env t c.arena sql with
  | (.error e, a3, t3) => c.deferReset a3 (.error e, t3)
  | (.ok (stmtPtr, tailPtr, sqlPtr), a3, t3) =>
    if c.interrupted env then
      match Conn.error env t3 c INTERRUPT none with
      | (.ok e, t4) => c.deferReset a3 (.ok ⟨none, [], e.map GoError.sqlite⟩, t4)
      | (.error f, t4) => c.deferReset a3 (.error f, t4)
    else
      let t4 := t3 ++ [.prepare c.handle sqlPtr (sql.length + 1) flags stmtPtr tailPtr]
      match env.prepare t3 with
      | none => c.deferReset a3 (.ok ⟨none, [], some .host⟩, t4)
      | some ans =>
        let i := u32 (u32 ans.tail + 2 ^ 32 - sqlPtr)
        if i ≤ sql.length then
          match Conn.error env t4 c ans.rc (some sql) with
          | (.error f, t5) => c.deferReset a3 (.error f, t5)
          | (.ok (some e), t5) => c.deferReset a3 (.ok ⟨none, [], some (.sqlite e)⟩, t5)
          | (.ok none, t5) =>
            if u32 ans.stmt = 0 then c.deferReset a3 (.ok ⟨none, [], none⟩, t5)
            else c.deferReset a3 (.ok ⟨some ⟨u32 ans.stmt⟩, sql.drop i, none⟩, t5)
        else c.deferReset a3 (.error .boundsErr, t4)

/-- A byte range `[p, p+n)` as the pair `(p, n)`: the two ranges have no byte
in common. -/
def disjoint (r1 r2 : Nat × Nat) : Prop :=
  r1.2 = 0 ∨ r2.2 = 0 ∨ r1.1 + r1.2 ≤ r2.1 ∨ r2.1 + r2.2 ≤ r1.1

instance (r1 r2 : Nat × Nat) : Decidable (disjoint r1 r2) :=
  inferInstanceAs (Decidable (r1.2 = 0 ∨ r2.2 = 0 ∨ r1.1 + r1.2 ≤ r2.1 ∨ r2.1 + r2.2 ≤ r1.1))

/-- The range `[p, p+n)` lies inside the base region `[base, base+size)`. -/
def arena.inside (a : arena) (r : Nat × Nat) : Prop :=
  a.base ≤ r.1 ∧ r.1 + r.2 ≤ a.base + a.size

instance (a : arena) (r : Nat × Nat) : Decidable (a.inside r) :=
  inferInstanceAs (Decidable (a.base ≤ r.1 ∧ r.1 + r.2 ≤ a.base + a.size))

/-- Successive `new` calls with the given sizes; returned are the ranges handed
out (those of calls that raised a fatal condition are left out) and the arena. -/
def arena.news (env : Env) (t : List ApiCall) (a : arena) : List Nat → List (Nat × Nat) × arena
  | [] => ([], a)
  | n :: ns =>
    match arena.new env t a n with
    | (.ok p, a1, t1) => ((p, n) :: (arena.news env t1 a1 ns).1, (arena.news env t1 a1 ns).2)
    | (.error _, a1, t1) => arena.news env t1 a1 ns

/-- The state of an arena between calls: the fields are `uint32` values, the
bump offset is within the region, and the spill list holds pointers the engine
allocator returned for non-empty blocks that are live: none of them is null or
the base, and none occurs twice. -/
structure arena.WF (a : arena) : Prop where
  base_lt : a.base < 2 ^ 32
  size_lt : a.size < 2 ^ 32
  next_le : a.next ≤ a.size
  no_null : 0 ∉ a.ptrs
  no_base : a.base ∉ a.ptrs
  nodup : a.ptrs.Nodup

/-- The call is to one of the entries `exec` and `prepare`. -/
def ApiCall.isEntry : ApiCall → Bool
  | .exec _ _ => true
  | .prepare _ _ _ _ _ _ => true
  | _ => false

/-- The trace `t1` continues `t` by calls none of which is to `exec` or
`prepare`. -/
def Quiet (t t1 : List ApiCall) : Prop :=
  ∃ calls, t1 = t ++ calls ∧ ∀ x ∈ calls, x.isEntry = false

/-- An engine that is out of memory and whose signal channels are all closed. -/
def envExhausted : Env :=
  ⟨fun _ => true, 65536, fun _ => 0, fun _ => some 0, fun _ => none, fun _ => none,
   fun _ => none, fun _ => none, fun _ => none, fun _ => false⟩

/-- A connection with an empty arena of 1024 bytes at 2048 and signal 0. -/
def connSignalled : Conn := ⟨⟨2048, 0, 1024, []⟩, 1, some 0, true⟩

/-- The same connection without a signal. -/
def connIdle : Conn := ⟨⟨2048, 0, 1024, []⟩, 1, none, false⟩

/-- An SQL text of 1024 blanks. -/
def sqlLong : Bytes := List.replicate 1024 32

/-- The bytes of `SELECT 1`. -/
def selectOne : Bytes := [83, 69, 76, 69, 67, 84, 32, 49]

end sqlite3

/-! ## `Close` and `SetInterrupt` (`conn.go`) -/

namespace sqlite3

/-- `func (c *Conn) SetInterrupt(done <-chan struct{}) (old <-chan struct{})`, as
far as the calling goroutine goes: a running interrupter is cancelled and its
acknowledgement awaited, `done` replaces the signal, and for a non-nil `done` a
new interrupter is started. What the interrupter goroutine does in the
background is not represented. Returned are the connection and `old`. -/
def Conn.SetInterrupt (c : Conn) (done : Option Nat) : Conn × Option Nat :=
  let c1 : Conn := if c.waiter then { c with waiter := false } else c
  let old := c1.done
  let c2 : Conn := { c1 with done := done }
  match done with
  | none => (c2, old)
  | some _ => ({ c2 with waiter := true }, old)

/-- `func (c *Conn) Close() error`; the receiver may be nil (`none`). Returned
are the error (or the fatal condition raised), the connection and the trace
after the call. -/
def Conn.Close (env : Env) (t : List ApiCall) :
    Option Conn → Except Fatal (Option GoError) × Option Conn × List ApiCall
  | none => (.ok none, none, t)
  | some c =>
    let c1 := (c.SetInterrupt none).1
    let t1 := t ++ [.close c1.handle]
    match env.close t with
    | none => (.ok (some .host), some c1, t1)
    | some rc =>
      match Conn.error env t1 c1 rc none with
      | (.error f, t2) => (.error f, some c1, t2)
      | (.ok (some e), t2) => (.ok (some (.sqlite e)), some c1, t2)
      | (.ok none, t2) =>
        (.ok (if env.moduleClose t2 then some .host else none),
          some { c1 with handle := 0 }, t2 ++ [.moduleClose])

/-- An engine that prepares nothing: `prepare` reports `ERROR`, a null statement
and, as the end of the first statement, the address 2065. Nothing else fails. -/
def envRejecting : Env :=
  ⟨fun _ => false, 65536, fun _ => 0, fun _ => some 0, fun _ => some ⟨1, 0, 2065⟩,
   fun _ => none, fun _ => none, fun _ => none, fun _ => some 0, fun _ => false⟩

/-- The bytes of `SELECT x;SELECT 1`. -/
def selectTwo : Bytes := [83, 69, 76, 69, 67, 84, 32, 120, 59] ++ selectOne

/-- An engine whose `close` entry reports `BUSY`. -/
def envBusy : Env :=
  ⟨fun _ => true, 65536, fun _ => 0, fun _ => some 0, fun _ => none,
   fun _ => none, fun _ => none, fun _ => none, fun _ => some BUSY, fun _ => false⟩

/-- A connection that a `Close` has closed: its handle is zero. -/
def connClosed : Conn := ⟨⟨2048, 0, 1024, []⟩, 0, none, false⟩

/-- Whether a call is the one that closes the module instance. -/
def ApiCall.isModuleClose : ApiCall → Bool
  | .moduleClose => true
  | _ => false

/-- An engine that closes: its `close` entry answers `OK` as long as the module
instance is open; once the instance has been closed, the call of the entry
fails. -/
def envClosing : Env :=
  ⟨fun _ => false, 65536, fun _ => 0, fun _ => none, fun _ => none,
   fun _ => none, fun _ => none, fun _ => none,
   fun t => if t.any ApiCall.isModuleClose then none else some 0, fun _ => false⟩

/-- An engine that prepares the first statement of `selectTwo`, and of
`selectBlank`, for the connection `connIdle`: `prepare` reports `OK`, the
statement handle 77 and the address 2065, nine bytes into the copy of the text
at 2056, which is where the first statement of either text ends. -/
def envPreparing : Env :=
  ⟨fun _ => false, 65536, fun _ => 0, fun _ => some 0, fun _ => some ⟨0, 77, 2065⟩,
   fun _ => none, fun _ => none, fun _ => none, fun _ => some 0, fun _ => false⟩

/-- The bytes of `SELECT 1; `: one statement, followed by a blank. -/
def selectBlank : Bytes := selectOne ++ [59, 32]

/-- The bytes of the comment `-- x`. -/
def commentOnly : Bytes := [45, 45, 32, 120]

/-- An engine that finds no statement in `commentOnly`: `prepare` reports `OK`, a
null handle and the end of the copy of the text, 2060. -/
def envNoStatement : Env :=
  ⟨fun _ => false, 65536, fun _ => 0, fun _ => some 0, fun _ => some ⟨0, 0, 2060⟩,
   fun _ => none, fun _ => none, fun _ => none, fun _ => some 0, fun _ => false⟩

/-- An engine with a code string and a message for every code. -/
def envTalking : Env :=
  ⟨fun _ => false, 65536, fun _ => 0, fun _ => some 0, fun _ => none,
   fun _ => some [98, 117, 115, 121], fun _ => some [98, 117, 115, 121], fun _ => none,
   fun _ => some 0, fun _ => false⟩

end sqlite3

/-! ## The host file callbacks (`vfs.go`) -/

namespace sqlite3

/-- Modelled from the spec: result code `CANTOPEN`. -/
def CANTOPEN : ErrorCode := 14
/-- Modelled from the spec: extended result code `IOERR_READ`. -/
def IOERR_READ : ErrorCode := IOERR ||| (1 <<< 8)
/-- Modelled from the spec: extended result code `IOERR_SHORT_READ`. -/
def IOERR_SHORT_READ : ErrorCode := IOERR ||| (2 <<< 8)
/-- Modelled from the spec: extended result code `IOERR_CLOSE`. -/
def IOERR_CLOSE : ErrorCode := IOERR ||| (16 <<< 8)

/-- Modelled from the spec: the constant `ptrSize` is not among the sources. The
spec calls it the header size of the file structure: the slot index is kept
"at `file_ptr + header_size`", behind the one pointer that heads the structure
in the engine's 32-bit linear memory. -/
def ptrSize : Nat := 4

/-- The errors of Go's package `io` that the sources name, and any other error
value. -/
inductive IoError where
  | EOF
  | ErrNoProgress
  | ErrShortWrite
  | other
  deriving DecidableEq, Repr

/-- What a call `n, err := f.ReadAt(b, off)` leaves: the count, the error (`none`
is `nil`) and the contents of `b` after the call. -/
structure ReadResult where
  n : Nat
  err : Option IoError
  buf : Bytes
  deriving DecidableEq, Repr

/-- Conversion `int64(x)` of a `uint64`. -/
def int64 (x : Nat) : Int :=
  if x % 2 ^ 64 < 2 ^ 63 then ((x % 2 ^ 64 : Nat) : Int) else ((x % 2 ^ 64 : Nat) : Int) - 2 ^ 64

/-- The linear memory of the module instance is a list of bytes.
`Memory.Read(offset, byteCount)` of the runtime gives the view of `byteCount`
bytes at `offset`, or fails when the range is not inside the memory. -/
def Memory.Read (mem : Bytes) (offset byteCount : Nat) : Option Bytes :=
  if offset + byteCount ≤ mem.length then some ((mem.drop offset).take byteCount) else none

/-- A write through a view obtained from `Memory.Read`: the bytes at `offset`
are replaced by `v`. -/
def Memory.store (mem : Bytes) (offset : Nat) (v : Bytes) : Bytes :=
  mem.take offset ++ v ++ mem.drop (offset + v.length)

/-- The value of four bytes in little-endian order. -/
def leUint32 (b : Bytes) : Nat :=
  b.getD 0 0 + 256 * b.getD 1 0 + 65536 * b.getD 2 0 + 16777216 * b.getD 3 0

/-- `Memory.ReadUint32Le(offset)` of the runtime. -/
def Memory.ReadUint32Le (mem : Bytes) (offset : Nat) : Option Nat :=
  (Memory.Read mem offset 4).map leUint32

/-- `Memory.WriteUint32Le(offset, v)` of the runtime. -/
def Memory.WriteUint32Le (mem : Bytes) (offset v : Nat) : Option Bytes :=
  if offset + 4 ≤ mem.length
  then some (Memory.store mem offset [v % 256, v / 256 % 256, v / 65536 % 256, v / 16777216 % 256])
  else none

/-- The loop `for i := range c.files { if c.files[i] == nil { ... goto found } }`
of `vfsOpen`: the first index whose slot is nil, if there is one. A slot holds
an `*os.File`, identified by a number; `none` is `nil`. -/
def freeSlot : List (Option Nat) → Option Nat
  | [] => none
  | none :: _ => some 0
  | some _ :: fs => (freeSlot fs).map (· + 1)

/-- `func vfsOpen(ctx, mod, vfs, zName, file, flags, pOutFlags uint32) uint32`,
from the answer of `os.OpenFile` on: `opened` is the file it returned, `none`
when it returned an error (the name and the flags only choose that answer).
The result is the code returned, the file table `c.files` and the memory. -/
def vfsOpen (mem : Bytes) (files : List (Option Nat)) (opened : Option Nat) (file : Nat) :
    Except Fatal (ErrorCode × List (Option Nat) × Bytes) :=
  match opened with
  | none => .ok (CANTOPEN, files, mem)
  | some f =>
    let found : Nat × List (Option Nat) :=
      match freeSlot files with
      | some i => (i, files.set i (some f))
      | none => (files.length, files ++ [some f])
    match Memory.WriteUint32Le mem (u32 (file + ptrSize)) (u32 found.1) with
    | none => .error .rangeErr
    | some mem1 => .ok (_OK, found.2, mem1)

/-- `func vfsClose(ctx, mod, file uint32) uint32`. `closeFails f` tells whether
the operating system fails to close the file `f`; `Close` on a nil `*os.File`
returns an error. An index outside the table is a run-time panic. -/
def vfsClose (mem : Bytes) (files : List (Option Nat)) (closeFails : Nat → Bool) (file : Nat) :
    Except Fatal (ErrorCode × List (Option Nat)) :=
  match Memory.ReadUint32Le mem (u32 (file + ptrSize)) with
  | none => .error .rangeErr
  | some id =>
    match files[id]? with
    | none => .error .boundsErr
    | some f =>
      let err : Bool :=
        match f with
        | none => true
        | some fd => closeFails fd
      .ok (if err then IOERR_CLOSE else _OK, files.set id none)

/-- `func vfsFile(ctx, mod, file uint32) *os.File`. -/
def vfsFile (mem : Bytes) (files : List (Option Nat)) (file : Nat) :
    Except Fatal (Option Nat) :=
  match Memory.ReadUint32Le mem (u32 (file + ptrSize)) with
  | none => .error .rangeErr
  | some id =>
    match files[id]? with
    | none => .error .boundsErr
    | some f => .ok f

/-- The loop `for i := range mem[n:] { mem[i] = 0 }` of `vfsRead`: `i` runs over
the indices of the slice `mem[n:]`, that is from 0 to `len(mem) - n - 1`, and
the assignment is to `mem[i]`. -/
def zeroFill (mem : Bytes) (n : Nat) : Bytes :=
  (List.range (mem.length - n)).foldl (fun m i => m.set i 0) mem

/-- `func vfsRead(ctx, mod, file, buf, iAmt uint32, iOfst uint64) uint32`.
`ReadAt f b off` is what the method `ReadAt` of the file `f` does with the
buffer `b` at the offset `off` (`none` when it panics); it leaves the length of
`b` as it is. The buffer is a view of the memory, so what is written to it is
written to the memory. The slice expression `mem[n:]` panics when `n` exceeds
the length. The result is the code returned and the memory. -/
def vfsRead (mem : Bytes) (files : List (Option Nat))
    (ReadAt : Option Nat → Bytes → Int → Option ReadResult) (file buf iAmt iOfst : Nat) :
    Except Fatal (ErrorCode × Bytes) :=
  match Memory.Read mem buf iAmt with
  | none => .error .rangeErr
  | some view =>
    match vfsFile mem files file with
    | .error e => .error e
    | .ok f =>
      match ReadAt f view (int64 iOfst) with
      | none => .error .boundsErr
      | some r =>
        if r.n = iAmt then .ok (_OK, Memory.store mem buf r.buf)
        else if r.n = 0 ∧ r.err ≠ some .EOF then .ok (IOERR_READ, Memory.store mem buf r.buf)
        else if r.buf.length < r.n then .error .boundsErr
        else .ok (IOERR_SHORT_READ, Memory.store mem buf (zeroFill r.buf r.n))

/-- Sixteen bytes of memory: a file structure at 0 whose slot index, at
`0 + ptrSize`, is 0, and a buffer of four bytes `9` at 8. -/
def memSmall : Bytes := [0, 0, 0, 0, 0, 0, 0, 0, 9, 9, 9, 9, 0, 0, 0, 0]

/-- An `*os.File` of zeros: `ReadAt` with a negative offset returns 0 and an
error before it reads anything; otherwise it fills the buffer. -/
def readNegative : Option Nat → Bytes → Int → Option ReadResult :=
  fun _ b off =>
    if off < 0 then some ⟨0, some .other, b⟩ else some ⟨b.length, none, b.map (fun _ => 0)⟩

/-- A file that holds the single byte `7`: `ReadAt` at offset 0 reads it and
reports the end of the file when more was asked for. -/
def readOneByte : Option Nat → Bytes → Int → Option ReadResult :=
  fun _ b _ =>
    match b with
    | [] => some ⟨0, none, []⟩
    | [_] => some ⟨1, none, [7]⟩
    | _ :: rest => some ⟨1, some .EOF, 7 :: rest⟩

end sqlite3

/-! ## The data of the memory VFS (`vfs/memdb/memdb.go`) -/

namespace memdb

open sqlite3 (Bytes IoError ReadResult)

/-- `func modRoundUp(a, b int64) int64`; `%` of Go truncates towards zero. -/
def modRoundUp (a b : Int) : Int := b - Int.tmod (b - Int.tmod a b) b

/-- The value of an `int64` expression: the result modulo `2^64`, in the range
from `-2^63`. -/
def wrap64 (x : Int) : Int := (x + 2 ^ 63) % 2 ^ 64 - 2 ^ 63

/-- A sector as `new([sectorSize]byte)` makes it: all zero. -/
def newSector : List Nat := List.replicate sectorSize 0

/-- `func (m *memFile) ReadAt(b []byte, off int64) (n int, err error)`, on the
database of the file. An index `base` outside `m.data` and slice bounds
`rest:have` out of order are run-time panics (`none`). A sector is an array of
`sectorSize` bytes, so the slice `[rest:have]` has `have - rest` elements, and
`copy` copies as many as fit into `b`; ReadAt returns 0 after a short copy, but
the bytes copied are in `b`. -/
def memFile.ReadAt (m : memDB) (b : Bytes) (off : Int) : Option ReadResult :=
  if off ≥ m.size then some ⟨0, some .EOF, b⟩
  else
    let base := Int.tdiv off sectorSize
    let rest := Int.tmod off sectorSize
    let hav : Int :=
      if base = (m.data.length : Int) - 1 then modRoundUp m.size sectorSize else sectorSize
    if base < 0 then none
    else
      match m.data[base.toNat]? with
      | none => none
      | some sector =>
        if 0 ≤ rest ∧ rest ≤ hav ∧ hav ≤ sectorSize then
          let n := min b.length (hav - rest).toNat
          let copied := ((sector.drop rest.toNat).take n) ++ b.drop n
          if n < b.length then some ⟨0, some .ErrNoProgress, copied⟩
          else some ⟨n, none, copied⟩
        else none

/-- `func (m *memFile) WriteAt(b []byte, off int64) (n int, err error)`, on the
database of the file: the database after the call, `n` and `err`. The loop
`for base >= int64(len(m.data))` appends zero sectors until `base` is an index
of `m.data`; a negative `base` or `rest` is a run-time panic (`none`). The slice
`(*m.data[base])[rest:]` has `sectorSize - rest` elements. -/
def memFile.WriteAt (m : memDB) (b : Bytes) (off : Int) :
    Option (memDB × Nat × Option IoError) :=
  let base := Int.tdiv off sectorSize
  let rest := Int.tmod off sectorSize
  let data1 := m.data ++ List.replicate ((base + 1).toNat - m.data.length) newSector
  if base < 0 then none
  else
    match data1[base.toNat]? with
    | none => none
    | some sector =>
      if 0 ≤ rest then
        let n := min (sectorSize - rest.toNat) b.length
        let sector1 := sector.take rest.toNat ++ b.take n ++ sector.drop (rest.toNat + n)
        let m1 : memDB := { m with data := data1.set base.toNat sector1 }
        if n < b.length then some (m1, n, some .ErrShortWrite)
        else
          let size := wrap64 (off + (b.length : Int))
          some (if size > m.size then { m1 with size := size } else m1, n, none)
      else none

/-- The method `ReadAt` of a file of the memory VFS as the host read callback
calls it. -/
def readMem (m : memDB) : Option Nat → Bytes → Int → Option ReadResult :=
  fun _ b off => memFile.ReadAt m b off

/-- A database of two bytes in one sector. -/
def twoBytes : memDB := ⟨none, none, [[1, 2] ++ List.replicate 65534 0], 2, 0⟩

end memdb

/-! ## `CheckReservedLock` of the memory VFS (`vfs/memdb/memdb.go`) -/

namespace memdb

open vfs vfs.LockLevel

/-- `func (m *memFile) CheckReservedLock() (bool, error)`; the error is always
`nil`. -/
def memFile.CheckReservedLock (m : memFile) (db : memDB) : Bool :=
  if m.lock ≥ LOCK_RESERVED then true else decide (db.reserved ≠ none)

/-- Two writable files; file 0 goes `SHARED`, `RESERVED`, `EXCLUSIVE` and then
unlocks to `SHARED`; file 1 takes `SHARED`. -/
def writerDone : State :=
  (State.fresh [false, false]).calls
    [.Lock 0 LOCK_SHARED 0, .Lock 0 LOCK_RESERVED 0, .Lock 0 LOCK_EXCLUSIVE 0,
     .Unlock 0 LOCK_SHARED, .Lock 1 LOCK_SHARED 0]

end memdb

/-! ## `Truncate` and `SizeHint` of the memory VFS (`vfs/memdb/memdb.go`) -/

namespace memdb

open sqlite3 (Bytes IoError ReadResult)

/-- `func divRoundUp(a, b int64) int64`; the sum is an `int64` and `/` of Go
truncates towards zero. -/
def divRoundUp (a b : Int) : Int := Int.tdiv (wrap64 (a + b - 1)) b

/-- `func (m *memFile) truncate(size int64) error`, on the database of the file:
the database after the call; the error is always `nil`. An index `base` outside
`m.data` and a slice bound out of range (a negative `rest` or `sectors`) are
run-time panics (`none`). `clear` zeroes the elements of the slice; the sectors
beyond `sectors` are cut off. -/
def memFile.truncate (m : memDB) (size : Int) : Option memDB :=
  let cleared : Option (List (List Nat)) :=
    if size < m.size then
      let base := Int.tdiv size sectorSize
      let rest := Int.tmod size sectorSize
      if rest ≠ 0 then
        if base < 0 ∨ rest < 0 then none
        else
          match m.data[base.toNat]? with
          | none => none
          | some sector =>
            some (m.data.set base.toNat
              (sector.take rest.toNat ++ List.replicate (sector.length - rest.toNat) 0))
      else some m.data
    else some m.data
  match cleared with
  | none => none
  | some data0 =>
    let sectors := divRoundUp size sectorSize
    let data1 := data0 ++ List.replicate (sectors.toNat - data0.length) newSector
    if sectors < 0 then none
    else some { m with data := data1.take sectors.toNat, size := size }

/-- `func (m *memFile) Truncate(size int64) error`. -/
def memFile.Truncate (m : memDB) (size : Int) : Option memDB :=
  memFile.truncate m size

/-- `func (m *memFile) SizeHint(size int64) error`. -/
def memFile.SizeHint (m : memDB) (size : Int) : Option memDB :=
  if size > m.size then memFile.truncate m size else some m

/-- The calls that touch the data of a database. -/
inductive DataCall where
  | WriteAt (b : Bytes) (off : Int)
  | Truncate (size : Int)
  | SizeHint (size : Int)

/-- The offset or size of the call is a non-negative `int64`, and so is the
end of a write (a write that ends beyond it needs `2^47` sectors). -/
def DataCall.inRange : DataCall → Prop
  | .WriteAt b off => 0 ≤ off ∧ off + (b.length : Int) < 2 ^ 63
  | .Truncate size => 0 ≤ size ∧ size < 2 ^ 63
  | .SizeHint size => 0 ≤ size ∧ size < 2 ^ 63

/-- Outcome of a call that returns: the database after it and the error. -/
def memDB.dataCall (m : memDB) : DataCall → Option (memDB × Option IoError)
  | .WriteAt b off => (memFile.WriteAt m b off).map (fun r => (r.1, r.2.2))
  | .Truncate size => (memFile.Truncate m size).map (fun m1 => (m1, none))
  | .SizeHint size => (memFile.SizeHint m size).map (fun m1 => (m1, none))

/-- The empty database, `new(memDB)`. -/
def emptyDB : memDB := ⟨none, none, [], 0, 0⟩

/-- States reached from the empty database by `WriteAt`, `Truncate` and
`SizeHint` calls, with offsets and sizes in range, that return; with
`successful` every call returned without an error. -/
inductive Written (successful : Bool) : memDB → Prop where
  | empty : Written successful emptyDB
  | call {m m1 : memDB} {err : Option IoError} (c : DataCall) :
      Written successful m → c.inRange → m.dataCall c = some (m1, err) →
      (successful = true → err = none) → Written successful m1

/-- The byte at an offset of the sector list. -/
def memDB.byteAt (m : memDB) (off : Nat) : Option Nat :=
  match m.data[off / sectorSize]? with
  | none => none
  | some sector => sector[off % sectorSize]?

/-- What holds of the data of a database in every state: the size is not
negative and lies within the sectors, each of which has `sectorSize` bytes. -/
structure DataInv (m : memDB) : Prop where
  size_nonneg : 0 ≤ m.size
  size_le : m.size ≤ ((m.data.length * sectorSize : Nat) : Int)
  sectors : ∀ s ∈ m.data, s.length = sectorSize

/-- Every byte of a sector at an offset at or beyond the size is zero. -/
def ZeroTail (m : memDB) : Prop :=
  ∀ off : Nat, m.size ≤ (off : Int) → off / sectorSize < m.data.length → m.byteAt off = some 0

end memdb

/-! ## `Open` of the memory VFS (`vfs/memdb/memdb.go`) -/

namespace vfs

/-- Modelled from the spec: the open flags (`vfs/const.go`) are not among the
sources. The spec names the closed set of flags; the values are those of the
engine's C interface. Flag `READONLY`. -/
def OPEN_READONLY : Nat := 0x1
/-- Modelled from the spec: flag `CREATE`. -/
def OPEN_CREATE : Nat := 0x4
/-- Modelled from the spec: flag `MEMORY`. -/
def OPEN_MEMORY : Nat := 0x80
/-- Modelled from the spec: flag `MAIN_DB`. -/
def OPEN_MAIN_DB : Nat := 0x100
/-- Modelled from the spec: flag `TEMP_DB`. -/
def OPEN_TEMP_DB : Nat := 0x200
/-- Modelled from the spec: flag `TRANSIENT_DB`. -/
def OPEN_TRANSIENT_DB : Nat := 0x400
/-- Modelled from the spec: flag `TEMP_JOURNAL`. -/
def OPEN_TEMP_JOURNAL : Nat := 0x1000

end vfs

namespace memdb

open vfs vfs.LockLevel
open sqlite3 (Bytes)

/-- The map `memoryDBs` from names to `*memDB`. A `*memDB` is the index of the
database among the databases allocated so far. -/
abbrev Registry := List (Bytes × Nat)

/-- The map lookup `memoryDBs[name]`; `none` is `nil`. -/
def Registry.find : Registry → Bytes → Option Nat
  | [], _ => none
  | (k, v) :: r, name => if k = name then some v else Registry.find r name

/-- The map assignment `memoryDBs[name] = db`. -/
def Registry.assign : Registry → Bytes → Nat → Registry
  | [], name, db => [(name, db)]
  | (k, v) :: r, name, db =>
    if k = name then (k, db) :: r else (k, v) :: Registry.assign r name db

/-- The process: every `memDB` allocated so far and the registry of the shared
ones. -/
structure Process where
  heap : List memDB
  memoryDBs : Registry

/-- What `Open` returns: the file with the pointer to its database (`none` is a
nil file), the flags and the error. -/
structure OpenResult where
  file : Option (Nat × memFile)
  flags : Nat
  err : Option sqlite3.ErrorCode

/-- `strings.HasPrefix(name, "/")`. -/
def isShared (name : Bytes) : Bool := name.head? == some 47

/-- `func (memVFS) Open(name string, flags vfs.OpenFlag) (vfs.File, vfs.OpenFlag, error)`
with the process state it leaves. -/
def memVFS.Open (p : Process) (name : Bytes) (flags : Nat) : Process × OpenResult :=
  let types := OPEN_MAIN_DB ||| OPEN_TRANSIENT_DB ||| OPEN_TEMP_DB ||| OPEN_TEMP_JOURNAL
  if flags &&& types = 0 then (p, ⟨none, flags, some sqlite3.CANTOPEN⟩)
  else
    let shared := isShared name
    let db : Option Nat := if shared then p.memoryDBs.find (name.drop 1) else none
    match db with
    | none =>
      if flags &&& OPEN_CREATE = 0 then (p, ⟨none, flags, some sqlite3.CANTOPEN⟩)
      else
        let d := p.heap.length
        (⟨p.heap ++ [emptyDB],
          if shared then p.memoryDBs.assign (name.drop 1) d else p.memoryDBs⟩,
         ⟨some (d, ⟨LOCK_NONE, decide (flags &&& OPEN_READONLY ≠ 0)⟩),
          flags ||| OPEN_MEMORY, none⟩)
    | some d =>
      (⟨p.heap, if shared then p.memoryDBs.assign (name.drop 1) d else p.memoryDBs⟩,
       ⟨some (d, ⟨LOCK_NONE, decide (flags &&& OPEN_READONLY ≠ 0)⟩),
        flags ||| OPEN_MEMORY, none⟩)

/-- The process after a list of `Open` calls, each with its name and flags. -/
def Process.opens (p : Process) : List (Bytes × Nat) → Process
  | [] => p
  | (name, flags) :: rest => Process.opens (memVFS.Open p name flags).1 rest

/-- The process at its start: nothing allocated, nothing registered. -/
def Process.start : Process := ⟨[], []⟩

/-- Every registered pointer is an allocated database. -/
def Process.WF (p : Process) : Prop :=
  ∀ name d, p.memoryDBs.find name = some d → d < p.heap.length

/-- The name `/a`. -/
def nameShared : Bytes := [47, 97]

/-- The name `a`. -/
def namePrivate : Bytes := [97]

end memdb

/-! ## The Bloom filter table (`ext/bloom/bloom.go`) -/

namespace ext

open sqlite3 (Bytes)

/-- The fields of the `bloom` struct that `Update` and `Filter` compute with:
the length of the filter in bytes and the number of hash functions. The
connection and the names only say where the filter is stored. -/
structure bloom where
  nfilter : Int
  hashes : Int

/-- The blob handle that `OpenBlob` returns is not among the sources (`blob.go`),
so it is a parameter: over a state `σ` of the storage, whether `OpenBlob`
succeeds (for writing or not), what `Seek(bytepos, io.SeekStart)` followed by
`Read(buf[:])` reads into the one-byte buffer (`none` when either returns an
error), and the storage after `Seek` followed by `Write(buf[:])` (`none` when
either returns an error). -/
structure Blob (σ : Type) where
  openBlob : σ → Bool → Bool
  read : σ → Nat → Option Nat
  write : σ → Nat → Nat → Option σ

/-- What is asked of the blob: a byte that is read after a successful write is
the byte written, at the position written, and the byte that was there before
the write, at every other position. -/
def Blob.Lawful {σ : Type} (db : Blob σ) : Prop :=
  ∀ s pos v s1, db.write s pos v = some s1 →
    ∀ q u, db.read s1 q = some u → (q = pos → u = v) ∧ (q ≠ pos → db.read s q = some u)

/-- `func calcHash(k int, b []byte) uint64`; `siphash` is the function
`siphash.Hash` of the library, taken as a parameter, and `^uint64(k)` is the
complement in 64 bits. -/
def calcHash (siphash : Nat → Nat → Bytes → Nat) (k : Int) (b : Bytes) : Nat :=
  siphash (2 ^ 64 - 1 - (k % 2 ^ 64).toNat) (k % 2 ^ 64).toNat b % 2 ^ 64

/-- The value `uint64(b.nfilter * 8)`. -/
def bloom.bits (b : bloom) : Nat := ((b.nfilter * 8) % 2 ^ 64).toNat

/-- The bit of the filter that the hash function `n` gives for `blob`, as the
loops of `Update` and `Filter` compute it: `bytepos` and `bitpos`. -/
def bloom.position (b : bloom) (siphash : Nat → Nat → Bytes → Nat) (n : Int) (blob : Bytes) :
    Nat × Nat :=
  let hash := calcHash siphash n blob % b.bits
  (hash / 8, hash % 8)

/-- The loop `for n := 0; n < b.hashes; n++` of `Update`, from `n` on with
`fuel` rounds left to go. The result is the storage and whether an error is
returned; `none` is the run-time panic of `hash %= 0`. -/
def updateLoop {σ : Type} (db : Blob σ) (siphash : Nat → Nat → Bytes → Nat) (b : bloom)
    (blob : Bytes) : Nat → Int → σ → Option (σ × Bool)
  | 0, _, s => some (s, false)
  | fuel + 1, n, s =>
    if b.bits = 0 then none
    else
      match db.read s (b.position siphash n blob).1 with
      | none => some (s, true)
      | some v =>
        match db.write s (b.position siphash n blob).1
            ((v ||| (1 <<< (b.position siphash n blob).2)) % 256) with
        | none => some (s, true)
        | some s1 => updateLoop db siphash b blob fuel (n + 1) s1

/-- `func (b *bloom) Update(arg ...sqlite3.Value) (rowid int64, err error)`:
`isNull` says whether `arg[0]` is `NULL` (an insertion) and `blob` is
`arg[2].RawBlob()`. -/
def bloom.Update {σ : Type} (b : bloom) (db : Blob σ) (siphash : Nat → Nat → Bytes → Nat)
    (s : σ) (isNull : Bool) (blob : Bytes) : Option (σ × Bool) :=
  if !isNull then some (s, true)
  else if !db.openBlob s true then some (s, true)
  else updateLoop db siphash b blob b.hashes.toNat 0 s

/-- The loop `for n := 0; n < c.hashes; n++` of `Filter`, from `n` on with
`fuel` rounds left to go and `c.eof` as it stands. The result is `c.eof` and
whether an error is returned. -/
def filterLoop {σ : Type} (db : Blob σ) (siphash : Nat → Nat → Bytes → Nat) (b : bloom)
    (blob : Bytes) (s : σ) : Nat → Int → Bool → Option (Bool × Bool)
  | 0, _, eof => some (eof, false)
  | fuel + 1, n, eof =>
    if b.bits = 0 then none
    else
      match db.read s (b.position siphash n blob).1 with
      | none => some (eof, true)
      | some v =>
        if v &&& (1 <<< (b.position siphash n blob).2) = 0 then some (true, false)
        else filterLoop db siphash b blob s fuel (n + 1) false

/-- `func (c *cursor) Filter(idxNum int, idxStr string, arg ...sqlite3.Value) error`:
`eof` is `c.eof` before the call and `args` holds `arg[i].RawBlob()` for each
argument. The result is `c.eof` after the call and whether an error is
returned. -/
def cursor.Filter {σ : Type} (b : bloom) (db : Blob σ) (siphash : Nat → Nat → Bytes → Nat)
    (s : σ) (eof : Bool) (args : List Bytes) : Option (Bool × Bool) :=
  match args with
  | [blob] =>
    if !db.openBlob s false then some (false, true)
    else filterLoop db siphash b blob s b.hashes.toNat 0 false
  | _ => some (eof, false)

/-- The storage after the insertions of `blobs`, one after the other, whether
they succeed or not. -/
def bloom.inserts {σ : Type} (b : bloom) (db : Blob σ) (siphash : Nat → Nat → Bytes → Nat)
    (s : σ) : List Bytes → σ
  | [] => s
  | blob :: rest =>
    match b.Update db siphash s true blob with
    | some (s1, _) => bloom.inserts b db siphash s1 rest
    | none => bloom.inserts b db siphash s rest

/-- The bit `k` of the byte at `pos` is set, as far as the byte can be read. -/
def Marked {σ : Type} (db : Blob σ) (s : σ) (pos k : Nat) : Prop :=
  ∀ u, db.read s pos = some u → u &&& (1 <<< k) ≠ 0

/-- A blob kept as a list of bytes: reads and writes fail beyond its end. -/
def listBlob : Blob (List Nat) :=
  ⟨fun _ _ => true, fun s pos => s[pos]?,
   fun s pos v => if pos < s.length then some (s.set pos v) else none⟩

/-- A hash function for the examples. -/
def sumHash : Nat → Nat → Bytes → Nat := fun _ k1 blob => k1 * 7 + blob.sum

end ext

/-! ## The lock bytes of the OS-file VFS -/

namespace vfs

open LockLevel sqlite3

/-- Modelled from the spec: the code that locks OS files is not among the
sources. The spec says that locking "uses platform advisory file-region locks":
what one handle holds on one range of the lock bytes is nothing, a `SHARED`
lock or an `EXCLUSIVE` lock. -/
inductive ByteLock where
  | unlocked
  | shared
  | exclusive
  deriving DecidableEq, Repr

/-- Modelled from the spec: one handle on an OS-file database, with its lock
level and what it holds on the ranges of "the canonical engine lock-byte
layout": "one pending byte, one reserved byte, and a contiguous shared byte
region". The test of the sources names the struct `vfsFile`. -/
structure vfsFile where
  lock : LockLevel
  pending : ByteLock
  reserved : ByteLock
  region : ByteLock
  deriving DecidableEq, Repr

/-- Modelled from the spec: the rule of advisory region locks. With `held` on a
range by another handle, a lock `want` on the range is compatible when `want`
is `SHARED` and `held` is not `EXCLUSIVE`, or `want` is `EXCLUSIVE` and `held`
is nothing. -/
def ByteLock.compatible (held : ByteLock) : ByteLock → Bool
  | .unlocked => true
  | .shared => held ≠ .exclusive
  | .exclusive => held = .unlocked

/-- Modelled from the spec: the non-blocking acquisition of `want` on the range
`byte` by the handle `i` succeeds when what every other handle holds on the
range is compatible with it. -/
def osLock (files : List vfsFile) (i : Nat) (byte : vfsFile → ByteLock) (want : ByteLock) :
    Bool :=
  (List.range files.length).all fun j =>
    decide (j = i) ||
      match files[j]? with
      | some g => (byte g).compatible want
      | none => true

/-- Modelled from the spec: `Lock` of the handle `i` among the handles `files`
of one database file, by the transitions of the spec. `NONE → SHARED`: "take
`SHARED` on pending byte, take `SHARED` on any shared-region byte, release
pending". `SHARED → RESERVED`: "take `EXCLUSIVE` on reserved byte".
`RESERVED → EXCLUSIVE`: "take `EXCLUSIVE` on pending byte, then attempt
`EXCLUSIVE` on entire shared region (may fail `BUSY`)"; the spec does not say
that the pending byte is given back when the attempt fails, so it stays taken.
An acquisition that fails gives `BUSY`. A level that the handle holds already
is granted as it is: the test of the sources asks for `SHARED` at `RESERVED`
and expects `OK`. The result is `none` for a handle that does not exist and for
a transition that the spec does not describe. -/
def vfsLock (files : List vfsFile) (i : Nat) (eLock : LockLevel) :
    Option (List vfsFile × ErrorCode) :=
  match files[i]? with
  | none => none
  | some f =>
    if eLock ≤ f.lock then some (files, _OK)
    else
      match f.lock, eLock with
      | LOCK_NONE, LOCK_SHARED =>
        if !osLock files i (·.pending) .shared then some (files, BUSY)
        else if !osLock files i (·.region) .shared then some (files, BUSY)
        else some (files.set i { f with lock := LOCK_SHARED, region := .shared }, _OK)
      | LOCK_SHARED, LOCK_RESERVED =>
        if !osLock files i (·.reserved) .exclusive then some (files, BUSY)
        else some (files.set i { f with lock := LOCK_RESERVED, reserved := .exclusive }, _OK)
      | LOCK_RESERVED, LOCK_EXCLUSIVE =>
        if !osLock files i (·.pending) .exclusive then some (files, BUSY)
        else if !osLock files i (·.region) .exclusive then
          some (files.set i { f with pending := .exclusive }, BUSY)
        else
          some (files.set i
            { f with lock := LOCK_EXCLUSIVE, pending := .exclusive, region := .exclusive }, _OK)
      | _, _ => none

/-- Modelled from the spec: `Unlock` of the handle `i`. `EXCLUSIVE → SHARED`:
"drop region to `SHARED`, drop reserved, keep pending momentarily, drop
pending". Any level to `NONE`: "release all". The result is `none` for a handle
that does not exist and for a transition that the spec does not describe. -/
def vfsUnlock (files : List vfsFile) (i : Nat) (eLock : LockLevel) :
    Option (List vfsFile × ErrorCode) :=
  match files[i]? with
  | none => none
  | some f =>
    match eLock with
    | LOCK_NONE => some (files.set i ⟨LOCK_NONE, .unlocked, .unlocked, .unlocked⟩, _OK)
    | LOCK_SHARED =>
      if f.lock = LOCK_EXCLUSIVE then
        some (files.set i ⟨LOCK_SHARED, .unlocked, .unlocked, .shared⟩, _OK)
      else none
    | _ => none

/-- A handle that was opened and holds no lock. -/
def vfsFile.fresh : vfsFile := ⟨LOCK_NONE, .unlocked, .unlocked, .unlocked⟩

/-- The handles of one database file after any number of handles were opened on
it and any calls of `Lock` and `Unlock` were made on them, one after the
other. -/
inductive Locked : List vfsFile → Prop
  | opened (n : Nat) : Locked (List.replicate n vfsFile.fresh)
  | lock {files files1 : List vfsFile} {rc : ErrorCode} (i : Nat) (eLock : LockLevel) :
      Locked files → vfsLock files i eLock = some (files1, rc) → Locked files1
  | unlock {files files1 : List vfsFile} {rc : ErrorCode} (i : Nat) (eLock : LockLevel) :
      Locked files → vfsUnlock files i eLock = some (files1, rc) → Locked files1

/-- What a handle holds on the lock bytes at each level that the transitions
reach. -/
def vfsFile.Held (f : vfsFile) : Prop :=
  match f.lock with
  | LOCK_NONE => f.pending = .unlocked ∧ f.reserved = .unlocked ∧ f.region = .unlocked
  | LOCK_SHARED => f.pending = .unlocked ∧ f.reserved = .unlocked ∧ f.region = .shared
  | LOCK_RESERVED => f.pending ≠ .shared ∧ f.reserved = .exclusive ∧ f.region = .shared
  | LOCK_PENDING => False
  | LOCK_EXCLUSIVE => f.pending = .exclusive ∧ f.reserved = .exclusive ∧ f.region = .exclusive

/-- Two locks of two handles on one range are as the operating system allows:
when one is `EXCLUSIVE` the other is nothing. -/
def ByteLock.Apart (a b : ByteLock) : Prop :=
  (a = .exclusive → b = .unlocked) ∧ (b = .exclusive → a = .unlocked)

/-- The handles of one database file hold what their levels ask for, and what
two of them hold on the pending byte and on the shared region is as the
operating system allows. -/
structure LockBytes (files : List vfsFile) : Prop where
  held : ∀ (i : Nat) (f : vfsFile), files[i]? = some f → f.Held
  pending : ∀ (i j : Nat) (f g : vfsFile), i ≠ j → files[i]? = some f → files[j]? = some g →
    f.pending.Apart g.pending
  region : ∀ (i j : Nat) (f g : vfsFile), i ≠ j → files[i]? = some f → files[j]? = some g →
    f.region.Apart g.region

/-- The two handles of the test after the second went through `SHARED` and
`RESERVED` to `EXCLUSIVE`. -/
def secondExclusive : List vfsFile :=
  [vfsFile.fresh, ⟨LOCK_EXCLUSIVE, .exclusive, .exclusive, .exclusive⟩]

end vfs

/-! ## The interrupter goroutines of `SetInterrupt` (`conn.go`) -/

namespace sqlite3

/-- Where the goroutine that a call of `SetInterrupt` starts with `go func()`
stands: in the first `select`; in the `for` loop at the call of
`c.api.interrupt.Call`; in the `select` of the loop; after it received from
`waiter`, at the send `waiter <- struct{}{}`; and after that send, with only
`return` ahead. -/
inductive Interrupter where
  | selecting
  | interrupting
  | waiting
  | acknowledging
  | finished
  deriving DecidableEq, Repr

/-- Where the goroutine that calls `SetInterrupt` stands: outside of a call; in
a call with the argument `done`, at the send `c.waiter <- struct{}{}`; in a
call at the receive `<-c.waiter`. -/
inductive Caller where
  | idle
  | cancelling (done : Option Nat)
  | awaiting (done : Option Nat)
  deriving DecidableEq, Repr

/-- The fields `done` and `waiter` of a connection, the goroutines started by
`SetInterrupt` so far, the caller, and the record of the calls: the arguments
of the calls made and the values returned. A channel `done` is a number and
`nil` is `none`; the channel `waiter` is unbuffered and has the starting call
and the goroutine started as its two ends, so it is identified by the index of
the goroutine in `tasks`. -/
structure Sys where
  done : Option Nat
  waiter : Option Nat
  tasks : List Interrupter
  pc : Caller
  calls : List (Option Nat)
  olds : List (Option Nat)
  deriving DecidableEq, Repr

/-- What happens next: the caller enters `SetInterrupt(done)`; the caller goes
through the channel operation it stands at; the goroutine `i` takes
`case <-done` of its first `select`; its call of `interrupt` returns without an
error (an error is a panic, which ends the process); it takes
`case <-ticker.C`. -/
inductive Event where
  | SetInterrupt (done : Option Nat)
  | proceed
  | closed (i : Nat)
  | interrupted (i : Nat)
  | tick (i : Nat)
  deriving DecidableEq, Repr

/-- The part of `SetInterrupt` from `old = c.done` on: it has no channel
operation, so it is one step. The value returned is added to `olds`. -/
def Sys.install (s : Sys) (done : Option Nat) : Sys :=
  let s1 : Sys := { s with done := done, olds := s.olds ++ [s.done], pc := .idle }
  match done with
  | none => s1
  | some _ => { s1 with waiter := some s.tasks.length, tasks := s.tasks ++ [.selecting] }

/-- One step of the connection and its goroutines; `none` when the event cannot
happen in the state. A send and the receive that takes it are one step of the
two goroutines, the channel being unbuffered: the send of the caller is taken
by the goroutine of `c.waiter` in one of its two `select` statements, and the
receive of the caller takes the send of that goroutine. `SetInterrupt` is
entered only by a caller that is not inside of it. -/
def Sys.step (s : Sys) : Event → Option Sys
  | .SetInterrupt done =>
    match s.pc with
    | .idle =>
      let s1 : Sys := { s with calls := s.calls ++ [done] }
      match s.waiter with
      | some _ => some { s1 with pc := .cancelling done }
      | none => some (s1.install done)
    | _ => none
  | .proceed =>
    match s.pc, s.waiter with
    | .cancelling done, some w =>
      match s.tasks[w]? with
      | some .selecting =>
        some { s with tasks := s.tasks.set w .acknowledging, pc := .awaiting done }
      | some .waiting =>
        some { s with tasks := s.tasks.set w .acknowledging, pc := .awaiting done }
      | _ => none
    | .awaiting done, some w =>
      match s.tasks[w]? with
      | some .acknowledging =>
        some (Sys.install { s with tasks := s.tasks.set w .finished, waiter := none } done)
      | _ => none
    | _, _ => none
  | .closed i =>
    match s.tasks[i]? with
    | some .selecting => some { s with tasks := s.tasks.set i .interrupting }
    | _ => none
  | .interrupted i =>
    match s.tasks[i]? with
    | some .interrupting => some { s with tasks := s.tasks.set i .waiting }
    | _ => none
  | .tick i =>
    match s.tasks[i]? with
    | some .waiting => some { s with tasks := s.tasks.set i .interrupting }
    | _ => none

/-- The steps of a list of events, one after the other. -/
def Sys.run (s : Sys) : List Event → Option Sys
  | [] => some s
  | e :: es =>
    match s.step e with
    | none => none
    | some s1 => s1.run es

/-- A connection as `Open` returns it: no signal, no goroutine. -/
def Sys.start : Sys := ⟨none, none, [], .idle, [], []⟩

/-- The states that the connection and its goroutines go through. -/
inductive Runs : Sys → Prop
  | start : Runs Sys.start
  | step {s s1 : Sys} (e : Event) : Runs s → s.step e = some s1 → Runs s1

/-- What holds in every state. Every goroutine but the one of `c.waiter` is
finished, and that one is the last that was started; it is not finished, and
it stands at its acknowledgement when the caller stands at the receive, and
only then. Inside of a call `c.waiter` is not nil; outside it is nil when
`c.done` is. The values returned so far are nil and then the arguments of the
calls in their order, `c.done` is the argument of the last call that got to
its assignment, inside of a call the last argument recorded is that of the
call, and the goroutines started are as many as the calls with a signal that
is not nil which got to their end. -/
structure Handshake (s : Sys) : Prop where
  others : ∀ (i : Nat) (t : Interrupter), s.tasks[i]? = some t → t ≠ .finished →
    s.waiter = some i
  last : ∀ w : Nat, s.waiter = some w → w + 1 = s.tasks.length
  live : ∀ (w : Nat) (t : Interrupter), s.waiter = some w → s.tasks[w]? = some t →
    t ≠ .finished ∧ (t = .acknowledging ↔ ∃ done, s.pc = .awaiting done)
  inside : s.pc ≠ .idle → s.waiter ≠ none
  outside : s.pc = .idle → (s.waiter = none ↔ s.done = none)
  returned : s.olds = (none :: s.calls).take s.olds.length
  current : (none :: s.calls)[s.olds.length]? = some s.done
  complete : s.pc = .idle → s.olds.length = s.calls.length
  pending : ∀ done, s.pc = .cancelling done ∨ s.pc = .awaiting done →
    s.calls = s.calls.take s.olds.length ++ [done]
  started : s.tasks.length = ((s.calls.take s.olds.length).filter Option.isSome).length

/-- The test "interrupter reset" of the spec: `SetInterrupt(a)`, the signal `a`
fires and the interrupter interrupts once, then `SetInterrupt(b)` is entered
and stands at its send. -/
def resetEvents : List Event :=
  [.SetInterrupt (some 1), .closed 0, .interrupted 0, .SetInterrupt (some 2)]

/-- The state after `resetEvents`. -/
def resetState : Sys :=
  ⟨some 1, some 0, [.waiting], .cancelling (some 2), [some 1, some 2], [none]⟩

end sqlite3

/-! ## Lists: replacing one entry -/

namespace memdb

theorem countP_set_add {α : Type} (p : α → Bool) (l : List α) (i : Nat) (a b : α)
    (h : l[i]? = some b) :
    (l.set i a).countP p + (if p b then 1 else 0) = l.countP p + (if p a then 1 else 0) := by
  induction l generalizing i with
  | nil => simp at h
  | cons x xs ih =>
    cases i with
    | zero =>
      simp at h
      subst h
      simp [List.countP_cons]
      omega
    | succ n =>
      simp at h
      have := ih n h
      simp [List.countP_cons]
      omega

theorem countP_le_one_unique {α : Type} (p : α → Bool) (l : List α) (i j : Nat) (a b : α)
    (hc : l.countP p ≤ 1) (hi : l[i]? = some a) (hj : l[j]? = some b)
    (ha : p a = true) (hb : p b = true) : i = j := by
  induction l generalizing i j with
  | nil => simp at hi
  | cons x xs ih =>
    have hpos : ∀ (k : Nat) (c : α), xs[k]? = some c → p c = true → 0 < xs.countP p := by
      intro k c hk hc
      exact List.countP_pos_iff.mpr ⟨c, List.getElem?_mem hk, hc⟩
    cases i with
    | zero =>
      cases j with
      | zero => rfl
      | succ m =>
        simp at hi hj
        subst hi
        have := hpos m b hj hb
        rw [List.countP_cons_of_pos p xs ha] at hc
        omega
    | succ n =>
      cases j with
      | zero =>
        simp at hi hj
        subst hj
        have := hpos n a hi ha
        rw [List.countP_cons_of_pos p xs hb] at hc
        omega
      | succ m =>
        simp at hi hj
        have hc2 : xs.countP p ≤ 1 := by
          simp [List.countP_cons] at hc
          omega
        rw [ih n m hc2 hi hj]

end memdb

/-! ## What one call does to its file and to the database -/

namespace memdb
open vfs vfs.LockLevel

theorem LockLevel.le_iff (a b : LockLevel) : a ≤ b ↔ a.toNat ≤ b.toNat := Iff.rfl

theorem LockLevel.lt_iff (a b : LockLevel) : a < b ↔ a.toNat < b.toNat := Iff.rfl

theorem Lock_shared (self : Nat) (m : memFile) (db : memDB) (lock : LockLevel)
    (hp : LOCK_SHARED < lock → LOCK_SHARED ≤ m.lock) :
    (m.Lock self db lock).db.shared
      = db.shared + held (m.Lock self db lock).file.lock - held m.lock := by
  obtain ⟨lk, ro⟩ := m
  by_cases h1 : db.pending = none <;> by_cases h2 : db.reserved = none <;>
    by_cases h3 : db.shared > 1 <;> cases lk <;> cases lock <;> cases ro <;>
    simp [memFile.Lock, held, LockLevel.le_iff, LockLevel.lt_iff, LockLevel.toNat, h1, h2, h3]
      at hp ⊢

theorem Lock_pending_other (self : Nat) (m : memFile) (db : memDB) (lock : LockLevel)
    (k : Nat) (hk : k ≠ self) (h : (m.Lock self db lock).db.pending = some k) :
    db.pending = some k := by
  obtain ⟨lk, ro⟩ := m
  by_cases h1 : db.pending = none <;>
    by_cases h3 : db.shared > 1 <;> cases lk <;> cases lock <;> cases ro <;>
    simp [memFile.Lock, LockLevel.le_iff, LockLevel.lt_iff, LockLevel.toNat, h1, h3] at h ⊢ <;>
    first
      | exact h
      | exact absurd h.symm hk
      | (split_ifs at h <;> first | exact h | exact absurd h.symm hk | simp [h1] at h)

theorem Lock_pending_self (self : Nat) (m : memFile) (db : memDB) (lock : LockLevel)
    (h : (m.Lock self db lock).db.pending = some self)
    (ih : db.pending = some self → LOCK_PENDING ≤ m.lock) :
    LOCK_PENDING ≤ (m.Lock self db lock).file.lock := by
  obtain ⟨lk, ro⟩ := m
  by_cases h1 : db.pending = none <;>
    by_cases h3 : db.shared > 1 <;> cases lk <;> cases lock <;> cases ro <;>
    simp [memFile.Lock, LockLevel.le_iff, LockLevel.lt_iff, LockLevel.toNat, h1, h3] at h ih ⊢ <;>
    first
      | exact ih h
      | (split_ifs at h ⊢ <;> simp_all [LockLevel.toNat])

theorem Lock_reserved_self (self : Nat) (m : memFile) (db : memDB) (lock : LockLevel)
    (h : (m.Lock self db lock).file.lock = LOCK_RESERVED)
    (ih : m.lock = LOCK_RESERVED → db.reserved = some self) :
    (m.Lock self db lock).db.reserved = some self := by
  obtain ⟨lk, ro⟩ := m
  by_cases h1 : db.pending = none <;> by_cases h2 : db.reserved = none <;>
    by_cases h3 : db.shared > 1 <;> cases lk <;> cases lock <;> cases ro <;>
    simp [memFile.Lock, LockLevel.le_iff, LockLevel.lt_iff, LockLevel.toNat, h1, h2, h3]
      at h ih ⊢ <;>
    exact ih

theorem Lock_reserved_other (self : Nat) (m : memFile) (db : memDB) (lock : LockLevel)
    (k : Nat) (h : db.reserved = some k) :
    (m.Lock self db lock).db.reserved = some k := by
  obtain ⟨lk, ro⟩ := m
  by_cases h1 : db.pending = none <;>
    by_cases h3 : db.shared > 1 <;> cases lk <;> cases lock <;> cases ro <;>
    simp [memFile.Lock, LockLevel.le_iff, LockLevel.lt_iff, LockLevel.toNat, h1, h, h3]

theorem Lock_sound (self : Nat) (m : memFile) (db : memDB) (lock : LockLevel)
    (hp : LOCK_SHARED < lock → LOCK_SHARED ≤ m.lock) :
    Sound self m db (m.Lock self db lock) :=
  ⟨Lock_shared self m db lock hp,
   fun k hk h => Lock_pending_other self m db lock k hk h,
   Lock_pending_self self m db lock,
   Lock_reserved_self self m db lock,
   fun k _ h => Lock_reserved_other self m db lock k h⟩

theorem Unlock_noop (self : Nat) (m : memFile) (db : memDB) (lock : LockLevel)
    (h : m.lock ≤ lock) : m.Unlock self db lock = ⟨m, db, none⟩ := by
  simp [memFile.Unlock, h]

theorem Unlock_eq (self : Nat) (m : memFile) (db : memDB) (lock : LockLevel)
    (h : ¬ m.lock ≤ lock) :
    m.Unlock self db lock =
      ⟨{ m with lock := lock },
       { db with
          pending := if db.pending = some self then none else db.pending
          reserved := if db.reserved = some self then none else db.reserved
          shared := if lock < LOCK_SHARED then db.shared - 1 else db.shared },
       none⟩ := by
  simp only [memFile.Unlock, if_neg h]
  split_ifs <;> rfl

theorem Unlock_sound (self : Nat) (m : memFile) (db : memDB) (lock : LockLevel)
    (hu : lock = LOCK_SHARED ∨ lock = LOCK_NONE) :
    Sound self m db (m.Unlock self db lock) := by
  by_cases hle : m.lock ≤ lock
  · rw [Unlock_noop self m db lock hle]
    exact ⟨by simp, fun k _ h => h, fun h ih => ih h, fun h ih => ih h, fun k _ h => h⟩
  · rw [Unlock_eq self m db lock hle]
    obtain ⟨lk, ro⟩ := m
    refine ⟨?_, ?_, ?_, ?_, ?_⟩
    · rcases hu with rfl | rfl <;> cases lk <;>
        simp [held, LockLevel.le_iff, LockLevel.lt_iff, LockLevel.toNat] at hle ⊢
    · intro k hk h
      dsimp only at h
      split_ifs at h
      exact h
    · intro h
      dsimp only at h
      split_ifs at h
      contradiction
    · intro h
      rcases hu with rfl | rfl <;> simp at h
    · intro k hk h
      have hne : ¬ some k = some self := by simpa using hk
      simp [h, hne]

/-! ## The invariant is kept by every admitted call -/

theorem run_of_none (s : State) (i : Nat) (f : Nat → memFile → memDB → Result)
    (h : s.files[i]? = none) : s.run i f = (s, none) := by
  simp [State.run, h]

theorem run_of_some (s : State) (i : Nat) (f : Nat → memFile → memDB → Result) (m : memFile)
    (h : s.files[i]? = some m) :
    s.run i f = (⟨(f i m s.db).db, s.files.set i (f i m s.db).file⟩, (f i m s.db).err) := by
  simp [State.run, h]

theorem lockOf_of_some (s : State) (i : Nat) (m : memFile) (h : s.files[i]? = some m) :
    s.lockOf i = m.lock := by
  simp [State.lockOf, h]

theorem lockOf_set (s : State) (db : memDB) (i : Nat) (x m : memFile)
    (h : s.files[i]? = some m) (j : Nat) :
    State.lockOf ⟨db, s.files.set i x⟩ j = if j = i then x.lock else s.lockOf j := by
  have hi : i < s.files.length := by
    rcases Nat.lt_or_ge i s.files.length with hlt | hge
    · exact hlt
    · rw [List.getElem?_eq_none hge] at h
      cases h
  by_cases hj : j = i
  · subst hj
    simp [State.lockOf, List.getElem?_set, hi]
  · have hj2 : ¬ i = j := fun e => hj e.symm
    simp [State.lockOf, List.getElem?_set, hj, hj2]

theorem holders_set (s : State) (db : memDB) (i : Nat) (x m : memFile)
    (h : s.files[i]? = some m) :
    ((State.holders ⟨db, s.files.set i x⟩ : Nat) : Int)
      = (s.holders : Int) + held x.lock - held m.lock := by
  have key := countP_set_add (fun m : memFile => decide (LOCK_SHARED ≤ m.lock)) s.files i x m h
  simp only [State.holders, held]
  simp only [decide_eq_true_eq] at key
  split_ifs at key ⊢ <;> omega

theorem inv_run (s : State) (i : Nat) (f : Nat → memFile → memDB → Result) (m : memFile)
    (hm : s.files[i]? = some m) (hs : Sound i m s.db (f i m s.db)) (inv : Inv s) :
    Inv (s.run i f).1 := by
  rw [run_of_some s i f m hm]
  have hlock := lockOf_of_some s i m hm
  refine ⟨?_, ?_, ?_⟩
  · rw [holders_set s _ i _ m hm, ← inv.shared_eq]
    exact hs.shared
  · intro k hk
    rw [lockOf_set s _ i _ m hm]
    by_cases hki : k = i
    · subst hki
      rw [if_pos rfl]
      exact hs.pending_me hk (fun hp => hlock ▸ inv.pending_holds k hp)
    · rw [if_neg hki]
      exact inv.pending_holds k (hs.pending_other k hki hk)
  · intro k hk
    rw [lockOf_set s _ i _ m hm] at hk
    by_cases hki : k = i
    · subst hki
      rw [if_pos rfl] at hk
      exact hs.reserved_me hk (fun hr => inv.reserved_holds k (hlock.trans hr))
    · rw [if_neg hki] at hk
      exact hs.reserved_other k hki (inv.reserved_holds k hk)

/-- While no other file takes a step the wait loop finds `m.shared` as it was,
until the time has expired. -/
theorem spin_quiet (i : Nat) (lock : LockLevel) (s : State) (polls : Nat)
    (h : s.db.shared > 1) :
    State.spin i lock s (List.replicate polls []) = (s, some sqlite3.BUSY) := by
  induction polls with
  | zero => rfl
  | succ n ih =>
    rw [List.replicate_succ, State.spin]
    simp only [State.steps]
    rw [if_pos h]
    exact ih

/-- A `Lock` that waits has left `m.shared` above 1 in its first step, whose
error is `BUSY`. -/
theorem waits_step (s : State) (i : Nat) (lock : LockLevel) (h : s.waits i lock = true) :
    (s.step (.Lock i lock)).2 = some sqlite3.BUSY ∧ (s.step (.Lock i lock)).1.db.shared > 1 := by
  unfold State.waits at h
  cases hm : s.files[i]? with
  | none =>
    rw [hm] at h
    cases h
  | some m =>
    rw [hm] at h
    obtain ⟨lk, ro⟩ := m
    simp only [State.step, run_of_some s i _ _ hm]
    by_cases h1 : s.db.pending = none <;> cases lk <;> cases lock <;> cases ro <;>
      simp [memFile.Lock, LockLevel.le_iff, LockLevel.lt_iff, LockLevel.toNat, h1] at h ⊢ <;>
      simp [h]

/-- A call during which no other file takes a step is its first step. -/
theorem Lock_quiet (s : State) (i : Nat) (lock : LockLevel) (polls : Nat) :
    s.Lock i lock (List.replicate polls []) = s.step (.Lock i lock) := by
  unfold State.Lock
  by_cases hw : s.waits i lock = true
  · rw [if_pos hw, spin_quiet _ _ _ _ (waits_step s i lock hw).2]
    exact Prod.ext rfl (waits_step s i lock hw).1.symm
  · rw [if_neg hw]

theorem call_Lock_run (s : State) (i : Nat) (lock : LockLevel) (polls : Nat) :
    s.call (.Lock i lock polls) = s.run i (fun self m db => m.Lock self db lock) := by
  show s.Lock i lock (List.replicate polls []) = _
  rw [Lock_quiet]
  rfl

theorem inv_call (s : State) (c : Call) (hc : protocol s c) (inv : Inv s) :
    Inv (s.call c).1 := by
  cases c with
  | Lock i lock polls =>
    rw [call_Lock_run]
    cases hm : s.files[i]? with
    | none => simpa [State.call, run_of_none s i _ hm] using inv
    | some m =>
      refine inv_run s i _ m hm ?_ inv
      apply Lock_sound
      intro hl
      have := hc hl
      rwa [lockOf_of_some s i m hm] at this
  | Unlock i lock =>
    cases hm : s.files[i]? with
    | none => simpa [State.call, run_of_none s i _ hm] using inv
    | some m => exact inv_run s i _ m hm (Unlock_sound i m s.db lock hc) inv
  | Close i =>
    cases hm : s.files[i]? with
    | none => simpa [State.call, run_of_none s i _ hm] using inv
    | some m => exact inv_run s i _ m hm (Unlock_sound i m s.db LOCK_NONE (Or.inr rfl)) inv

theorem lockOf_fresh (readOnly : List Bool) (i : Nat) :
    (State.fresh readOnly).lockOf i = LOCK_NONE := by
  simp only [State.lockOf, State.fresh, List.getElem?_map]
  cases readOnly[i]? <;> rfl

theorem holders_fresh (readOnly : List Bool) : (State.fresh readOnly).holders = 0 := by
  simp [State.holders, State.fresh, List.countP_eq_zero, LockLevel.le_iff, LockLevel.toNat]

theorem inv_fresh (readOnly : List Bool) : Inv (State.fresh readOnly) := by
  refine ⟨?_, ?_, ?_⟩
  · rw [holders_fresh]
    rfl
  · intro i h
    simp [State.fresh] at h
  · intro i h
    rw [lockOf_fresh] at h
    cases h

theorem inv_of_reachable (s : State) (h : Reachable protocol s) : Inv s := by
  induction h with
  | fresh readOnly => exact inv_fresh readOnly
  | call c _ hc ih => exact inv_call _ c hc ih

/-! ## The engine protocol: `PENDING` is never requested -/

theorem Lock_pending_of (self : Nat) (m : memFile) (db : memDB) (lock : LockLevel)
    (hne : lock ≠ LOCK_PENDING) (ih : LOCK_PENDING ≤ m.lock → db.pending = some self)
    (h : LOCK_PENDING ≤ (m.Lock self db lock).file.lock) :
    (m.Lock self db lock).db.pending = some self := by
  obtain ⟨lk, ro⟩ := m
  by_cases h1 : db.pending = none <;> by_cases h2 : db.reserved = none <;>
    by_cases h3 : db.shared > 1 <;> cases lk <;> cases lock <;> cases ro <;>
    simp [memFile.Lock, LockLevel.le_iff, LockLevel.lt_iff, LockLevel.toNat, h1, h2, h3]
      at h ih hne ⊢ <;>
    exact ih

theorem Lock_pending_kept (self : Nat) (m : memFile) (db : memDB) (lock : LockLevel)
    (k : Nat) (h : db.pending = some k) :
    (m.Lock self db lock).db.pending = some k := by
  obtain ⟨lk, ro⟩ := m
  by_cases h2 : db.reserved = none <;>
    by_cases h3 : db.shared > 1 <;> cases lk <;> cases lock <;> cases ro <;>
    simp [memFile.Lock, LockLevel.le_iff, LockLevel.lt_iff, LockLevel.toNat, h, h2, h3]

theorem Lock_exclusive_new (self : Nat) (m : memFile) (db : memDB) (lock : LockLevel)
    (hp : LOCK_SHARED < lock → LOCK_SHARED ≤ m.lock)
    (h : (m.Lock self db lock).file.lock = LOCK_EXCLUSIVE) (hm : m.lock ≠ LOCK_EXCLUSIVE) :
    db.shared ≤ 1 ∧ LOCK_SHARED ≤ m.lock := by
  obtain ⟨lk, ro⟩ := m
  by_cases h1 : db.pending = none <;> by_cases h2 : db.reserved = none <;>
    by_cases h3 : db.shared > 1 <;> cases lk <;> cases lock <;> cases ro <;>
    simp [memFile.Lock, LockLevel.le_iff, LockLevel.lt_iff, LockLevel.toNat, h1, h2, h3]
      at h hp hm ⊢ <;>
    omega

theorem Lock_none_stays (self : Nat) (m : memFile) (db : memDB) (lock : LockLevel)
    (hp : LOCK_SHARED < lock → LOCK_SHARED ≤ m.lock)
    (hm : m.lock = LOCK_NONE) (hpend : db.pending ≠ none) :
    (m.Lock self db lock).file.lock = LOCK_NONE := by
  obtain ⟨lk, ro⟩ := m
  cases lk <;> cases lock <;> cases ro <;>
    simp [memFile.Lock, LockLevel.le_iff, LockLevel.lt_iff, LockLevel.toNat, hpend] at hp hm ⊢

theorem Lock_engineSound (self : Nat) (m : memFile) (db : memDB) (lock : LockLevel)
    (hp : LOCK_SHARED < lock → LOCK_SHARED ≤ m.lock) (hne : lock ≠ LOCK_PENDING) :
    EngineSound self m db (m.Lock self db lock) :=
  ⟨Lock_pending_of self m db lock hne,
   fun k _ h => Lock_pending_kept self m db lock k h,
   Lock_exclusive_new self m db lock hp,
   Lock_none_stays self m db lock hp⟩

theorem Unlock_engineSound (self : Nat) (m : memFile) (db : memDB) (lock : LockLevel)
    (hu : lock = LOCK_SHARED ∨ lock = LOCK_NONE) :
    EngineSound self m db (m.Unlock self db lock) := by
  by_cases hle : m.lock ≤ lock
  · rw [Unlock_noop self m db lock hle]
    refine ⟨fun ih h => ih h, fun k _ h => h, fun h hm => absurd h hm, fun h _ => h⟩
  · rw [Unlock_eq self m db lock hle]
    refine ⟨?_, ?_, ?_, ?_⟩
    · intro _ h
      rcases hu with rfl | rfl <;> simp [LockLevel.le_iff, LockLevel.toNat] at h
    · intro k hk h
      have hne : ¬ some k = some self := by simpa using hk
      simp [h, hne]
    · intro h
      rcases hu with rfl | rfl <;> simp at h
    · intro h
      rw [h] at hle
      exact absurd (Nat.zero_le _) hle

theorem lockOf_none_of_not_held (s : State) (i j : Nat) (m : memFile)
    (hm : s.files[i]? = some m) (hheld : LOCK_SHARED ≤ m.lock) (hone : s.holders ≤ 1)
    (hji : j ≠ i) : s.lockOf j = LOCK_NONE := by
  cases hb : s.files[j]? with
  | none => simp [State.lockOf, hb]
  | some mb =>
    rw [lockOf_of_some s j mb hb]
    by_cases hmb : LOCK_SHARED ≤ mb.lock
    · have := countP_le_one_unique (fun m : memFile => decide (LOCK_SHARED ≤ m.lock))
        s.files i j m mb hone hm hb (by simpa using hheld) (by simpa using hmb)
      exact absurd this.symm hji
    · revert hmb
      cases mb.lock <;> simp [LockLevel.le_iff, LockLevel.toNat]

theorem engineInv_run (s : State) (i : Nat) (f : Nat → memFile → memDB → Result) (m : memFile)
    (hm : s.files[i]? = some m) (hs : Sound i m s.db (f i m s.db))
    (he : EngineSound i m s.db (f i m s.db)) (inv : EngineInv s) :
    EngineInv (s.run i f).1 := by
  refine ⟨inv_run s i f m hm hs inv.inv, ?_, ?_⟩
  · rw [run_of_some s i f m hm]
    intro k hk
    rw [lockOf_set s _ i _ m hm] at hk
    by_cases hki : k = i
    · subst hki
      rw [if_pos rfl] at hk
      exact he.pending_of (fun h => inv.pending_of k ((lockOf_of_some s k m hm).symm ▸ h)) hk
    · rw [if_neg hki] at hk
      exact he.pending_kept k hki (inv.pending_of k hk)
  · rw [run_of_some s i f m hm]
    have hlock := lockOf_of_some s i m hm
    intro a b ha hba
    rw [lockOf_set s _ i _ m hm] at ha ⊢
    by_cases hai : a = i
    · subst hai
      rw [if_pos rfl] at ha
      rw [if_neg hba]
      by_cases hme : m.lock = LOCK_EXCLUSIVE
      · exact inv.exclusive_alone a b (hlock.trans hme) hba
      · obtain ⟨hsh, hheld⟩ := he.exclusive_new ha hme
        have hone : s.holders ≤ 1 := by
          have := inv.inv.shared_eq
          omega
        exact lockOf_none_of_not_held s a b m hm hheld hone hba
    · rw [if_neg hai] at ha
      by_cases hbi : b = i
      · subst hbi
        rw [if_pos rfl]
        have hnone : m.lock = LOCK_NONE := hlock ▸ inv.exclusive_alone a b ha (fun e => hai e.symm)
        have hpend : s.db.pending = some a := by
          apply inv.pending_of a
          rw [ha]
          decide
        exact he.none_stays hnone (by simp [hpend])
      · rw [if_neg hbi]
        exact inv.exclusive_alone a b ha hba

theorem engineInv_call (s : State) (c : Call) (hc : engineProtocol s c) (inv : EngineInv s) :
    EngineInv (s.call c).1 := by
  obtain ⟨hc, hne⟩ := hc
  cases c with
  | Lock i lock polls =>
    rw [call_Lock_run]
    cases hm : s.files[i]? with
    | none => simpa [State.call, run_of_none s i _ hm] using inv
    | some m =>
      have hp : LOCK_SHARED < lock → LOCK_SHARED ≤ m.lock := by
        intro hl
        have := hc hl
        rwa [lockOf_of_some s i m hm] at this
      have hl : lock ≠ LOCK_PENDING := by
        intro e
        subst e
        simp [Call.requestsPending] at hne
      exact engineInv_run s i _ m hm (Lock_sound i m s.db lock hp)
        (Lock_engineSound i m s.db lock hp hl) inv
  | Unlock i lock =>
    cases hm : s.files[i]? with
    | none => simpa [State.call, run_of_none s i _ hm] using inv
    | some m =>
      exact engineInv_run s i _ m hm (Unlock_sound i m s.db lock hc)
        (Unlock_engineSound i m s.db lock hc) inv
  | Close i =>
    cases hm : s.files[i]? with
    | none => simpa [State.call, run_of_none s i _ hm] using inv
    | some m =>
      exact engineInv_run s i _ m hm (Unlock_sound i m s.db LOCK_NONE (Or.inr rfl))
        (Unlock_engineSound i m s.db LOCK_NONE (Or.inr rfl)) inv

theorem engineInv_fresh (readOnly : List Bool) : EngineInv (State.fresh readOnly) := by
  refine ⟨inv_fresh readOnly, ?_, ?_⟩
  · intro i h
    rw [lockOf_fresh] at h
    exact absurd h (by decide)
  · intro i j _ _
    exact lockOf_fresh readOnly j

theorem engineInv_of_reachable (s : State) (h : Reachable engineProtocol s) : EngineInv s := by
  induction h with
  | fresh readOnly => exact engineInv_fresh readOnly
  | call c _ hc ih => exact engineInv_call _ c hc ih

theorem Reachable.mono {P Q : State → Call → Prop} (hPQ : ∀ s c, P s c → Q s c) (s : State)
    (h : Reachable P s) : Reachable Q s := by
  induction h with
  | fresh readOnly => exact Reachable.fresh readOnly
  | call c _ hc ih => exact Reachable.call c ih (hPQ _ c hc)

theorem Reachable.calls (P : State → Call → Prop) (cs : List Call) (s : State)
    (hs : Reachable P s) (ha : admitted P s cs) : Reachable P (s.calls cs) := by
  induction cs generalizing s with
  | nil => exact hs
  | cons c cs ih => exact ih _ (Reachable.call c hs ha.1) ha.2

/-! ## C1, C2: who may hold what at the same time -/

theorem pendingRequested_reachable : Reachable protocol pendingRequested :=
  Reachable.calls protocol _ _ (Reachable.fresh _) (by decide)

theorem writerAlone_reachable : Reachable engineProtocol writerAlone :=
  Reachable.calls engineProtocol _ _ (Reachable.fresh _) (by decide)

theorem writerAndWaiter_reachable : Reachable protocol writerAndWaiter :=
  Reachable.calls protocol _ _ (Reachable.fresh _) (by decide)

theorem writerAndWaiter_reachable_engine : Reachable engineProtocol writerAndWaiter :=
  Reachable.calls engineProtocol _ _ (Reachable.fresh _) (by decide)

/-- C1, as stated, fails: two writable files, file 0 takes `SHARED`, requests
`PENDING` itself and then `EXCLUSIVE`; the pending holder was never set, so
file 1 still obtains `SHARED` while file 0 is at `EXCLUSIVE`. The state is
reached under the calling discipline of the claim. -/
theorem exclusive_excludes_others_counterexample :
    Reachable protocol pendingRequested ∧
      pendingRequested.lockOf 0 = LOCK_EXCLUSIVE ∧
      pendingRequested.lockOf 1 = LOCK_SHARED :=
  ⟨pendingRequested_reachable, by decide, by decide⟩

/-- C1 (amended): in every state reached from a fresh database by Lock, Unlock
and Close calls in which a level above `SHARED` is requested only by a file
holding at least `SHARED`, unlocking is to `SHARED` or `NONE`, and `PENDING` is
never requested directly, a file at `EXCLUSIVE` leaves every other file of the
database at `NONE`. -/
theorem exclusive_excludes_others (s : State) (h : Reachable engineProtocol s) (i j : Nat)
    (hi : s.lockOf i = LOCK_EXCLUSIVE) (hj : j ≠ i) : s.lockOf j = LOCK_NONE :=
  (engineInv_of_reachable s h).exclusive_alone i j hi hj

/-- C1 (amended) at `writerAlone`: file 0 is at `EXCLUSIVE`, file 1 at `NONE`. -/
theorem exclusive_excludes_others_witness :
    Reachable engineProtocol writerAlone ∧ writerAlone.lockOf 0 = LOCK_EXCLUSIVE ∧ 1 ≠ 0 ∧
      writerAlone.lockOf 1 = LOCK_NONE :=
  ⟨writerAlone_reachable, by decide, by decide,
   exclusive_excludes_others writerAlone writerAlone_reachable 0 1 (by decide) (by decide)⟩

/-- C2, as stated, fails, also when `PENDING` is never requested directly: two
writable files both take `SHARED`, file 0 takes `RESERVED`, file 1 requests
`EXCLUSIVE`; it becomes the pending holder, finds two shared holders and is
left at `PENDING` while file 0 is at `RESERVED`: two files at `RESERVED` or
higher. -/
theorem one_reserved_or_higher_counterexample :
    Reachable protocol writerAndWaiter ∧
      LOCK_RESERVED ≤ writerAndWaiter.lockOf 0 ∧
      LOCK_RESERVED ≤ writerAndWaiter.lockOf 1 ∧ (0 : Nat) ≠ 1 :=
  ⟨writerAndWaiter_reachable, by decide, by decide, by decide⟩

/-- C2 (amended): in every state reached from a fresh database under the
calling discipline, at most one file is at level `RESERVED`; and when in
addition no call requested `PENDING` directly, at most one file is at `PENDING`
or `EXCLUSIVE`. (One file at `RESERVED` and another at `PENDING` can coexist.) -/
theorem one_reserved_one_pending (s : State) (h : Reachable protocol s) :
    (∀ i j : Nat, s.lockOf i = LOCK_RESERVED → s.lockOf j = LOCK_RESERVED → i = j) ∧
    (Reachable engineProtocol s →
      ∀ i j : Nat, LOCK_PENDING ≤ s.lockOf i → LOCK_PENDING ≤ s.lockOf j → i = j) := by
  constructor
  · intro i j hi hj
    have inv := inv_of_reachable s h
    have h1 := inv.reserved_holds i hi
    have h2 := inv.reserved_holds j hj
    rw [h1] at h2
    exact Option.some.inj h2
  · intro he i j hi hj
    have inv := engineInv_of_reachable s he
    have h1 := inv.pending_of i hi
    have h2 := inv.pending_of j hj
    rw [h1] at h2
    exact Option.some.inj h2

/-- C2 (amended) at `writerAndWaiter`: file 0 is the only one at `RESERVED`, file 1
the only one at `PENDING` or above. -/
theorem one_reserved_one_pending_witness :
    Reachable protocol writerAndWaiter ∧ Reachable engineProtocol writerAndWaiter ∧
      writerAndWaiter.lockOf 0 = LOCK_RESERVED ∧ LOCK_PENDING ≤ writerAndWaiter.lockOf 1 ∧
      ¬ writerAndWaiter.lockOf 1 = LOCK_RESERVED ∧ ¬ LOCK_PENDING ≤ writerAndWaiter.lockOf 0 :=
  ⟨writerAndWaiter_reachable, writerAndWaiter_reachable_engine, by decide, by decide,
   fun h => absurd
     ((one_reserved_one_pending writerAndWaiter writerAndWaiter_reachable).1 0 1 (by decide) h)
     (by decide),
   fun h => absurd
     ((one_reserved_one_pending writerAndWaiter writerAndWaiter_reachable).2
       writerAndWaiter_reachable_engine 1 0 (by decide) h)
     (by decide)⟩

/-! ## C3 to C7: the single calls -/

theorem set_same {α : Type} (l : List α) (i : Nat) (a : α) (h : l[i]? = some a) :
    l.set i a = l := by
  induction l generalizing i with
  | nil => rfl
  | cons x xs ih =>
    cases i with
    | zero =>
      simp at h
      simp [h]
    | succ n =>
      simp at h
      simp [ih n h]

theorem getElem?_set_other {α : Type} (l : List α) (i j : Nat) (a : α) (h : j ≠ i) :
    (l.set i a)[j]? = l[j]? := by
  have h2 : ¬ i = j := fun e => h e.symm
  simp [List.getElem?_set, h2]

theorem getElem?_set_self {α : Type} (l : List α) (i : Nat) (a b : α) (h : l[i]? = some b) :
    (l.set i a)[i]? = some a := by
  have hi : i < l.length := by
    rcases Nat.lt_or_ge i l.length with hlt | hge
    · exact hlt
    · rw [List.getElem?_eq_none hge] at h
      cases h
  simp [List.getElem?_set, hi]

theorem call_Lock (s : State) (i : Nat) (m : memFile) (lock : LockLevel) (polls : Nat)
    (hm : s.files[i]? = some m) :
    s.call (.Lock i lock polls)
      = (⟨(m.Lock i s.db lock).db, s.files.set i (m.Lock i s.db lock).file⟩,
         (m.Lock i s.db lock).err) := by
  rw [call_Lock_run, run_of_some s i _ m hm]

theorem call_Unlock (s : State) (i : Nat) (m : memFile) (lock : LockLevel)
    (hm : s.files[i]? = some m) :
    s.call (.Unlock i lock)
      = (⟨(m.Unlock i s.db lock).db, s.files.set i (m.Unlock i s.db lock).file⟩,
         (m.Unlock i s.db lock).err) := by
  simp [State.call, State.run, hm]

theorem state_unchanged (s : State) (i : Nat) (m : memFile) (hm : s.files[i]? = some m) :
    (⟨s.db, s.files.set i m⟩ : State) = s := by
  rw [set_same s.files i m hm]

theorem Lock_shared_busy (self : Nat) (m : memFile) (db : memDB)
    (hm : m.lock = LOCK_NONE) (hp : db.pending ≠ none) :
    m.Lock self db LOCK_SHARED = ⟨m, db, some sqlite3.BUSY⟩ := by
  obtain ⟨lk, ro⟩ := m
  subst hm
  simp [memFile.Lock, LockLevel.le_iff, LockLevel.toNat, hp]

theorem Lock_shared_ok (self : Nat) (m : memFile) (db : memDB)
    (hm : m.lock = LOCK_NONE) (hp : db.pending = none) :
    m.Lock self db LOCK_SHARED
      = ⟨{ m with lock := LOCK_SHARED }, { db with shared := db.shared + 1 }, none⟩ := by
  obtain ⟨lk, ro⟩ := m
  subst hm
  simp [memFile.Lock, LockLevel.le_iff, LockLevel.toNat, hp]

/-- C3: for a file at `NONE`, `Lock(SHARED)` returns `BUSY` and leaves the
state as it was exactly when the database has a pending holder; otherwise it
returns `nil`, the file is at `SHARED`, the shared count has grown by one and
nothing else has changed. -/
theorem lock_shared_from_none (s : State) (i : Nat) (m : memFile) (polls : Nat)
    (hm : s.files[i]? = some m) (hnone : m.lock = LOCK_NONE) :
    (((s.call (.Lock i LOCK_SHARED polls)).2 = some sqlite3.BUSY ∧
        (s.call (.Lock i LOCK_SHARED polls)).1 = s) ↔ s.db.pending ≠ none) ∧
    (s.db.pending = none →
      (s.call (.Lock i LOCK_SHARED polls)).2 = none ∧
      (s.call (.Lock i LOCK_SHARED polls)).1.lockOf i = LOCK_SHARED ∧
      (s.call (.Lock i LOCK_SHARED polls)).1.db.shared = s.db.shared + 1 ∧
      (s.call (.Lock i LOCK_SHARED polls)).1.db.pending = s.db.pending ∧
      (s.call (.Lock i LOCK_SHARED polls)).1.db.reserved = s.db.reserved ∧
      ∀ j, j ≠ i → (s.call (.Lock i LOCK_SHARED polls)).1.files[j]? = s.files[j]?) := by
  rw [call_Lock s i m _ _ hm]
  by_cases hp : s.db.pending = none
  · rw [Lock_shared_ok i m s.db hnone hp]
    refine ⟨?_, ?_⟩
    · simp [hp]
    · intro _
      refine ⟨rfl, ?_, rfl, rfl, rfl, ?_⟩
      · simp [State.lockOf, getElem?_set_self s.files i _ m hm]
      · intro j hj
        exact getElem?_set_other s.files i j _ hj
  · rw [Lock_shared_busy i m s.db hnone hp]
    refine ⟨?_, fun h => absurd h hp⟩
    simp [hp, state_unchanged s i m hm]

/-- C3 at a fresh database with one file: `Lock(SHARED)` succeeds. -/
theorem lock_shared_from_none_witness :
    (State.fresh [false]).files[0]? = some ⟨LOCK_NONE, false⟩ ∧
      (State.fresh [false]).db.pending = none ∧
      ((State.fresh [false]).call (.Lock 0 LOCK_SHARED 0)).2 = none ∧
      ((State.fresh [false]).call (.Lock 0 LOCK_SHARED 0)).1.lockOf 0 = LOCK_SHARED :=
  ⟨rfl, rfl,
   ((lock_shared_from_none (State.fresh [false]) 0 ⟨LOCK_NONE, false⟩ 0 rfl rfl).2 rfl).1,
   ((lock_shared_from_none (State.fresh [false]) 0 ⟨LOCK_NONE, false⟩ 0 rfl rfl).2 rfl).2.1⟩

theorem Lock_reserved_busy (self : Nat) (m : memFile) (db : memDB)
    (hm : m.lock = LOCK_SHARED) (hw : m.readOnly = false) (hr : db.reserved ≠ none) :
    m.Lock self db LOCK_RESERVED = ⟨m, db, some sqlite3.BUSY⟩ := by
  obtain ⟨lk, ro⟩ := m
  subst hm hw
  simp [memFile.Lock, LockLevel.le_iff, LockLevel.toNat, hr]

theorem Lock_reserved_ok (self : Nat) (m : memFile) (db : memDB)
    (hm : m.lock = LOCK_SHARED) (hw : m.readOnly = false) (hr : db.reserved = none) :
    m.Lock self db LOCK_RESERVED
      = ⟨{ m with lock := LOCK_RESERVED }, { db with reserved := some self }, none⟩ := by
  obtain ⟨lk, ro⟩ := m
  subst hm hw
  simp [memFile.Lock, LockLevel.le_iff, LockLevel.toNat, hr]

/-- C4: two distinct writable files `f` and `g` of one database, both at
`SHARED`. Once `f.Lock(RESERVED)` has succeeded, `g.Lock(RESERVED)` returns
`BUSY` and changes nothing, so `g` stays at `SHARED`; after `f` has unlocked to
`SHARED` or `NONE`, `g.Lock(RESERVED)` succeeds, `g` is the reserved holder and
is at `RESERVED`. -/
theorem reserved_handover (s s1 s2 s3 : State) (f g : Nat) (mf mg : memFile)
    (p1 p2 p3 : Nat) (l : LockLevel)
    (hfg : f ≠ g) (hf : s.files[f]? = some mf) (hg : s.files[g]? = some mg)
    (hwf : mf.readOnly = false) (hwg : mg.readOnly = false)
    (hlf : mf.lock = LOCK_SHARED) (hlg : mg.lock = LOCK_SHARED)
    (hok : (s.call (.Lock f LOCK_RESERVED p1)).2 = none)
    (h1 : s1 = (s.call (.Lock f LOCK_RESERVED p1)).1)
    (h2 : s2 = (s1.call (.Lock g LOCK_RESERVED p2)).1)
    (hl : l = LOCK_SHARED ∨ l = LOCK_NONE)
    (h3 : s3 = (s2.call (.Unlock f l)).1) :
    (s1.call (.Lock g LOCK_RESERVED p2)).2 = some sqlite3.BUSY ∧
      s2 = s1 ∧ s2.lockOf g = LOCK_SHARED ∧
      (s3.call (.Lock g LOCK_RESERVED p3)).2 = none ∧
      (s3.call (.Lock g LOCK_RESERVED p3)).1.db.reserved = some g ∧
      (s3.call (.Lock g LOCK_RESERVED p3)).1.lockOf g = LOCK_RESERVED := by
  have hgf : g ≠ f := fun e => hfg e.symm
  -- `f.Lock(RESERVED)` succeeded, so nobody held the reserved lock
  have hres : s.db.reserved = none := by
    by_contra hne
    rw [call_Lock s f mf _ _ hf, Lock_reserved_busy f mf s.db hlf hwf hne] at hok
    cases hok
  rw [call_Lock s f mf _ _ hf, Lock_reserved_ok f mf s.db hlf hwf hres] at h1
  have hg1 : s1.files[g]? = some mg := by
    rw [h1]
    simpa [getElem?_set_other s.files f g _ hgf] using hg
  have hf1 : s1.files[f]? = some { mf with lock := LOCK_RESERVED } := by
    rw [h1]
    exact getElem?_set_self s.files f _ mf hf
  have hr1 : s1.db.reserved = some f := by rw [h1]
  have hbusy := Lock_reserved_busy g mg s1.db hlg hwg (by simp [hr1])
  have e2 : s1.call (.Lock g LOCK_RESERVED p2) = (s1, some sqlite3.BUSY) := by
    rw [call_Lock s1 g mg _ _ hg1, hbusy, state_unchanged s1 g mg hg1]
  rw [e2] at h2
  simp only at h2
  subst h2
  have hnle : ¬ ({ mf with lock := LOCK_RESERVED } : memFile).lock ≤ l := by
    rcases hl with rfl | rfl <;> simp [LockLevel.le_iff, LockLevel.toNat]
  rw [call_Unlock _ f _ l hf1, Unlock_eq f _ _ l hnle] at h3
  have hg3 : s3.files[g]? = some mg := by
    rw [h3]
    simpa [getElem?_set_other s2.files f g _ hgf] using hg1
  have hr3 : s3.db.reserved = none := by
    rw [h3]
    simp [hr1]
  refine ⟨by rw [e2], rfl, by rw [lockOf_of_some _ g mg hg1, hlg], ?_, ?_, ?_⟩
  · rw [call_Lock s3 g mg _ _ hg3, Lock_reserved_ok g mg s3.db hlg hwg hr3]
  · rw [call_Lock s3 g mg _ _ hg3, Lock_reserved_ok g mg s3.db hlg hwg hr3]
  · rw [call_Lock s3 g mg _ _ hg3, Lock_reserved_ok g mg s3.db hlg hwg hr3]
    simp [State.lockOf, getElem?_set_self s3.files g _ mg hg3]

/-- C4 at `bothShared` with `f = 0`, `g = 1` and `f` unlocking to `SHARED`. -/
theorem reserved_handover_witness :
    (0 : Nat) ≠ 1 ∧ (bothShared.call (.Lock 0 LOCK_RESERVED 0)).2 = none ∧
      ((bothShared.calls [.Lock 0 LOCK_RESERVED 0]).call (.Lock 1 LOCK_RESERVED 0)).2
        = some sqlite3.BUSY ∧
      ((bothShared.calls [.Lock 0 LOCK_RESERVED 0, .Lock 1 LOCK_RESERVED 0,
          .Unlock 0 LOCK_SHARED]).call (.Lock 1 LOCK_RESERVED 0)).1.db.reserved = some 1 :=
  have h := reserved_handover bothShared
    (bothShared.calls [.Lock 0 LOCK_RESERVED 0])
    (bothShared.calls [.Lock 0 LOCK_RESERVED 0, .Lock 1 LOCK_RESERVED 0])
    (bothShared.calls [.Lock 0 LOCK_RESERVED 0, .Lock 1 LOCK_RESERVED 0, .Unlock 0 LOCK_SHARED])
    0 1 ⟨LOCK_SHARED, false⟩ ⟨LOCK_SHARED, false⟩ 0 0 0 LOCK_SHARED
    (by decide) (by decide) (by decide) rfl rfl rfl rfl (by decide) rfl rfl (Or.inl rfl) rfl
  ⟨by decide, by decide, h.1, h.2.2.2.2.1⟩

/-! ### C5: `Lock(EXCLUSIVE)` -/

theorem Unlock_pending_other (self : Nat) (m : memFile) (db : memDB) (lock : LockLevel)
    (k : Nat) (h : (m.Unlock self db lock).db.pending = some k) : db.pending = some k := by
  by_cases hle : m.lock ≤ lock
  · rwa [Unlock_noop self m db lock hle] at h
  · rw [Unlock_eq self m db lock hle] at h
    dsimp only at h
    split_ifs at h
    exact h

theorem Unlock_pending_self (self : Nat) (m : memFile) (db : memDB) (lock : LockLevel)
    (h : (m.Unlock self db lock).db.pending = some self)
    (ih : db.pending = some self → LOCK_PENDING ≤ m.lock) :
    LOCK_PENDING ≤ (m.Unlock self db lock).file.lock := by
  by_cases hle : m.lock ≤ lock
  · rw [Unlock_noop self m db lock hle] at h ⊢
    exact ih h
  · rw [Unlock_eq self m db lock hle] at h
    dsimp only at h
    split_ifs at h
    contradiction

theorem pending_holds_run (s : State) (i : Nat) (f : Nat → memFile → memDB → Result)
    (m : memFile) (hm : s.files[i]? = some m)
    (h1 : ∀ k, (f i m s.db).db.pending = some k → k ≠ i → s.db.pending = some k)
    (h2 : (f i m s.db).db.pending = some i → (s.db.pending = some i → LOCK_PENDING ≤ m.lock) →
      LOCK_PENDING ≤ (f i m s.db).file.lock)
    (inv : ∀ k, s.db.pending = some k → LOCK_PENDING ≤ s.lockOf k) :
    ∀ k, (s.run i f).1.db.pending = some k → LOCK_PENDING ≤ (s.run i f).1.lockOf k := by
  rw [run_of_some s i f m hm]
  intro k hk
  rw [lockOf_set s _ i _ m hm]
  by_cases hki : k = i
  · subst hki
    rw [if_pos rfl]
    exact h2 hk (fun hp => (lockOf_of_some s k m hm) ▸ inv k hp)
  · rw [if_neg hki]
    exact inv k (h1 k hk hki)

/-- In every state a database can be in, whatever calls were made, the pending
holder is at `PENDING` or `EXCLUSIVE`. -/
theorem pending_holds_of_reachable (s : State) (h : Reachable anyCall s) :
    ∀ k, s.db.pending = some k → LOCK_PENDING ≤ s.lockOf k := by
  induction h with
  | fresh readOnly =>
    intro k hk
    simp [State.fresh] at hk
  | @call s c _ _ ih =>
    cases c with
    | Lock i lock polls =>
      rw [call_Lock_run]
      cases hm : s.files[i]? with
      | none => simpa [State.call, run_of_none s i _ hm] using ih
      | some m =>
        exact pending_holds_run s i _ m hm
          (fun k hk hki => Lock_pending_other i m s.db lock k hki hk)
          (Lock_pending_self i m s.db lock) ih
    | Unlock i lock =>
      cases hm : s.files[i]? with
      | none => simpa [State.call, run_of_none s i _ hm] using ih
      | some m =>
        exact pending_holds_run s i _ m hm
          (fun k hk _ => Unlock_pending_other i m s.db lock k hk)
          (Unlock_pending_self i m s.db lock) ih
    | Close i =>
      cases hm : s.files[i]? with
      | none => simpa [State.call, run_of_none s i _ hm] using ih
      | some m =>
        exact pending_holds_run s i _ m hm
          (fun k hk _ => Unlock_pending_other i m s.db LOCK_NONE k hk)
          (Unlock_pending_self i m s.db LOCK_NONE) ih

theorem Lock_exclusive_busy (self : Nat) (m : memFile) (db : memDB)
    (hw : m.readOnly = false) (hlt : m.lock < LOCK_PENDING) (hp : db.pending ≠ none) :
    m.Lock self db LOCK_EXCLUSIVE = ⟨m, db, some sqlite3.BUSY⟩ := by
  obtain ⟨lk, ro⟩ := m
  subst hw
  cases lk <;>
    simp [memFile.Lock, LockLevel.le_iff, LockLevel.lt_iff, LockLevel.toNat, hp] at hlt ⊢

theorem Lock_exclusive_claim (self : Nat) (m : memFile) (db : memDB)
    (hw : m.readOnly = false) (hlt : m.lock < LOCK_PENDING) (hp : db.pending = none) :
    m.Lock self db LOCK_EXCLUSIVE =
      if db.shared ≤ 1 then
        ⟨{ m with lock := LOCK_EXCLUSIVE }, { db with pending := some self }, none⟩
      else
        ⟨{ m with lock := LOCK_PENDING }, { db with pending := some self },
          some sqlite3.BUSY⟩ := by
  obtain ⟨lk, ro⟩ := m
  subst hw
  by_cases h1 : db.shared ≤ 1
  · have h3 : ¬ db.shared > 1 := by omega
    cases lk <;>
      simp [memFile.Lock, LockLevel.le_iff, LockLevel.lt_iff, LockLevel.toNat, hp, h1, h3]
        at hlt ⊢
  · have h3 : db.shared > 1 := by omega
    cases lk <;>
      simp [memFile.Lock, LockLevel.le_iff, LockLevel.lt_iff, LockLevel.toNat, hp, h1, h3]
        at hlt ⊢

theorem step_files_other (s : State) (c : Step) (i : Nat) (hc : c.file ≠ i) :
    (s.step c).1.files[i]? = s.files[i]? := by
  have key : ∀ (j : Nat) (f : Nat → memFile → memDB → Result), j ≠ i →
      (s.run j f).1.files[i]? = s.files[i]? := by
    intro j f hj
    cases hm : s.files[j]? with
    | none => rw [run_of_none s j f hm]
    | some m =>
      rw [run_of_some s j f m hm]
      exact getElem?_set_other s.files j i _ (fun e => hj e.symm)
  cases c with
  | Lock j lock => exact key j _ hc
  | Unlock j lock => exact key j _ hc
  | Close j => exact key j _ hc

theorem Unlock_pending_kept (self : Nat) (m : memFile) (db : memDB) (lock : LockLevel)
    (k : Nat) (hk : k ≠ self) (h : db.pending = some k) :
    (m.Unlock self db lock).db.pending = some k := by
  by_cases hle : m.lock ≤ lock
  · rw [Unlock_noop self m db lock hle]
    exact h
  · rw [Unlock_eq self m db lock hle]
    dsimp only
    rw [if_neg (fun e => hk (Option.some.inj (h.symm.trans e)))]
    exact h

/-- A step of another file leaves the pending holder as it is. -/
theorem step_pending_kept (s : State) (c : Step) (k : Nat) (hc : c.file ≠ k)
    (h : s.db.pending = some k) : (s.step c).1.db.pending = some k := by
  have key : ∀ (j : Nat) (f : Nat → memFile → memDB → Result),
      (∀ m, (f j m s.db).db.pending = some k) → (s.run j f).1.db.pending = some k := by
    intro j f hf
    cases hm : s.files[j]? with
    | none =>
      rw [run_of_none s j f hm]
      exact h
    | some m =>
      rw [run_of_some s j f m hm]
      exact hf m
  cases c with
  | Lock j lock => exact key j _ (fun m => Lock_pending_kept j m s.db lock k h)
  | Unlock j lock =>
    exact key j _ (fun m => Unlock_pending_kept j m s.db lock k (fun e => hc e.symm) h)
  | Close j =>
    exact key j _ (fun m => Unlock_pending_kept j m s.db LOCK_NONE k (fun e => hc e.symm) h)

/-- Steps of other files leave a file and its being the pending holder as they
are. -/
theorem steps_frame (s : State) (cs : List Step) (i : Nat) (hcs : ∀ c ∈ cs, c.file ≠ i)
    (hp : s.db.pending = some i) :
    (s.steps cs).files[i]? = s.files[i]? ∧ (s.steps cs).db.pending = some i := by
  induction cs generalizing s with
  | nil => exact ⟨rfl, hp⟩
  | cons c cs ih =>
    have hc := hcs c (List.mem_cons_self _ _)
    have h := ih (s.step c).1 (fun d hd => hcs d (List.mem_cons_of_mem _ hd))
      (step_pending_kept s c i hc hp)
    exact ⟨h.1.trans (step_files_other s c i hc), h.2⟩

theorem polled_head (s : State) (between : List (List Step)) : s ∈ State.polled s between := by
  cases between <;> simp [State.polled]

/-- The wait loop of a writable file at `PENDING` that is the pending holder,
after a test that found the shared count above 1, while other files take
steps: the file stays the pending holder; the loop ends with `nil` exactly
when one of its later tests finds the shared count at most 1, and then the
file is at `EXCLUSIVE`; else it ends with `BUSY` and the file at `PENDING`. -/
theorem spin_spec (i : Nat) (between : List (List Step)) (t : State)
    (hothers : ∀ steps ∈ between, ∀ c ∈ steps, c.file ≠ i)
    (hf : t.files[i]? = some ⟨LOCK_PENDING, false⟩) (hp : t.db.pending = some i)
    (hsh : t.db.shared > 1) :
    (State.spin i LOCK_EXCLUSIVE t between).1.db.pending = some i ∧
    ((State.spin i LOCK_EXCLUSIVE t between).2 = none ↔
      ∃ u ∈ State.polled t between, u.db.shared ≤ 1) ∧
    ((State.spin i LOCK_EXCLUSIVE t between).2 = none →
      (State.spin i LOCK_EXCLUSIVE t between).1.lockOf i = LOCK_EXCLUSIVE) ∧
    ((State.spin i LOCK_EXCLUSIVE t between).2 ≠ none →
      (State.spin i LOCK_EXCLUSIVE t between).2 = some sqlite3.BUSY ∧
      (State.spin i LOCK_EXCLUSIVE t between).1.lockOf i = LOCK_PENDING) := by
  induction between generalizing t with
  | nil =>
    have hsp : State.spin i LOCK_EXCLUSIVE t [] = (t, some sqlite3.BUSY) := rfl
    rw [hsp]
    have hne : ¬ (some sqlite3.BUSY : Option sqlite3.ErrorCode) = none := fun h => (by cases h)
    refine ⟨hp, ⟨fun h => absurd h hne, ?_⟩, fun h => absurd h hne,
      fun _ => ⟨rfl, lockOf_of_some t i _ hf⟩⟩
    rintro ⟨u, hu, hle⟩
    simp only [State.polled, List.mem_singleton] at hu
    subst hu
    omega
  | cons others rest ih =>
    have hfr := steps_frame t others i (hothers others (List.mem_cons_self _ _)) hp
    have hf1 : (t.steps others).files[i]? = some ⟨LOCK_PENDING, false⟩ := hfr.1.trans hf
    have hrest : ∀ steps ∈ rest, ∀ c ∈ steps, c.file ≠ i :=
      fun steps hs => hothers steps (List.mem_cons_of_mem _ hs)
    have hpolled : (∃ u ∈ State.polled t (others :: rest), u.db.shared ≤ 1) ↔
        ∃ u ∈ State.polled (t.steps others) rest, u.db.shared ≤ 1 := by
      simp only [State.polled, List.mem_cons]
      constructor
      · rintro ⟨u, hu | hu, hle⟩
        · subst hu
          omega
        · exact ⟨u, hu, hle⟩
      · rintro ⟨u, hu, hle⟩
        exact ⟨u, Or.inr hu, hle⟩
    rw [hpolled]
    by_cases h1 : (t.steps others).db.shared > 1
    · have hsp : State.spin i LOCK_EXCLUSIVE t (others :: rest)
          = State.spin i LOCK_EXCLUSIVE (t.steps others) rest := by
        simp only [State.spin, if_pos h1]
      rw [hsp]
      exact ih _ hrest hf1 hfr.2 h1
    · have hset : (t.steps others).setLock i LOCK_EXCLUSIVE
          = ⟨(t.steps others).db, (t.steps others).files.set i ⟨LOCK_EXCLUSIVE, false⟩⟩ := by
        simp only [State.setLock, hf1]
      have hsp : State.spin i LOCK_EXCLUSIVE t (others :: rest)
          = (⟨(t.steps others).db, (t.steps others).files.set i ⟨LOCK_EXCLUSIVE, false⟩⟩,
              none) := by
        simp only [State.spin, if_neg h1, hset]
      rw [hsp]
      refine ⟨hfr.2, ⟨fun _ => ⟨t.steps others, polled_head _ _, by omega⟩, fun _ => rfl⟩,
        fun _ => ?_, fun h => absurd rfl h⟩
      exact (lockOf_set (t.steps others) _ i _ _ hf1 i).trans (if_pos rfl)

/-- C5: a writable file below `PENDING` calls `Lock(EXCLUSIVE)`, in any state
the database can be in, and other files take steps while the call waits. When
another file is the pending holder the call returns `BUSY` at once and the
state is unchanged. Otherwise the file becomes the pending holder and is it
when the call returns; the call returns `nil` exactly when the shared count is
at most 1 at one of the tests of its wait loop, the first at entry and one
more after each round of steps of the other files within the spin budget, and
then the file is at `EXCLUSIVE`; else the budget has expired, the call returns
`BUSY` and the file is at `PENDING`. In a call during which no other file takes
a step that is: exactly when the shared count is at most 1 at entry. -/
theorem lock_exclusive_below_pending (s : State) (hs : Reachable anyCall s) (i : Nat)
    (m : memFile) (between : List (List Step)) (hm : s.files[i]? = some m)
    (hw : m.readOnly = false) (hlt : m.lock < LOCK_PENDING)
    (hothers : ∀ steps ∈ between, ∀ c ∈ steps, c.file ≠ i) :
    ((∃ k, k ≠ i ∧ s.db.pending = some k) →
        s.Lock i LOCK_EXCLUSIVE between = (s, some sqlite3.BUSY)) ∧
    ((¬ ∃ k, k ≠ i ∧ s.db.pending = some k) →
        (s.Lock i LOCK_EXCLUSIVE between).1.db.pending = some i ∧
        ((s.Lock i LOCK_EXCLUSIVE between).2 = none ↔
          ∃ u ∈ State.polled
            ⟨{ s.db with pending := some i }, s.files.set i { m with lock := LOCK_PENDING }⟩
            between, u.db.shared ≤ 1) ∧
        ((s.Lock i LOCK_EXCLUSIVE between).2 = none →
          (s.Lock i LOCK_EXCLUSIVE between).1.lockOf i = LOCK_EXCLUSIVE) ∧
        ((s.Lock i LOCK_EXCLUSIVE between).2 ≠ none →
          (s.Lock i LOCK_EXCLUSIVE between).2 = some sqlite3.BUSY ∧
          (s.Lock i LOCK_EXCLUSIVE between).1.lockOf i = LOCK_PENDING) ∧
        (s.db.shared ≤ 1 → (s.Lock i LOCK_EXCLUSIVE between).2 = none) ∧
        (∀ polls, between = List.replicate polls [] →
          ((s.Lock i LOCK_EXCLUSIVE between).2 = none ↔ s.db.shared ≤ 1))) := by
  obtain ⟨lk, ro⟩ := m
  simp only at hw hlt
  subst hw
  have hstep : s.step (.Lock i LOCK_EXCLUSIVE)
      = (⟨(memFile.Lock i ⟨lk, false⟩ s.db LOCK_EXCLUSIVE).db,
          s.files.set i (memFile.Lock i ⟨lk, false⟩ s.db LOCK_EXCLUSIVE).file⟩,
         (memFile.Lock i ⟨lk, false⟩ s.db LOCK_EXCLUSIVE).err) := by
    simp only [State.step]
    rw [run_of_some s i _ _ hm]
  have hnge : ¬ lk ≥ LOCK_EXCLUSIVE := by
    rw [ge_iff_le, LockLevel.le_iff]
    rw [LockLevel.lt_iff] at hlt
    simp only [LockLevel.toNat] at hlt ⊢
    omega
  constructor
  · rintro ⟨k, _, hk⟩
    have hwait : s.waits i LOCK_EXCLUSIVE = false := by
      simp [State.waits, hm, hlt, hk]
    unfold State.Lock
    rw [hwait, hstep, Lock_exclusive_busy i ⟨lk, false⟩ s.db rfl hlt (by simp [hk]),
      state_unchanged s i _ hm]
    rfl
  · intro hno
    have hp : s.db.pending = none := by
      cases hpk : s.db.pending with
      | none => rfl
      | some k =>
        by_cases hki : k = i
        · subst hki
          have := pending_holds_of_reachable s hs k hpk
          rw [lockOf_of_some s k _ hm] at this
          have this2 : LOCK_PENDING ≤ lk := this
          exact absurd this2 (by
            rw [LockLevel.le_iff]
            rw [LockLevel.lt_iff] at hlt
            omega)
        · exact absurd ⟨k, hki, hpk⟩ hno
    have hclaim := Lock_exclusive_claim i ⟨lk, false⟩ s.db rfl hlt hp
    have hquiet : ∀ polls, between = List.replicate polls [] →
        ((s.Lock i LOCK_EXCLUSIVE between).2 = none ↔ s.db.shared ≤ 1) := by
      intro polls hb
      rw [hb, Lock_quiet, hstep, hclaim]
      by_cases h1 : s.db.shared ≤ 1
      · rw [if_pos h1]
        simp [h1]
      · rw [if_neg h1]
        simp [h1]
    by_cases h1 : s.db.shared ≤ 1
    · have hwait : s.waits i LOCK_EXCLUSIVE = false := by
        simp [State.waits, hm, h1]
      have hL : s.Lock i LOCK_EXCLUSIVE between
          = (⟨{ s.db with pending := some i }, s.files.set i ⟨LOCK_EXCLUSIVE, false⟩⟩, none) := by
        unfold State.Lock
        rw [hwait, hstep, hclaim, if_pos h1]
        rfl
      rw [hL]
      refine ⟨rfl, ⟨fun _ => ⟨_, polled_head _ _, h1⟩, fun _ => rfl⟩, fun _ => ?_,
        fun h => absurd rfl h, fun _ => rfl, ?_⟩
      · rw [lockOf_set s _ i _ _ hm, if_pos rfl]
      · intro polls hb
        rw [← hL]
        exact hquiet polls hb
    · have hwait : s.waits i LOCK_EXCLUSIVE = true := by
        have h2 : s.db.shared > 1 := by omega
        simp [State.waits, hm, hnge, hp, h2]
      have hL : s.Lock i LOCK_EXCLUSIVE between
          = State.spin i LOCK_EXCLUSIVE
              ⟨{ s.db with pending := some i }, s.files.set i ⟨LOCK_PENDING, false⟩⟩
              between := by
        unfold State.Lock
        rw [hwait, hstep, hclaim, if_neg h1]
        rfl
      have hspec := spin_spec i between
        ⟨{ s.db with pending := some i }, s.files.set i ⟨LOCK_PENDING, false⟩⟩ hothers
        (getElem?_set_self s.files i _ _ hm) rfl (by
          show s.db.shared > 1
          omega)
      refine ⟨?_, ?_, ?_, ?_, fun h => absurd h h1, hquiet⟩
      · rw [hL]
        exact hspec.1
      · rw [hL]
        exact hspec.2.1
      · rw [hL]
        exact hspec.2.2.1
      · rw [hL]
        exact hspec.2.2.2

/-- C5 at `bothShared`, where two files hold `SHARED`: file 0 calls
`Lock(EXCLUSIVE)` and waits; file 1 unlocks to `NONE` before the second test,
which finds the shared count at 1, and the call returns `nil` with file 0 at
`EXCLUSIVE`. -/
theorem lock_exclusive_below_pending_witness :
    Reachable anyCall bothShared ∧
      bothShared.files[0]? = some ⟨LOCK_SHARED, false⟩ ∧
      bothShared.db.shared = 2 ∧
      (bothShared.Lock 0 LOCK_EXCLUSIVE [[.Unlock 1 LOCK_NONE]]).2 = none ∧
      (bothShared.Lock 0 LOCK_EXCLUSIVE [[.Unlock 1 LOCK_NONE]]).1.lockOf 0 = LOCK_EXCLUSIVE ∧
      (bothShared.Lock 0 LOCK_EXCLUSIVE [[.Unlock 1 LOCK_NONE]]).1.db.pending = some 0 :=
  have hr : Reachable anyCall bothShared :=
    Reachable.calls anyCall _ _ (Reachable.fresh _) ⟨trivial, trivial, trivial⟩
  have hp : bothShared.db.pending = none := by decide
  have h := (lock_exclusive_below_pending bothShared hr 0 ⟨LOCK_SHARED, false⟩
    [[.Unlock 1 LOCK_NONE]] (by decide) rfl (by decide) (by decide)).2
    (fun hk => hk.elim (fun k hk2 => Option.noConfusion (hp.symm.trans hk2.2)))
  ⟨hr, by decide, by decide, h.2.1.mpr (by decide), h.2.2.1 (h.2.1.mpr (by decide)), h.1⟩

/-- A step is a call: a `Lock` with no poll left. -/
theorem reachable_step (s : State) (hs : Reachable anyCall s) (c : Step) :
    Reachable anyCall (s.step c).1 := by
  cases c with
  | Lock j lock =>
    have h := Reachable.call (.Lock j lock 0) hs trivial
    rw [call_Lock_run] at h
    exact h
  | Unlock j lock => exact Reachable.call (.Unlock j lock) hs trivial
  | Close j => exact Reachable.call (.Close j) hs trivial

theorem reachable_steps (cs : List Step) (s : State) (hs : Reachable anyCall s) :
    Reachable anyCall (s.steps cs) := by
  induction cs generalizing s with
  | nil => exact hs
  | cons c cs ih => exact ih _ (reachable_step s hs c)

theorem steps_files_other (s : State) (cs : List Step) (i : Nat)
    (hcs : ∀ c ∈ cs, c.file ≠ i) : (s.steps cs).files[i]? = s.files[i]? := by
  induction cs generalizing s with
  | nil => rfl
  | cons c cs ih =>
    exact (ih (s.step c).1 (fun d hd => hcs d (List.mem_cons_of_mem _ hd))).trans
      (step_files_other s c i (hcs c (List.mem_cons_self _ _)))

/-- A `Lock` that waits has left its file at `PENDING` in its first step. -/
theorem waits_file (s : State) (i : Nat) (lock : LockLevel) (h : s.waits i lock = true) :
    lock = LOCK_EXCLUSIVE ∧ (s.step (.Lock i lock)).1.files[i]? = some ⟨LOCK_PENDING, false⟩ := by
  unfold State.waits at h
  cases hm : s.files[i]? with
  | none =>
    rw [hm] at h
    cases h
  | some m =>
    rw [hm] at h
    obtain ⟨lk, ro⟩ := m
    simp only [State.step, run_of_some s i _ _ hm]
    rw [getElem?_set_self s.files i _ _ hm]
    by_cases h1 : s.db.pending = none <;> cases lk <;> cases lock <;> cases ro <;>
      simp [memFile.Lock, LockLevel.le_iff, LockLevel.lt_iff, LockLevel.toNat, h1] at h ⊢ <;>
      simp [h]

theorem reachable_spin (i : Nat) (between : List (List Step)) (t : State)
    (ht : Reachable anyCall t) (hothers : ∀ steps ∈ between, ∀ c ∈ steps, c.file ≠ i)
    (hf : t.files[i]? = some ⟨LOCK_PENDING, false⟩) :
    Reachable anyCall (State.spin i LOCK_EXCLUSIVE t between).1 := by
  induction between generalizing t with
  | nil => exact ht
  | cons others rest ih =>
    have hf1 : (t.steps others).files[i]? = some ⟨LOCK_PENDING, false⟩ :=
      (steps_files_other t others i (hothers others (List.mem_cons_self _ _))).trans hf
    have ht1 := reachable_steps others t ht
    by_cases h1 : (t.steps others).db.shared > 1
    · have hsp : State.spin i LOCK_EXCLUSIVE t (others :: rest)
          = State.spin i LOCK_EXCLUSIVE (t.steps others) rest := by
        simp only [State.spin, if_pos h1]
      rw [hsp]
      exact ih _ ht1 (fun steps hs => hothers steps (List.mem_cons_of_mem _ hs)) hf1
    · have hsp : (State.spin i LOCK_EXCLUSIVE t (others :: rest)).1
          = ((t.steps others).step (.Lock i LOCK_EXCLUSIVE)).1 := by
        simp only [State.spin, if_neg h1, State.setLock, hf1, State.step,
          run_of_some _ i _ _ hf1]
        simp [memFile.Lock, LockLevel.le_iff, LockLevel.lt_iff, LockLevel.toNat, h1]
      rw [hsp]
      exact reachable_step _ ht1 _

/-- The states that a `Lock` goes through while other files take steps between
its tests are states that the calls reach when they are made one after the
other. -/
theorem reachable_Lock (s : State) (hs : Reachable anyCall s) (i : Nat) (lock : LockLevel)
    (between : List (List Step)) (hothers : ∀ steps ∈ between, ∀ c ∈ steps, c.file ≠ i) :
    Reachable anyCall (s.Lock i lock between).1 := by
  unfold State.Lock
  by_cases hw : s.waits i lock = true
  · rw [if_pos hw]
    obtain ⟨hl, hf⟩ := waits_file s i lock hw
    subst hl
    exact reachable_spin i between _ (reachable_step s hs _) hothers hf
  · rw [if_neg hw]
    exact reachable_step s hs _

/-! ### C6: read-only files -/

theorem Lock_readOnly_refused (self : Nat) (m : memFile) (db : memDB) (lock : LockLevel)
    (hro : m.readOnly = true) (hr : LOCK_RESERVED ≤ lock) (hlt : m.lock < lock) :
    m.Lock self db lock = ⟨m, db, some sqlite3.IOERR_LOCK⟩ := by
  obtain ⟨lk, ro⟩ := m
  subst hro
  cases lk <;> cases lock <;>
    simp [memFile.Lock, LockLevel.le_iff, LockLevel.lt_iff, LockLevel.toNat] at hr hlt ⊢

theorem Lock_shared_err (self : Nat) (m : memFile) (db : memDB) :
    (m.Lock self db LOCK_SHARED).err
      = if LOCK_SHARED ≤ m.lock ∨ db.pending = none then none else some sqlite3.BUSY := by
  obtain ⟨lk, ro⟩ := m
  by_cases hp : db.pending = none <;> cases lk <;> cases ro <;>
    simp [memFile.Lock, LockLevel.le_iff, LockLevel.lt_iff, LockLevel.toNat, hp]

/-- C6: on a file opened read-only, `Lock` of `RESERVED`, `PENDING` or
`EXCLUSIVE` above the file's level returns `IOERR_LOCK` and leaves the whole
state as it was; `Lock(SHARED)` never returns `IOERR_LOCK` and succeeds exactly
when the file already holds `SHARED` or there is no pending holder. -/
theorem lock_readOnly (s : State) (i : Nat) (m : memFile) (polls : Nat) (lock : LockLevel)
    (hm : s.files[i]? = some m) (hro : m.readOnly = true) :
    (LOCK_RESERVED ≤ lock → m.lock < lock →
        s.call (.Lock i lock polls) = (s, some sqlite3.IOERR_LOCK)) ∧
    (s.call (.Lock i LOCK_SHARED polls)).2 ≠ some sqlite3.IOERR_LOCK ∧
    ((s.call (.Lock i LOCK_SHARED polls)).2 = none ↔
        (LOCK_SHARED ≤ m.lock ∨ s.db.pending = none)) := by
  refine ⟨?_, ?_, ?_⟩
  · intro hr hlt
    rw [call_Lock s i m _ _ hm, Lock_readOnly_refused i m s.db lock hro hr hlt,
      state_unchanged s i m hm]
  · rw [call_Lock s i m _ _ hm]
    dsimp only
    rw [Lock_shared_err]
    split_ifs <;> simp [sqlite3.BUSY, sqlite3.IOERR_LOCK, sqlite3.IOERR]
  · rw [call_Lock s i m _ _ hm]
    dsimp only
    rw [Lock_shared_err]
    split_ifs with h <;> simp [h]

/-- C6 at a fresh database with one read-only file. -/
theorem lock_readOnly_witness :
    (State.fresh [true]).files[0]? = some ⟨LOCK_NONE, true⟩ ∧
      (State.fresh [true]).call (.Lock 0 LOCK_RESERVED 0)
        = (State.fresh [true], some sqlite3.IOERR_LOCK) ∧
      ((State.fresh [true]).call (.Lock 0 LOCK_SHARED 0)).2 = none :=
  ⟨rfl,
   (lock_readOnly (State.fresh [true]) 0 ⟨LOCK_NONE, true⟩ 0 LOCK_RESERVED rfl rfl).1
     (by decide) (by decide),
   (lock_readOnly (State.fresh [true]) 0 ⟨LOCK_NONE, true⟩ 0 LOCK_RESERVED rfl rfl).2.2.mpr
     (Or.inr rfl)⟩

/-! ### C7: `Unlock` -/

/-- C7: `Unlock(l)` of file `i` below its level returns `nil`; afterwards the
file is at `l`, the pending holder is cleared if it was `i` and kept otherwise,
likewise the reserved holder, the shared count is one less if `l` is below
`SHARED` and the same otherwise, and the other files, the data and the size
are untouched. At or above the level of the file the call changes nothing. -/
theorem unlock_frame (s : State) (i : Nat) (m : memFile) (l : LockLevel)
    (hm : s.files[i]? = some m) :
    (l < m.lock →
      (s.call (.Unlock i l)).2 = none ∧
      (s.call (.Unlock i l)).1.lockOf i = l ∧
      (s.call (.Unlock i l)).1.db.pending
        = (if s.db.pending = some i then none else s.db.pending) ∧
      (s.call (.Unlock i l)).1.db.reserved
        = (if s.db.reserved = some i then none else s.db.reserved) ∧
      (s.call (.Unlock i l)).1.db.shared
        = (if l < LOCK_SHARED then s.db.shared - 1 else s.db.shared) ∧
      (s.call (.Unlock i l)).1.db.data = s.db.data ∧
      (s.call (.Unlock i l)).1.db.size = s.db.size ∧
      (∀ j, j ≠ i → (s.call (.Unlock i l)).1.files[j]? = s.files[j]?)) ∧
    (m.lock ≤ l → s.call (.Unlock i l) = (s, none)) := by
  rw [call_Unlock s i m l hm]
  constructor
  · intro hlt
    have hnle : ¬ m.lock ≤ l := by
      rw [LockLevel.le_iff]
      rw [LockLevel.lt_iff] at hlt
      omega
    rw [Unlock_eq i m s.db l hnle]
    refine ⟨rfl, ?_, rfl, rfl, rfl, rfl, rfl, ?_⟩
    · simp [State.lockOf, getElem?_set_self s.files i _ m hm]
    · intro j hj
      exact getElem?_set_other s.files i j _ hj
  · intro hle
    rw [Unlock_noop i m s.db l hle, state_unchanged s i m hm]

/-- C7 at `writerAlone`: file 0 unlocks from `EXCLUSIVE` to `NONE`; `Unlock(SHARED)`
of file 1, which is at `NONE`, changes nothing. -/
theorem unlock_frame_witness :
    writerAlone.files[0]? = some ⟨LOCK_EXCLUSIVE, false⟩ ∧
      LOCK_NONE < LOCK_EXCLUSIVE ∧
      (writerAlone.call (.Unlock 0 LOCK_NONE)).1.lockOf 0 = LOCK_NONE ∧
      (writerAlone.call (.Unlock 0 LOCK_NONE)).1.db.shared = writerAlone.db.shared - 1 ∧
      writerAlone.call (.Unlock 1 LOCK_SHARED) = (writerAlone, none) :=
  ⟨by decide, by decide,
   ((unlock_frame writerAlone 0 ⟨LOCK_EXCLUSIVE, false⟩ LOCK_NONE (by decide)).1
      (by decide)).2.1,
   ((unlock_frame writerAlone 0 ⟨LOCK_EXCLUSIVE, false⟩ LOCK_NONE (by decide)).1
      (by decide)).2.2.2.2.1,
   (unlock_frame writerAlone 1 ⟨LOCK_NONE, false⟩ LOCK_SHARED (by decide)).2 (by decide)⟩

end memdb

/-! ## The arena -/

namespace sqlite3

/-- While the `uint32` sum does not wrap, a `new` served from the base region
hands out the range right above the bump offset, inside the region, and moves
the offset past it; so ranges handed out later lie above it. -/
theorem arena_new_fits (env : Env) (t : List ApiCall) (a : arena) (size : Nat)
    (hb : a.base + a.size < 2 ^ 32) (hnext : a.next ≤ a.size) (hsum : a.next + size < 2 ^ 32)
    (hfit : u32 (a.next + size) ≤ a.size) :
    arena.new env t a size = (.ok (a.base + a.next), { a with next := a.next + size }, t) ∧
    a.inside (a.base + a.next, size) := by
  have e1 : u32 (a.next + size) = a.next + size := Nat.mod_eq_of_lt hsum
  have e2 : u32 (a.base + a.next) = a.base + a.next := Nat.mod_eq_of_lt (by omega)
  rw [e1] at hfit
  refine ⟨by simp [arena.new, e1, e2, hfit], ?_⟩
  simp only [arena.inside]
  omega

/-- C8 (defect in the code): an arena of 1024 bytes at 65536 is asked for 4,
4294967295 and 2 bytes. The `uint32` sum `next + size` of the second call wraps
to 3, so the call is served from the base region (the engine allocator is not
called) with a range that leaves the region, and the bump offset moves back;
the third call then returns bytes of the first range again. The same happens
to the third allocation of `PrepareFlags` for an SQL text of 4294967294 bytes:
sizes 4, 4 and 4294967295. -/
theorem arena_new_wraps (env : Env) (t : List ApiCall) :
    arena.news env t ⟨65536, 0, 1024, []⟩ [4, 4294967295, 2]
      = ([(65536, 4), (65540, 4294967295), (65539, 2)], ⟨65536, 5, 1024, []⟩) ∧
    (arena.new env t ⟨65536, 4, 1024, []⟩ 4294967295).2.2 = t ∧
    ¬ disjoint (65536, 4) (65539, 2) ∧
    ¬ arena.inside ⟨65536, 0, 1024, []⟩ (65540, 4294967295) ∧
    arena.news env t ⟨65536, 0, 1024, []⟩ [4, 4, u32 (4294967294 + 1)]
      = ([(65536, 4), (65540, 4), (65544, 4294967295)], ⟨65536, 7, 1024, []⟩) ∧
    ¬ arena.inside ⟨65536, 0, 1024, []⟩ (65544, 4294967295) := by
  refine ⟨?_, ?_, by decide, by decide, ?_, by decide⟩
  · simp [arena.news, arena.new, u32]
  · simp [arena.new, u32]
  · simp [arena.news, arena.new, u32]

theorem foldl_free (ptrs : List Nat) (t : List ApiCall) (h : 0 ∉ ptrs) :
    ptrs.foldl Conn.free t = t ++ ptrs.map ApiCall.free := by
  induction ptrs generalizing t with
  | nil => simp
  | cons p ps ih =>
    have hp : p ≠ 0 := fun e => h (by simp [e])
    have hps : 0 ∉ ps := fun e => h (by simp [e])
    simp [List.foldl_cons, Conn.free, hp, ih _ hps]

theorem WF_newArena (env : Env) (t t1 : List ApiCall) (size : Nat) (a : arena)
    (hs : size < 2 ^ 32) (h : Conn.newArena env t size = (.ok a, t1)) : a.WF := by
  unfold Conn.newArena Conn.new at h
  dsimp only at h
  split_ifs at h
  · simp at h
  · simp only [Prod.mk.injEq, Except.ok.injEq] at h
    obtain ⟨rfl, _⟩ := h
    exact ⟨Nat.mod_lt _ (by decide), hs, Nat.zero_le _, by simp, by simp, by simp⟩

theorem WF_reset (t : List ApiCall) (a : arena) (h : a.WF) : (arena.reset t a).1.WF :=
  ⟨h.base_lt, h.size_lt, Nat.zero_le _, by simp [arena.reset], by simp [arena.reset],
   by simp [arena.reset]⟩

/-- A `new` keeps the arena well formed, the engine allocator returning a block
other than the base region and the blocks of the spill list. -/
theorem WF_new (env : Env) (t : List ApiCall) (a : arena) (size : Nat) (h : a.WF)
    (hfresh : u32 (env.malloc t) ≠ a.base) (hlive : u32 (env.malloc t) ∉ a.ptrs) :
    (arena.new env t a size).2.1.WF := by
  unfold arena.new
  split_ifs with hfit
  · exact ⟨h.base_lt, h.size_lt, hfit, h.no_null, h.no_base, h.nodup⟩
  · unfold Conn.new
    dsimp only
    split_ifs with hnull
    · exact h
    · refine ⟨h.base_lt, h.size_lt, h.next_le, ?_, ?_, ?_⟩
      · have hsz : size ≠ 0 := by
          intro e
          apply hfit
          have h1 := h.next_le
          have h2 := h.size_lt
          simp only [u32, e, Nat.add_zero]
          rw [Nat.mod_eq_of_lt (by omega)]
          exact h1
        have hp : u32 (env.malloc t) ≠ 0 := fun e => hnull ⟨e, hsz⟩
        simp only [List.mem_append, List.mem_singleton, not_or]
        exact ⟨h.no_null, fun e => hp e.symm⟩
      · simp only [List.mem_append, List.mem_singleton, not_or]
        exact ⟨h.no_base, fun e => hfresh e.symm⟩
      · exact List.Nodup.append h.nodup (List.nodup_singleton _)
          (by
            intro x hx hx2
            rw [List.mem_singleton] at hx2
            exact hlive (hx2 ▸ hx))

/-- A `string` keeps the arena well formed, under the same condition. -/
theorem WF_string (env : Env) (t : List ApiCall) (a : arena) (str : Bytes) (h : a.WF)
    (hfresh : u32 (env.malloc t) ≠ a.base) (hlive : u32 (env.malloc t) ∉ a.ptrs) :
    (arena.string env t a str).2.1.WF := by
  have hw := WF_new env t a (u32 (str.length + 1)) h hfresh hlive
  unfold arena.string
  generalize arena.new env t a (u32 (str.length + 1)) = res at hw ⊢
  obtain ⟨r, a1, t1⟩ := res
  cases r with
  | error e => exact hw
  | ok ptr =>
    dsimp only
    cases writeString env ptr str <;> exact hw

/-- C9: `reset` calls the engine's `free` for the pointers of the spill list, in
order, each exactly once, and for nothing else (so never for the base region); it leaves
the spill list empty and the bump offset at zero, base and size as they were;
the next `new(n)` with `n` not larger than the region returns the base pointer
without calling the engine. -/
theorem reset_frees_spill (env : Env) (t t1 : List ApiCall) (a : arena) (n : Nat) (h : a.WF)
    (hn : n ≤ a.size) :
    (arena.reset t a).2 = t ++ a.ptrs.map ApiCall.free ∧
    (∀ p ∈ a.ptrs, (a.ptrs.map ApiCall.free).count (ApiCall.free p) = 1) ∧
    ApiCall.free a.base ∉ a.ptrs.map ApiCall.free ∧
    (arena.reset t a).1 = { a with ptrs := [], next := 0 } ∧
    arena.new env t1 (arena.reset t a).1 n
      = (.ok a.base, { a with ptrs := [], next := n }, t1) := by
  have hsz := h.size_lt
  have hb := h.base_lt
  refine ⟨foldl_free a.ptrs t h.no_null, ?_, ?_, rfl, ?_⟩
  · intro p hp
    have hinj : Function.Injective ApiCall.free := fun x y e => by
      simpa using e
    rw [List.count_map_of_injective a.ptrs ApiCall.free hinj p]
    exact List.count_eq_one_of_mem h.nodup hp
  · simp only [List.mem_map, ApiCall.free.injEq, exists_eq_right]
    exact h.no_base
  · have e1 : u32 n = n := Nat.mod_eq_of_lt (by omega)
    have e2 : u32 a.base = a.base := Nat.mod_eq_of_lt hb
    simp [arena.new, arena.reset, e1, e2, hn]

/-- C9 at an arena with two spilled blocks. -/
theorem reset_frees_spill_witness :
    (arena.reset [.malloc 2000] ⟨2048, 24, 1024, [8192, 12288]⟩).2
        = [.malloc 2000, .free 8192, .free 12288] ∧
      arena.new envExhausted [] (arena.reset [.malloc 2000] ⟨2048, 24, 1024, [8192, 12288]⟩).1 1024
        = (.ok 2048, ⟨2048, 1024, 1024, []⟩, []) :=
  have h := reset_frees_spill envExhausted [.malloc 2000] [] ⟨2048, 24, 1024, [8192, 12288]⟩ 1024
    ⟨by decide, by decide, by decide, by decide, by decide, by decide⟩ (by decide)
  ⟨h.1, h.2.2.2.2⟩

/-! ## The interrupt check of `Exec` and `PrepareFlags` -/

theorem Quiet.refl (t : List ApiCall) : Quiet t t :=
  ⟨[], by simp, by simp⟩

theorem Quiet.trans {t t1 t2 : List ApiCall} (h1 : Quiet t t1) (h2 : Quiet t1 t2) :
    Quiet t t2 := by
  obtain ⟨c1, rfl, hc1⟩ := h1
  obtain ⟨c2, rfl, hc2⟩ := h2
  refine ⟨c1 ++ c2, by simp, ?_⟩
  intro x hx
  rcases List.mem_append.mp hx with h | h
  · exact hc1 x h
  · exact hc2 x h

theorem Quiet.snoc (t : List ApiCall) (x : ApiCall) (hx : x.isEntry = false) :
    Quiet t (t ++ [x]) :=
  ⟨[x], rfl, by simpa using hx⟩

theorem Quiet.free (t : List ApiCall) (ptr : Nat) : Quiet t (Conn.free t ptr) := by
  unfold Conn.free
  split_ifs
  · exact Quiet.refl t
  · exact Quiet.snoc t _ rfl

theorem Quiet.frees (ptrs : List Nat) (t : List ApiCall) :
    Quiet t (ptrs.foldl Conn.free t) := by
  induction ptrs generalizing t with
  | nil => exact Quiet.refl t
  | cons p ps ih => exact (Quiet.free t p).trans (ih _)

theorem Quiet.reset (t : List ApiCall) (a : arena) : Quiet t (arena.reset t a).2 :=
  Quiet.frees a.ptrs t

theorem Quiet.connNew (env : Env) (t : List ApiCall) (size : Nat) :
    Quiet t (Conn.new env t size).2 := by
  unfold Conn.new
  dsimp only
  split_ifs <;> exact Quiet.snoc t _ rfl

theorem Quiet.new (env : Env) (t : List ApiCall) (a : arena) (size : Nat) :
    Quiet t (arena.new env t a size).2.2 := by
  unfold arena.new
  split_ifs
  · exact Quiet.refl t
  · have := Quiet.connNew env t size
    revert this
    cases Conn.new env t size with
    | mk r t1 =>
      cases r <;> exact fun h => h

theorem Quiet.string (env : Env) (t : List ApiCall) (a : arena) (s : Bytes) :
    Quiet t (arena.string env t a s).2.2 := by
  unfold arena.string
  have := Quiet.new env t a (u32 (s.length + 1))
  revert this
  rcases arena.new env t a (u32 (s.length + 1)) with ⟨r, a1, t1⟩
  cases r with
  | error e => exact fun h => h
  | ok ptr =>
    dsimp only
    cases writeString env ptr s <;> exact fun h => h

theorem Quiet.marshal (env : Env) (t : List ApiCall) (a : arena) (sql : Bytes) :
    Quiet t (Conn.marshal env t a sql).2.2 := by
  unfold Conn.marshal
  have h1 := Quiet.new env t a ptrlen
  revert h1
  rcases arena.new env t a ptrlen with ⟨r1, a1, t1⟩
  cases r1 with
  | error e => exact fun h => h
  | ok stmtPtr =>
    intro h1
    dsimp only at h1 ⊢
    have h2 := Quiet.new env t1 a1 ptrlen
    revert h2
    rcases arena.new env t1 a1 ptrlen with ⟨r2, a2, t2⟩
    cases r2 with
    | error e => exact fun h => h1.trans h
    | ok tailPtr =>
      intro h2
      dsimp only at h2 ⊢
      have h3 := Quiet.string env t2 a2 sql
      revert h3
      rcases arena.string env t2 a2 sql with ⟨r3, a3, t3⟩
      cases r3 with
      | error e => exact fun h => (h1.trans h2).trans h
      | ok sqlPtr => exact fun h => (h1.trans h2).trans h

theorem dedup_code (e : Error) : e.dedup.code = e.code := by
  unfold Error.dedup
  split_ifs <;> rfl

/-- The error made for `INTERRUPT`: the engine is asked for the code string and
the message, and the `*Error` returned carries the code `INTERRUPT`. -/
theorem error_INTERRUPT (env : Env) (t : List ApiCall) (c : Conn) :
    ∃ e : Error, Conn.error env t c INTERRUPT none
        = (.ok (some e), t ++ [.errstr INTERRUPT] ++ [.errmsg c.handle]) ∧
      e.code = INTERRUPT := by
  unfold Conn.error
  rw [if_neg (by decide), if_neg (by decide)]
  exact ⟨_, rfl, by
    rw [dedup_code]
    cases env.errstr t <;> cases env.errmsg (t ++ [ApiCall.errstr INTERRUPT]) <;> rfl⟩

theorem interrupted_of_fired (env : Env) (c : Conn) (ch : Nat) (hd : c.done = some ch)
    (hf : env.closed ch = true) : c.interrupted env = true := by
  simp [Conn.interrupted, hd, hf]

theorem interrupted_of_idle (env : Env) (c : Conn)
    (h : c.done = none ∨ ∃ ch, c.done = some ch ∧ env.closed ch = false) :
    c.interrupted env = false := by
  rcases h with h | ⟨ch, hd, hf⟩
  · simp [Conn.interrupted, h]
  · simp [Conn.interrupted, hd, hf]

theorem Code_of_code (e : Error) (h : e.code = INTERRUPT) : e.Code = INTERRUPT := by
  simp [Error.Code, h, INTERRUPT]

theorem Quiet.error (env : Env) (t : List ApiCall) (c : Conn) (rc : Nat) (sql : Option Bytes) :
    Quiet t (Conn.error env t c rc sql).2 := by
  unfold Conn.error
  by_cases h1 : rc = _OK
  · rw [if_pos h1]
    exact Quiet.refl t
  · rw [if_neg h1]
    dsimp only
    split_ifs
    · exact Quiet.refl t
    · have q2 : Quiet t (t ++ [.errstr rc] ++ [.errmsg c.handle]) :=
        (Quiet.snoc t (.errstr rc) rfl).trans (Quiet.snoc _ (.errmsg c.handle) rfl)
      cases sql with
      | none => exact q2
      | some q =>
        dsimp only
        have q3 := q2.trans (Quiet.snoc _ (.erroff c.handle) rfl)
        cases env.erroff (t ++ [ApiCall.errstr rc] ++ [ApiCall.errmsg c.handle]) with
        | none => exact q3
        | some off =>
          dsimp only
          split_ifs <;> exact q3

theorem Quiet.after {t t1 t2 : List ApiCall} {x : ApiCall} (h : Quiet t1 t2)
    (h1 : ∃ post, t1 = t ++ x :: post) : ∃ post, t2 = t ++ x :: post := by
  obtain ⟨post, rfl⟩ := h1
  obtain ⟨calls, rfl, _⟩ := h
  exact ⟨post ++ calls, by simp⟩

theorem Exec_fired (env : Env) (t : List ApiCall) (c : Conn) (sql : Bytes)
    (hi : c.interrupted env = true) :
    Quiet t (Conn.Exec env t c sql).trace ∧
    (∀ f, (arena.string env t c.arena sql).1 = .error f →
      (Conn.Exec env t c sql).result = .error f) ∧
    (∀ p, (arena.string env t c.arena sql).1 = .ok p →
      ∃ e, (Conn.Exec env t c sql).result = .ok (some (.sqlite e)) ∧
        e.code = INTERRUPT ∧ e.Code = INTERRUPT) := by
  have hq := Quiet.string env t c.arena sql
  unfold Conn.Exec
  generalize arena.string env t c.arena sql = res at hq ⊢
  obtain ⟨r, a1, t1⟩ := res
  cases r with
  | error f =>
    refine ⟨hq.trans (Quiet.reset _ _), ?_, ?_⟩
    · intro f2 h
      cases h
      rfl
    · intro p h
      cases h
  | ok sqlPtr =>
    obtain ⟨e, he, hc⟩ := error_INTERRUPT env t1 c
    simp only [hi, if_true, he]
    refine ⟨?_, ?_, ?_⟩
    · exact ((hq.trans (Quiet.snoc _ (.errstr INTERRUPT) rfl)).trans
        (Quiet.snoc _ (.errmsg c.handle) rfl)).trans (Quiet.reset _ _)
    · intro f h
      cases h
    · intro p _
      exact ⟨e, rfl, hc, Code_of_code e hc⟩

theorem Prepare_fired (env : Env) (t : List ApiCall) (c : Conn) (sql : Bytes) (flags : Nat)
    (hi : c.interrupted env = true) :
    Quiet t (Conn.PrepareFlags env t c sql flags).trace ∧
    (∀ f, (Conn.marshal env t c.arena sql).1 = .error f →
      (Conn.PrepareFlags env t c sql flags).result = .error f) ∧
    (∀ p, (Conn.marshal env t c.arena sql).1 = .ok p →
      ∃ e, (Conn.PrepareFlags env t c sql flags).result = .ok ⟨none, [], some (.sqlite e)⟩ ∧
        e.code = INTERRUPT ∧ e.Code = INTERRUPT) := by
  have hq := Quiet.marshal env t c.arena sql
  unfold Conn.PrepareFlags
  generalize Conn.marshal env t c.arena sql = res at hq ⊢
  obtain ⟨r, a3, t3⟩ := res
  cases r with
  | error f =>
    refine ⟨hq.trans (Quiet.reset _ _), ?_, ?_⟩
    · intro f2 h
      cases h
      rfl
    · intro p h
      cases h
  | ok ptrs =>
    obtain ⟨stmtPtr, tailPtr, sqlPtr⟩ := ptrs
    obtain ⟨e, he, hc⟩ := error_INTERRUPT env t3 c
    simp only [hi, if_true, he]
    refine ⟨?_, ?_, ?_⟩
    · exact ((hq.trans (Quiet.snoc _ (.errstr INTERRUPT) rfl)).trans
        (Quiet.snoc _ (.errmsg c.handle) rfl)).trans (Quiet.reset _ _)
    · intro f h
      cases h
    · intro p _
      exact ⟨e, rfl, hc, Code_of_code e hc⟩

theorem trace_deferReset {α : Type} (c : Conn) (a : arena) (r : Except Fatal α)
    (t t1 : List ApiCall) (x : ApiCall) (h : ∃ post, t1 = t ++ x :: post) :
    ∃ post, (c.deferReset a (r, t1)).trace = t ++ x :: post :=
  (Quiet.reset t1 a).after h

theorem Exec_idle (env : Env) (t : List ApiCall) (c : Conn) (sql : Bytes)
    (hi : c.interrupted env = false) (p : Nat)
    (hp : (arena.string env t c.arena sql).1 = .ok p) :
    ∃ post, (Conn.Exec env t c sql).trace
      = (arena.string env t c.arena sql).2.2 ++ ApiCall.exec c.handle p :: post := by
  unfold Conn.Exec
  generalize arena.string env t c.arena sql = res at hp ⊢
  obtain ⟨r, a1, t1⟩ := res
  cases r with
  | error f => cases hp
  | ok sqlPtr =>
    cases hp
    simp only [hi, Bool.false_eq_true, if_false]
    cases env.exec t1 with
    | none => exact trace_deferReset c a1 _ t1 _ _ ⟨[], rfl⟩
    | some rc =>
      dsimp only
      have h := (Quiet.error env (t1 ++ [ApiCall.exec c.handle p]) c rc none).after
        (t := t1) (x := ApiCall.exec c.handle p) ⟨[], rfl⟩
      generalize Conn.error env (t1 ++ [ApiCall.exec c.handle p]) c rc none = res2 at h ⊢
      obtain ⟨r2, t3⟩ := res2
      cases r2 <;> exact trace_deferReset c a1 _ t1 _ _ h

theorem Prepare_idle (env : Env) (t : List ApiCall) (c : Conn) (sql : Bytes) (flags : Nat)
    (hi : c.interrupted env = false) (p : Nat × Nat × Nat)
    (hp : (Conn.marshal env t c.arena sql).1 = .ok p) :
    ∃ post, (Conn.PrepareFlags env t c sql flags).trace
      = (Conn.marshal env t c.arena sql).2.2
        ++ ApiCall.prepare c.handle p.2.2 (sql.length + 1) flags p.1 p.2.1 :: post := by
  unfold Conn.PrepareFlags
  generalize Conn.marshal env t c.arena sql = res at hp ⊢
  obtain ⟨r, a3, t3⟩ := res
  cases r with
  | error f => cases hp
  | ok ptrs =>
    cases hp
    obtain ⟨stmtPtr, tailPtr, sqlPtr⟩ := p
    simp only [hi, Bool.false_eq_true, if_false]
    cases env.prepare t3 with
    | none => exact trace_deferReset c a3 _ t3 _ _ ⟨[], rfl⟩
    | some ans =>
      dsimp only
      by_cases hlen : u32 (u32 ans.tail + 2 ^ 32 - sqlPtr) ≤ sql.length
      · rw [if_pos hlen]
        have h := (Quiet.error env
            (t3 ++ [ApiCall.prepare c.handle sqlPtr (sql.length + 1) flags stmtPtr tailPtr])
            c ans.rc (some sql)).after
          (t := t3) (x := ApiCall.prepare c.handle sqlPtr (sql.length + 1) flags stmtPtr tailPtr)
          ⟨[], rfl⟩
        generalize Conn.error env
          (t3 ++ [ApiCall.prepare c.handle sqlPtr (sql.length + 1) flags stmtPtr tailPtr])
          c ans.rc (some sql) = res2 at h ⊢
        obtain ⟨r2, t5⟩ := res2
        cases r2 with
        | error f => exact trace_deferReset c a3 _ t3 _ _ h
        | ok e =>
          cases e with
          | some e => exact trace_deferReset c a3 _ t3 _ _ h
          | none =>
            dsimp only
            split_ifs <;> exact trace_deferReset c a3 _ t3 _ _ h
      · rw [if_neg hlen]
        exact trace_deferReset c a3 _ t3 _ _ ⟨[], rfl⟩

set_option maxRecDepth 100000 in
/-- C10, as stated, fails: both methods marshal the SQL text into the arena
before they look at the signal. With the signal fired, an SQL text of 1024
bytes does not fit the 1024-byte arena together with its NUL, the block is
requested from the engine allocator, which is out of memory here, and the
fatal out-of-memory condition is raised instead of an `INTERRUPT` error being
returned. -/
theorem interrupt_gate_counterexample :
    connSignalled.done = some 0 ∧ envExhausted.closed 0 = true ∧
      (Conn.Exec envExhausted [] connSignalled sqlLong).result = .error .oomErr ∧
      (Conn.PrepareFlags envExhausted [] connSignalled sqlLong 0).result = .error .oomErr :=
  ⟨rfl, rfl, rfl, rfl⟩

/-- C10 (amended): `Exec` and `PrepareFlags` first marshal their arguments into
the arena; a fatal condition raised there (out of memory, range) is raised by
the method whatever the signal. Otherwise, with a signal that has fired, both
return an error whose code is `INTERRUPT` (`PrepareFlags` with a nil statement
and an empty tail); with or without a fatal condition no call to the engine's
`exec` or `prepare` is made. With no signal, or one that has not fired, the
entry is called once the arguments are marshalled. -/
theorem interrupt_gate (env : Env) (t : List ApiCall) (c : Conn) (sql : Bytes) (flags : Nat) :
    ((∃ ch, c.done = some ch ∧ env.closed ch = true) →
      Quiet t (Conn.Exec env t c sql).trace ∧
      (∀ f, (arena.string env t c.arena sql).1 = .error f →
        (Conn.Exec env t c sql).result = .error f) ∧
      (∀ p, (arena.string env t c.arena sql).1 = .ok p →
        ∃ e, (Conn.Exec env t c sql).result = .ok (some (.sqlite e)) ∧
          e.code = INTERRUPT ∧ e.Code = INTERRUPT) ∧
      Quiet t (Conn.PrepareFlags env t c sql flags).trace ∧
      (∀ f, (Conn.marshal env t c.arena sql).1 = .error f →
        (Conn.PrepareFlags env t c sql flags).result = .error f) ∧
      (∀ p, (Conn.marshal env t c.arena sql).1 = .ok p →
        ∃ e, (Conn.PrepareFlags env t c sql flags).result
            = .ok ⟨none, [], some (.sqlite e)⟩ ∧ e.code = INTERRUPT ∧ e.Code = INTERRUPT)) ∧
    ((c.done = none ∨ ∃ ch, c.done = some ch ∧ env.closed ch = false) →
      (∀ p, (arena.string env t c.arena sql).1 = .ok p →
        ∃ post, (Conn.Exec env t c sql).trace
          = (arena.string env t c.arena sql).2.2 ++ ApiCall.exec c.handle p :: post) ∧
      (∀ p, (Conn.marshal env t c.arena sql).1 = .ok p →
        ∃ post, (Conn.PrepareFlags env t c sql flags).trace
          = (Conn.marshal env t c.arena sql).2.2
            ++ ApiCall.prepare c.handle p.2.2 (sql.length + 1) flags p.1 p.2.1 :: post)) := by
  constructor
  · rintro ⟨ch, hd, hf⟩
    have hi := interrupted_of_fired env c ch hd hf
    obtain ⟨h1, h2, h3⟩ := Exec_fired env t c sql hi
    obtain ⟨h4, h5, h6⟩ := Prepare_fired env t c sql flags hi
    exact ⟨h1, h2, h3, h4, h5, h6⟩
  · intro h
    have hi := interrupted_of_idle env c h
    exact ⟨fun p hp => Exec_idle env t c sql hi p hp,
      fun p hp => Prepare_idle env t c sql flags hi p hp⟩

/-- C10 (amended) for `SELECT 1`: with the signal fired `Exec` returns `INTERRUPT`;
without a signal it calls `exec`. -/
theorem interrupt_gate_witness :
    (∃ ch, connSignalled.done = some ch ∧ envExhausted.closed ch = true) ∧
      (arena.string envExhausted [] connSignalled.arena selectOne).1 = .ok 2048 ∧
      (∃ e, (Conn.Exec envExhausted [] connSignalled selectOne).result
          = .ok (some (.sqlite e)) ∧ e.code = INTERRUPT ∧ e.Code = INTERRUPT) ∧
      connIdle.done = none ∧
      (∃ post, (Conn.Exec envExhausted [] connIdle selectOne).trace
          = (arena.string envExhausted [] connIdle.arena selectOne).2.2
            ++ ApiCall.exec connIdle.handle 2048 :: post) :=
  ⟨⟨0, rfl, rfl⟩, rfl,
   (interrupt_gate envExhausted [] connSignalled selectOne 0).1 ⟨0, rfl, rfl⟩ |>.2.2.1 2048 rfl,
   rfl,
   (interrupt_gate envExhausted [] connIdle selectOne 0).2 (Or.inl rfl) |>.1 2048 rfl⟩

end sqlite3

/-! ## C11, C12: the tail and the statement of `PrepareFlags` -/

namespace sqlite3

theorem u32_lt (n : Nat) : u32 n < 2 ^ 32 := Nat.mod_lt _ (by decide)

theorem connNew_ptr_lt (env : Env) (t : List ApiCall) (size p : Nat)
    (h : (Conn.new env t size).1 = .ok p) : p < 2 ^ 32 := by
  unfold Conn.new at h
  dsimp only at h
  split_ifs at h
  · cases h
    exact u32_lt _

theorem arena_new_ptr_lt (env : Env) (t : List ApiCall) (a : arena) (size p : Nat)
    (h : (arena.new env t a size).1 = .ok p) : p < 2 ^ 32 := by
  unfold arena.new at h
  split_ifs at h
  · cases h
    exact u32_lt _
  · have hc := connNew_ptr_lt env t size
    generalize Conn.new env t size = res at h hc
    obtain ⟨r, t1⟩ := res
    cases r with
    | error e => cases h
    | ok q =>
      cases h
      exact hc p rfl

theorem arena_string_ptr_lt (env : Env) (t : List ApiCall) (a : arena) (s : Bytes) (p : Nat)
    (h : (arena.string env t a s).1 = .ok p) : p < 2 ^ 32 := by
  unfold arena.string at h
  have hn := arena_new_ptr_lt env t a (u32 (s.length + 1))
  generalize arena.new env t a (u32 (s.length + 1)) = res at h hn
  obtain ⟨r, a1, t1⟩ := res
  cases r with
  | error e => cases h
  | ok q =>
    dsimp only at h
    cases hw : writeString env q s with
    | error e =>
      rw [hw] at h
      cases h
    | ok u =>
      rw [hw] at h
      cases h
      exact hn p rfl

theorem marshal_sqlPtr_lt (env : Env) (t : List ApiCall) (a : arena) (sql : Bytes)
    (p : Nat × Nat × Nat) (h : (Conn.marshal env t a sql).1 = .ok p) : p.2.2 < 2 ^ 32 := by
  unfold Conn.marshal at h
  generalize arena.new env t a ptrlen = r1 at h
  obtain ⟨r1, a1, t1⟩ := r1
  cases r1 with
  | error e => cases h
  | ok stmtPtr =>
    dsimp only at h
    generalize arena.new env t1 a1 ptrlen = r2 at h
    obtain ⟨r2, a2, t2⟩ := r2
    cases r2 with
    | error e => cases h
    | ok tailPtr =>
      dsimp only at h
      have hs := arena_string_ptr_lt env t2 a2 sql
      generalize arena.string env t2 a2 sql = r3 at h hs
      obtain ⟨r3, a3, t3⟩ := r3
      cases r3 with
      | error e => cases h
      | ok sqlPtr =>
        cases h
        exact hs sqlPtr rfl

/-- The `uint32` difference `i - sqlPtr` for a pointer `k` bytes into the copy
of the text. -/
theorem tail_offset (sqlPtr k : Nat) (hp : sqlPtr < 2 ^ 32) (hk : k < 2 ^ 32) :
    u32 (u32 (sqlPtr + k) + 2 ^ 32 - sqlPtr) = k := by
  simp only [u32]
  omega

/-- `PrepareFlags` once the arguments are marshalled, no signal has fired and
the engine has answered with a tail pointer inside the text. -/
theorem PrepareFlags_called (env : Env) (t : List ApiCall) (c : Conn) (sql : Bytes)
    (flags stmtPtr tailPtr sqlPtr : Nat) (a3 : arena) (t3 : List ApiCall) (ans : PrepareAnswer)
    (hm : Conn.marshal env t c.arena sql = (.ok (stmtPtr, tailPtr, sqlPtr), a3, t3))
    (hi : c.interrupted env = false) (hp : env.prepare t3 = some ans)
    (hin : u32 (u32 ans.tail + 2 ^ 32 - sqlPtr) ≤ sql.length) :
    (Conn.PrepareFlags env t c sql flags).result =
      match (Conn.error env
          (t3 ++ [.prepare c.handle sqlPtr (sql.length + 1) flags stmtPtr tailPtr])
          c ans.rc (some sql)).1 with
      | .error f => .error f
      | .ok (some e) => .ok ⟨none, [], some (.sqlite e)⟩
      | .ok none =>
        if u32 ans.stmt = 0 then .ok ⟨none, [], none⟩
        else .ok ⟨some ⟨u32 ans.stmt⟩, sql.drop (u32 (u32 ans.tail + 2 ^ 32 - sqlPtr)), none⟩ := by
  unfold Conn.PrepareFlags
  rw [hm]
  simp only [hi, Bool.false_eq_true, if_false, hp]
  rw [if_pos hin]
  generalize Conn.error env
    (t3 ++ [.prepare c.handle sqlPtr (sql.length + 1) flags stmtPtr tailPtr])
    c ans.rc (some sql) = res
  obtain ⟨r, t5⟩ := res
  cases r with
  | error f => rfl
  | ok e =>
    cases e with
    | some e => rfl
    | none =>
      dsimp only
      split_ifs <;> rfl

theorem error_OK (env : Env) (t : List ApiCall) (c : Conn) (sql : Option Bytes) :
    Conn.error env t c _OK sql = (.ok none, t) := by
  simp [Conn.error]

/-- `Conn.error` for a code that is neither `OK` nor out of memory: the `*Error`
it builds from the answers of the engine. -/
theorem error_eq (env : Env) (t : List ApiCall) (c : Conn) (rc : Nat) (sql : Option Bytes)
    (hrc : rc ≠ _OK) (hoom : ¬ (rc % 256 = NOMEM ∨ rc = IOERR_NOMEM)) :
    Conn.error env t c rc sql =
      match sql with
      | none =>
        (.ok (some (Error.dedup ⟨rc, (env.errstr t).getD [],
            (env.errmsg (t ++ [.errstr rc])).getD [], []⟩)),
          t ++ [.errstr rc] ++ [.errmsg c.handle])
      | some q =>
        match env.erroff (t ++ [.errstr rc] ++ [.errmsg c.handle]) with
        | none =>
          (.ok (some (Error.dedup ⟨rc, (env.errstr t).getD [],
              (env.errmsg (t ++ [.errstr rc])).getD [], []⟩)),
            t ++ [.errstr rc] ++ [.errmsg c.handle] ++ [.erroff c.handle])
        | some off =>
          if off ≠ 2 ^ 32 - 1 then
            if off ≤ q.length then
              (.ok (some (Error.dedup ⟨rc, (env.errstr t).getD [],
                  (env.errmsg (t ++ [.errstr rc])).getD [], q.drop off⟩)),
                t ++ [.errstr rc] ++ [.errmsg c.handle] ++ [.erroff c.handle])
            else (.error .boundsErr, t ++ [.errstr rc] ++ [.errmsg c.handle] ++ [.erroff c.handle])
          else
            (.ok (some (Error.dedup ⟨rc, (env.errstr t).getD [],
                (env.errmsg (t ++ [.errstr rc])).getD [], []⟩)),
              t ++ [.errstr rc] ++ [.errmsg c.handle] ++ [.erroff c.handle]) := by
  have hoom2 : ¬ (Error.Code ⟨rc, [], [], []⟩ = NOMEM ∨
      Error.ExtendedCode ⟨rc, [], [], []⟩ = IOERR_NOMEM) := hoom
  unfold Conn.error
  rw [if_neg hrc]
  dsimp only
  rw [if_neg hoom2]
  cases env.errstr t <;> cases env.errmsg (t ++ [ApiCall.errstr rc]) <;> rfl

theorem error_ne_nil (env : Env) (t : List ApiCall) (c : Conn) (rc : Nat) (sql : Option Bytes)
    (hrc : rc ≠ _OK) : (Conn.error env t c rc sql).1 ≠ .ok none := by
  by_cases hoom : rc % 256 = NOMEM ∨ rc = IOERR_NOMEM
  · have hoom2 : (Error.Code ⟨rc, [], [], []⟩ = NOMEM ∨
        Error.ExtendedCode ⟨rc, [], [], []⟩ = IOERR_NOMEM) := hoom
    unfold Conn.error
    rw [if_neg hrc]
    dsimp only
    rw [if_pos hoom2]
    intro h
    cases h
  · rw [error_eq env t c rc sql hrc hoom]
    cases sql with
    | none =>
      intro h
      cases h
    | some q =>
      dsimp only
      cases env.erroff (t ++ [ApiCall.errstr rc] ++ [ApiCall.errmsg c.handle]) with
      | none =>
        intro h
        cases h
      | some off =>
        dsimp only
        split_ifs <;> (intro h; cases h)

/-- C11, as stated, fails in both of its parts. `SELECT 1; ` is one statement
with no statement after it; the engine prepares it and reports, as the place
where it ends, the address nine bytes into the copy of the text, right after
the `;`: `PrepareFlags` returns the tail ` `, which is not empty. For
`SELECT x;SELECT 1` the engine reports an error for the first statement and the
same address: `PrepareFlags` returns the error with an empty tail, not
`SELECT 1`. -/
theorem prepare_tail_counterexample :
    (selectBlank = selectOne ++ [59, 32] ∧
      (Conn.marshal envPreparing [] connIdle.arena selectBlank).1 = .ok (2048, 2052, 2056) ∧
      envPreparing.prepare [] = some ⟨0, 77, 2056 + 9⟩ ∧
      (Conn.PrepareFlags envPreparing [] connIdle selectBlank 0).result
        = .ok ⟨some ⟨77⟩, [32], none⟩) ∧
    (selectTwo = [83, 69, 76, 69, 67, 84, 32, 120] ++ 59 :: selectOne ∧
      (Conn.marshal envRejecting [] connIdle.arena selectTwo).1 = .ok (2048, 2052, 2056) ∧
      envRejecting.prepare [] = some ⟨1, 0, 2056 + 9⟩ ∧
      (Conn.PrepareFlags envRejecting [] connIdle selectTwo 0).result
        = .ok ⟨none, [], some (.sqlite ⟨1, [], [], []⟩)⟩) :=
  ⟨⟨rfl, rfl, rfl, rfl⟩, ⟨rfl, rfl, rfl, rfl⟩⟩

/-- C11 (amended): `PrepareFlags` has marshalled its arguments, no signal has
fired, and the engine reports, as a pointer `k` bytes into the copy of the
text, where the first statement ends. If the engine prepared a statement (`OK`
and a handle that is not null) the tail returned is the text from byte `k` on:
for `s1 ++ ";" ++ s2` with the statement ending right after the `;` it is
`s2`, and it is empty only if `k` is the length of the text, so that white
space after the statement is a tail. If the engine reports an error or no
statement, the statement returned is nil and the tail is empty. Hence the tail
of a call that returns is empty exactly when the statement ends where the text
ends or none was prepared. -/
theorem prepare_tail (env : Env) (t : List ApiCall) (c : Conn) (sql : Bytes)
    (flags stmtPtr tailPtr sqlPtr : Nat) (a3 : arena) (t3 : List ApiCall) (ans : PrepareAnswer)
    (k : Nat)
    (hm : Conn.marshal env t c.arena sql = (.ok (stmtPtr, tailPtr, sqlPtr), a3, t3))
    (hi : c.interrupted env = false) (hp : env.prepare t3 = some ans)
    (hlen : sql.length < 2 ^ 32) (hk : k ≤ sql.length) (htail : ans.tail = sqlPtr + k) :
    (∀ r, (Conn.PrepareFlags env t c sql flags).result = .ok r →
      (r.tail = [] ↔ (k = sql.length ∨ ans.rc ≠ _OK ∨ u32 ans.stmt = 0))) ∧
    (ans.rc = _OK → u32 ans.stmt ≠ 0 →
      (Conn.PrepareFlags env t c sql flags).result
        = .ok ⟨some ⟨u32 ans.stmt⟩, sql.drop k, none⟩) ∧
    (∀ s1 s2, sql = s1 ++ 59 :: s2 → k = s1.length + 1 → ans.rc = _OK → u32 ans.stmt ≠ 0 →
      (Conn.PrepareFlags env t c sql flags).result = .ok ⟨some ⟨u32 ans.stmt⟩, s2, none⟩) ∧
    ((ans.rc ≠ _OK ∨ u32 ans.stmt = 0) →
      ∀ r, (Conn.PrepareFlags env t c sql flags).result = .ok r →
        r.stmt = none ∧ r.tail = []) := by
  have hq : sqlPtr < 2 ^ 32 :=
    marshal_sqlPtr_lt env t c.arena sql (stmtPtr, tailPtr, sqlPtr) (by rw [hm])
  have hoff : u32 (u32 ans.tail + 2 ^ 32 - sqlPtr) = k := by
    rw [htail]
    exact tail_offset sqlPtr k hq (by omega)
  have hres := PrepareFlags_called env t c sql flags stmtPtr tailPtr sqlPtr a3 t3 ans hm hi hp
    (by rw [hoff]; exact hk)
  rw [hoff] at hres
  have hgood : ans.rc = _OK → u32 ans.stmt ≠ 0 →
      (Conn.PrepareFlags env t c sql flags).result
        = .ok ⟨some ⟨u32 ans.stmt⟩, sql.drop k, none⟩ := by
    intro hrc hst
    rw [hres, hrc, error_OK]
    simp [hst]
  have hbad : (ans.rc ≠ _OK ∨ u32 ans.stmt = 0) →
      ∀ r, (Conn.PrepareFlags env t c sql flags).result = .ok r →
        r.stmt = none ∧ r.tail = [] := by
    intro hbad r hr
    rw [hres] at hr
    rcases hbad with hrc | hst
    · have hne := error_ne_nil env
        (t3 ++ [.prepare c.handle sqlPtr (sql.length + 1) flags stmtPtr tailPtr])
        c ans.rc (some sql) hrc
      generalize (Conn.error env
        (t3 ++ [.prepare c.handle sqlPtr (sql.length + 1) flags stmtPtr tailPtr])
        c ans.rc (some sql)).1 = res at hr hne
      cases res with
      | error f => cases hr
      | ok e =>
        cases e with
        | some e =>
          cases hr
          exact ⟨rfl, rfl⟩
        | none => exact absurd rfl hne
    · generalize (Conn.error env
        (t3 ++ [.prepare c.handle sqlPtr (sql.length + 1) flags stmtPtr tailPtr])
        c ans.rc (some sql)).1 = res at hr
      cases res with
      | error f => cases hr
      | ok e =>
        cases e with
        | some e =>
          cases hr
          exact ⟨rfl, rfl⟩
        | none =>
          dsimp only at hr
          rw [if_pos hst] at hr
          cases hr
          exact ⟨rfl, rfl⟩
  refine ⟨?_, hgood, ?_, hbad⟩
  · intro r hr
    by_cases hok : ans.rc = _OK ∧ u32 ans.stmt ≠ 0
    · rw [hgood hok.1 hok.2] at hr
      cases hr
      constructor
      · intro hd
        left
        have hlen : sql.length ≤ k := by
          have := congrArg List.length hd
          simp only [List.length_drop, List.length_nil] at this
          omega
        omega
      · rintro (h | h | h)
        · show sql.drop k = []
          rw [h]
          exact List.drop_length sql
        · exact absurd hok.1 h
        · exact absurd h hok.2
    · have hb : ans.rc ≠ _OK ∨ u32 ans.stmt = 0 := by
        by_cases hrc : ans.rc = _OK
        · right
          by_contra hst
          exact hok ⟨hrc, hst⟩
        · exact Or.inl hrc
      exact ⟨fun _ => Or.inr hb, fun _ => (hbad hb r hr).2⟩
  · intro s1 s2 hs hk1 hrc hst
    rw [hgood hrc hst, hs, hk1]
    simp

/-- C11 (amended) for `SELECT x;SELECT 1` with the first statement prepared: the
tail is `SELECT 1`. -/
theorem prepare_tail_witness :
    Conn.marshal envPreparing [] connIdle.arena selectTwo
        = (.ok (2048, 2052, 2056), ⟨2048, 26, 1024, []⟩, []) ∧
      envPreparing.prepare [] = some ⟨0, 77, 2056 + 9⟩ ∧
      (Conn.PrepareFlags envPreparing [] connIdle selectTwo 0).result
        = .ok ⟨some ⟨77⟩, selectOne, none⟩ :=
  ⟨rfl, rfl,
   (prepare_tail envPreparing [] connIdle selectTwo 0 2048 2052 2056 ⟨2048, 26, 1024, []⟩ []
      ⟨0, 77, 2065⟩ 9 rfl rfl rfl (by decide) (by decide) rfl).2.2.1
      [83, 69, 76, 69, 67, 84, 32, 120] selectOne rfl rfl rfl (by decide)⟩

/-- C12: `PrepareFlags` has marshalled its arguments, no signal has fired, and
the engine answers `OK` with a null statement handle (and a tail pointer inside
the copy of the text, as it does for every text): the statement returned is
nil, the tail is empty and the error is nil. -/
theorem prepare_no_sql (env : Env) (t : List ApiCall) (c : Conn) (sql : Bytes)
    (flags stmtPtr tailPtr sqlPtr : Nat) (a3 : arena) (t3 : List ApiCall) (ans : PrepareAnswer)
    (k : Nat)
    (hm : Conn.marshal env t c.arena sql = (.ok (stmtPtr, tailPtr, sqlPtr), a3, t3))
    (hi : c.interrupted env = false) (hp : env.prepare t3 = some ans)
    (hlen : sql.length < 2 ^ 32) (hk : k ≤ sql.length) (htail : ans.tail = sqlPtr + k)
    (hrc : ans.rc = _OK) (hst : ans.stmt = 0) :
    (Conn.PrepareFlags env t c sql flags).result = .ok ⟨none, [], none⟩ := by
  have hq : sqlPtr < 2 ^ 32 :=
    marshal_sqlPtr_lt env t c.arena sql (stmtPtr, tailPtr, sqlPtr) (by rw [hm])
  have hoff : u32 (u32 ans.tail + 2 ^ 32 - sqlPtr) = k := by
    rw [htail]
    exact tail_offset sqlPtr k hq (by omega)
  rw [PrepareFlags_called env t c sql flags stmtPtr tailPtr sqlPtr a3 t3 ans hm hi hp
    (by rw [hoff]; exact hk), hrc, error_OK, hst]
  rfl

/-- C12 for the text `-- x`. -/
theorem prepare_no_sql_witness :
    Conn.marshal envNoStatement [] connIdle.arena commentOnly
        = (.ok (2048, 2052, 2056), ⟨2048, 13, 1024, []⟩, []) ∧
      envNoStatement.prepare [] = some ⟨_OK, 0, 2056 + 4⟩ ∧
      (Conn.PrepareFlags envNoStatement [] connIdle commentOnly 0).result
        = .ok ⟨none, [], none⟩ :=
  ⟨rfl, rfl,
   prepare_no_sql envNoStatement [] connIdle commentOnly 0 2048 2052 2056 ⟨2048, 13, 1024, []⟩ []
     ⟨0, 0, 2060⟩ 4 rfl rfl rfl (by decide) (by decide) rfl rfl rfl⟩

/-! ## C13, C14: `Close` -/

theorem SetInterrupt_nil (c : Conn) :
    (c.SetInterrupt none).1 = { c with done := none, waiter := false } := by
  unfold Conn.SetInterrupt
  cases hw : c.waiter <;> simp [hw]

/-- C13, as stated, fails: `Close` detaches the interrupter before it calls the
engine. With the engine's `close` entry reporting `BUSY`, a connection whose
signal was channel 0 is left with no signal and no interrupter. -/
theorem close_busy_counterexample :
    envBusy.close [] = some BUSY ∧ connSignalled.done = some 0 ∧
      (Conn.Close envBusy [] (some connSignalled)).2.1
        = some { connSignalled with done := none, waiter := false } ∧
      (none : Option Nat) ≠ some 0 :=
  ⟨rfl, rfl, rfl, by decide⟩

/-- C13 (amended): when the engine's `close` entry returns `BUSY`, `Close` returns
an error with code `BUSY`; the handle and the arena of the connection are as
before and the module instance is not closed (the calls made are `close`, and
the two queries for the code string and the message); but the cancellation
signal has been replaced by nil and the interrupter stopped. -/
theorem close_busy (env : Env) (t : List ApiCall) (c : Conn)
    (h : env.close t = some BUSY) :
    ∃ e, Conn.Close env t (some c)
        = (.ok (some (.sqlite e)), some { c with done := none, waiter := false },
            t ++ [.close c.handle] ++ [.errstr BUSY] ++ [.errmsg c.handle]) ∧
      e.code = BUSY ∧ e.Code = BUSY := by
  unfold Conn.Close
  simp only [SetInterrupt_nil, h]
  rw [error_eq env _ _ BUSY none (by decide) (by decide)]
  exact ⟨_, rfl, by
    unfold Error.dedup
    split_ifs <;> rfl, by
    unfold Error.dedup Error.Code
    split_ifs <;> rfl⟩

/-- C13 (amended) for a connection with a signal. -/
theorem close_busy_witness :
    envBusy.close [] = some BUSY ∧
      ∃ e, Conn.Close envBusy [] (some connSignalled)
          = (.ok (some (.sqlite e)), some { connSignalled with done := none, waiter := false },
              [] ++ [.close connSignalled.handle] ++ [.errstr BUSY]
                ++ [.errmsg connSignalled.handle]) ∧
        e.code = BUSY ∧ e.Code = BUSY :=
  ⟨rfl, close_busy envBusy [] connSignalled rfl⟩

/-- A `Close` that succeeds: the handle is set to zero and the module instance
is closed. -/
theorem close_ok (env : Env) (t : List ApiCall) (c : Conn)
    (h : env.close t = some _OK) (hm : env.moduleClose (t ++ [.close c.handle]) = false) :
    Conn.Close env t (some c)
      = (.ok none, some { c with done := none, waiter := false, handle := 0 },
          t ++ [.close c.handle] ++ [.moduleClose]) := by
  unfold Conn.Close
  simp only [SetInterrupt_nil, h, error_OK, hm]
  rfl

/-- C14 (defect in the code): `Close` on a nil connection returns nil and makes
no call. But a connection that a `Close` has closed (its handle was set to
zero) is not recognised: a second `Close` calls the engine's `close` entry
with the handle 0. With `envClosing` the first `Close` of `connIdle` succeeds
and closes the module instance; the second `Close` makes the call `close 0`
and returns the error of that call instead of nil. -/
theorem close_twice (env : Env) (t : List ApiCall) (c : Conn) :
    Conn.Close env t none = (.ok none, none, t) ∧
    (∃ post, (Conn.Close env t (some { c with handle := 0 })).2.2
      = t ++ ApiCall.close 0 :: post) ∧
    Conn.Close envClosing [] (some connIdle)
      = (.ok none, some connClosed, [.close 1, .moduleClose]) ∧
    Conn.Close envClosing [.close 1, .moduleClose] (some connClosed)
      = (.ok (some .host), some connClosed, [.close 1, .moduleClose, .close 0]) := by
  refine ⟨rfl, ?_, rfl, rfl⟩
  unfold Conn.Close
  simp only [SetInterrupt_nil]
  cases env.close t with
  | none => exact ⟨[], rfl⟩
  | some rc =>
    dsimp only
    have hq := Quiet.error env (t ++ [ApiCall.close 0]) ⟨c.arena, 0, none, false⟩ rc none
    generalize Conn.error env (t ++ [ApiCall.close 0]) ⟨c.arena, 0, none, false⟩ rc none
      = res at hq ⊢
    obtain ⟨r, t2⟩ := res
    obtain ⟨post, hpost⟩ := hq.after (t := t) (x := ApiCall.close 0) ⟨[], rfl⟩
    cases r with
    | error f => exact ⟨post, hpost⟩
    | ok e =>
      cases e with
      | some e => exact ⟨post, hpost⟩
      | none =>
        refine ⟨post ++ [.moduleClose], ?_⟩
        dsimp only at hpost ⊢
        rw [hpost]
        simp

/-! ## C15: the error translator -/

/-- C15: `Conn.error` returns nil exactly for the code `OK`; it raises the fatal
out-of-memory condition exactly when the primary code is `NOMEM` or the code is
`IOERR_NOMEM`; in every other case (the error offset the engine reports for a
given SQL text lying inside that text) it returns an `*Error` that carries the
code and the code string, with the engine's message, or with an empty message
when the engine's message equals the code string or "not an error". -/
theorem error_translator (env : Env) (t : List ApiCall) (c : Conn) (rc : Nat)
    (sql : Option Bytes) :
    ((Conn.error env t c rc sql).1 = .ok none ↔ rc = _OK) ∧
    ((Conn.error env t c rc sql).1 = .error .oomErr ↔
      (rc % 256 = NOMEM ∨ rc = IOERR_NOMEM)) ∧
    (rc ≠ _OK → ¬ (rc % 256 = NOMEM ∨ rc = IOERR_NOMEM) →
      (∀ q off, sql = some q →
        env.erroff (t ++ [.errstr rc] ++ [.errmsg c.handle]) = some off →
        off ≠ 2 ^ 32 - 1 → off ≤ q.length) →
      ∃ e, (Conn.error env t c rc sql).1 = .ok (some e) ∧ e.code = rc ∧
        e.str = (env.errstr t).getD [] ∧
        e.msg =
          if (env.errmsg (t ++ [.errstr rc])).getD [] = (env.errstr t).getD [] ∨
              (env.errmsg (t ++ [.errstr rc])).getD [] = notAnError
          then [] else (env.errmsg (t ++ [.errstr rc])).getD []) := by
  refine ⟨?_, ?_, ?_⟩
  · constructor
    · intro h
      by_contra hrc
      exact error_ne_nil env t c rc sql hrc h
    · intro h
      rw [h, error_OK]
  · constructor
    · intro h
      by_contra hoom
      have hrc : rc ≠ _OK := by
        intro e
        rw [e, error_OK] at h
        cases h
      rw [error_eq env t c rc sql hrc hoom] at h
      cases sql with
      | none => cases h
      | some q =>
        dsimp only at h
        split at h
        · cases h
        · split_ifs at h
          cases h
    · intro hoom
      have hrc : rc ≠ _OK := by
        intro e
        rw [e] at hoom
        revert hoom
        decide
      have hoom2 : (Error.Code ⟨rc, [], [], []⟩ = NOMEM ∨
          Error.ExtendedCode ⟨rc, [], [], []⟩ = IOERR_NOMEM) := hoom
      unfold Conn.error
      rw [if_neg hrc]
      dsimp only
      rw [if_pos hoom2]
  · intro hrc hoom hoff
    rw [error_eq env t c rc sql hrc hoom]
    have hd : ∀ s : Bytes,
        (Error.dedup ⟨rc, (env.errstr t).getD [],
          (env.errmsg (t ++ [.errstr rc])).getD [], s⟩).code = rc ∧
        (Error.dedup ⟨rc, (env.errstr t).getD [],
          (env.errmsg (t ++ [.errstr rc])).getD [], s⟩).str = (env.errstr t).getD [] ∧
        (Error.dedup ⟨rc, (env.errstr t).getD [],
          (env.errmsg (t ++ [.errstr rc])).getD [], s⟩).msg =
          if (env.errmsg (t ++ [.errstr rc])).getD [] = (env.errstr t).getD [] ∨
              (env.errmsg (t ++ [.errstr rc])).getD [] = notAnError
          then [] else (env.errmsg (t ++ [.errstr rc])).getD [] := by
      intro s
      unfold Error.dedup
      dsimp only
      split_ifs <;> exact ⟨rfl, rfl, rfl⟩
    cases sql with
    | none => exact ⟨_, rfl, hd []⟩
    | some q =>
      dsimp only
      cases hoffv : env.erroff (t ++ [ApiCall.errstr rc] ++ [ApiCall.errmsg c.handle]) with
      | none => exact ⟨_, rfl, hd []⟩
      | some off =>
        dsimp only
        by_cases hmax : off ≠ 2 ^ 32 - 1
        · rw [if_pos hmax, if_pos (hoff q off rfl hoffv hmax)]
          exact ⟨_, rfl, hd _⟩
        · rw [if_neg hmax]
          exact ⟨_, rfl, hd []⟩

/-- C15 for the code `BUSY` and an engine whose message repeats the code
string: the message of the `*Error` is empty. -/
theorem error_translator_witness :
    BUSY ≠ _OK ∧ ¬ (BUSY % 256 = NOMEM ∨ BUSY = IOERR_NOMEM) ∧
      ∃ e, (Conn.error envTalking [] connIdle BUSY none).1 = .ok (some e) ∧ e.code = BUSY ∧
        e.str = [98, 117, 115, 121] ∧ e.msg = [] :=
  ⟨by decide, by decide,
   (error_translator envTalking [] connIdle BUSY none).2.2 (by decide) (by decide)
     (fun q off h => by cases h)⟩

end sqlite3

/-! ## C16, C17: the host read callback -/

namespace sqlite3

theorem vfsRead_eq (mem : Bytes) (files : List (Option Nat))
    (ReadAt : Option Nat → Bytes → Int → Option ReadResult) (file buf iAmt iOfst : Nat)
    (view : Bytes) (f : Option Nat) (r : ReadResult)
    (hb : Memory.Read mem buf iAmt = some view) (hf : vfsFile mem files file = .ok f)
    (hr : ReadAt f view (int64 iOfst) = some r) :
    vfsRead mem files ReadAt file buf iAmt iOfst =
      if r.n = iAmt then .ok (_OK, Memory.store mem buf r.buf)
      else if r.n = 0 ∧ r.err ≠ some .EOF then .ok (IOERR_READ, Memory.store mem buf r.buf)
      else if r.buf.length < r.n then .error .boundsErr
      else .ok (IOERR_SHORT_READ, Memory.store mem buf (zeroFill r.buf r.n)) := by
  unfold vfsRead
  simp only [hb, hf, hr]

theorem foldl_set_zero (buf : Bytes) (k : Nat) :
    (List.range k).foldl (fun m i => m.set i 0) buf
      = List.replicate (min k buf.length) 0 ++ buf.drop k := by
  induction k with
  | zero => simp
  | succ k ih =>
    rw [List.range_succ, List.foldl_append, ih]
    simp only [List.foldl_cons, List.foldl_nil]
    apply List.ext_getElem?
    intro i
    simp only [List.getElem?_set, List.getElem?_append, List.getElem?_replicate,
      List.getElem?_drop, List.length_append, List.length_replicate, List.length_drop]
    by_cases hk : k < buf.length
    · have h1 : min k buf.length = k := by omega
      have h2 : min (k + 1) buf.length = k + 1 := by omega
      rw [h1, h2]
      by_cases hik : k = i
      · subst hik
        simp [hk]
      · rw [if_neg hik]
        by_cases hi : i < k
        · have hi2 : i < k + 1 := by omega
          simp [hi, hi2]
        · have hi2 : ¬ i < k + 1 := by omega
          simp only [hi, hi2, if_false]
          congr 1
          omega
    · have h1 : min k buf.length = buf.length := by omega
      have h2 : min (k + 1) buf.length = buf.length := by omega
      rw [h1, h2]
      have hd : buf.length - k = 0 := by omega
      by_cases hik : k = i
      · subst hik
        have : ¬ k < buf.length + (buf.length - k) := by omega
        simp [hk, this]
        omega
      · rw [if_neg hik]
        by_cases hi : i < buf.length
        · simp [hi]
        · simp only [hi, if_false]
          rw [List.getElem?_eq_none (by omega), List.getElem?_eq_none (by omega)]

theorem zeroFill_eq (buf : Bytes) (n : Nat) :
    zeroFill buf n = List.replicate (buf.length - n) 0 ++ buf.drop (buf.length - n) := by
  unfold zeroFill
  rw [foldl_set_zero]
  congr 2
  omega

/-- C16, as stated, fails for a read of no bytes: `ReadAt` of an `*os.File` at
the offset `int64(2^63)`, which is negative, produces zero bytes with an error
other than `io.EOF`, and the callback returns `OK`, not `IOERR_READ`, because
zero bytes are exactly the bytes asked for. -/
theorem read_codes_counterexample :
    readNegative (some 3) [] (int64 (2 ^ 63)) = some ⟨0, some .other, []⟩ ∧
      IoError.other ≠ IoError.EOF ∧
      vfsRead memSmall [some 3] readNegative 0 8 0 (2 ^ 63) = .ok (_OK, memSmall) ∧
      _OK ≠ IOERR_READ :=
  ⟨rfl, by decide, rfl, by decide⟩

/-- C16 (amended): for a read of `iAmt` bytes whose buffer is inside the memory
and whose file is in the table, with `ReadAt` keeping to the contract of
`io.ReaderAt` (at most `iAmt` bytes, and an error whenever fewer), the callback
returns a code: `OK` exactly when the file produced `iAmt` bytes; `IOERR_READ`
exactly when at least one byte was asked for and the file produced zero bytes
with an error other than `io.EOF`; and `IOERR_SHORT_READ` in every remaining
case. -/
theorem read_codes (mem : Bytes) (files : List (Option Nat))
    (ReadAt : Option Nat → Bytes → Int → Option ReadResult) (file buf iAmt iOfst : Nat)
    (view : Bytes) (f : Option Nat) (r : ReadResult)
    (hb : Memory.Read mem buf iAmt = some view) (hf : vfsFile mem files file = .ok f)
    (hr : ReadAt f view (int64 iOfst) = some r)
    (hlen : r.buf.length = iAmt) (hn : r.n ≤ iAmt) (herr : r.n < iAmt → r.err ≠ none) :
    ∃ rc mem1, vfsRead mem files ReadAt file buf iAmt iOfst = .ok (rc, mem1) ∧
      (rc = _OK ↔ r.n = iAmt) ∧
      (rc = IOERR_READ ↔ (0 < iAmt ∧ r.n = 0 ∧ ∃ e, r.err = some e ∧ e ≠ .EOF)) ∧
      (rc ≠ _OK → rc ≠ IOERR_READ → rc = IOERR_SHORT_READ) := by
  rw [vfsRead_eq mem files ReadAt file buf iAmt iOfst view f r hb hf hr]
  have h1 : _OK ≠ IOERR_READ := by decide
  have h2 : IOERR_READ ≠ _OK := by decide
  have h3 : IOERR_SHORT_READ ≠ _OK := by decide
  have h4 : IOERR_SHORT_READ ≠ IOERR_READ := by decide
  by_cases hok : r.n = iAmt
  · rw [if_pos hok]
    refine ⟨_, _, rfl, ⟨fun _ => hok, fun _ => rfl⟩, ⟨fun h => absurd h h1, ?_⟩,
      fun h => absurd rfl h⟩
    rintro ⟨hpos, h0, _⟩
    omega
  · rw [if_neg hok]
    have hlt : r.n < iAmt := by omega
    by_cases hrd : r.n = 0 ∧ r.err ≠ some .EOF
    · rw [if_pos hrd]
      refine ⟨_, _, rfl, ⟨fun h => absurd h h2, fun h => absurd h hok⟩,
        ⟨fun _ => ⟨by omega, hrd.1, ?_⟩, fun _ => rfl⟩, fun _ h => absurd rfl h⟩
      cases he : r.err with
      | none => exact absurd he (herr hlt)
      | some e =>
        refine ⟨e, rfl, ?_⟩
        intro h
        rw [h] at he
        exact hrd.2 he
    · rw [if_neg hrd, if_neg (by omega)]
      refine ⟨_, _, rfl, ⟨fun h => absurd h h3, fun h => absurd h hok⟩,
        ⟨fun h => absurd h h4, ?_⟩, fun _ _ => rfl⟩
      rintro ⟨_, h0, e, he, hne⟩
      exfalso
      apply hrd
      refine ⟨h0, ?_⟩
      rw [he]
      intro h
      exact hne (Option.some.inj h)

/-- C16 (amended) for a read of four bytes that reaches the end of the file
after one byte: the code is `IOERR_SHORT_READ`. -/
theorem read_codes_witness :
    ∃ rc mem1, vfsRead memSmall [some 3] readOneByte 0 8 4 0 = .ok (rc, mem1) ∧
      (rc = _OK ↔ 1 = 4) ∧
      (rc = IOERR_READ ↔ (0 < 4 ∧ 1 = 0 ∧ ∃ e, some IoError.EOF = some e ∧ e ≠ .EOF)) ∧
      (rc ≠ _OK → rc ≠ IOERR_READ → rc = IOERR_SHORT_READ) :=
  read_codes memSmall [some 3] readOneByte 0 8 4 0 [9, 9, 9, 9] (some 3)
    ⟨1, some .EOF, [7, 9, 9, 9]⟩ rfl rfl rfl rfl (by decide) (fun _ => by decide)

/-- C17 (defect in the code): the loop `for i := range mem[n:] { mem[i] = 0 }`
runs over the indices of the tail but writes at those indices from the start
of the buffer: after a short read of `n` bytes into a buffer of `len` bytes the
first `len - n` bytes are zero and the rest is what `ReadAt` left. For a read of
four bytes into a buffer of nines, of which the file produced the one byte `7`,
the buffer ends as `0, 0, 0, 9`: the byte read is lost and the last byte is not
zero. -/
theorem short_read_zeroes_head (b : Bytes) (n : Nat) :
    zeroFill b n = List.replicate (b.length - n) 0 ++ b.drop (b.length - n) ∧
    Memory.Read memSmall 8 4 = some [9, 9, 9, 9] ∧
    readOneByte (some 3) [9, 9, 9, 9] (int64 0) = some ⟨1, some .EOF, [7, 9, 9, 9]⟩ ∧
    vfsRead memSmall [some 3] readOneByte 0 8 4 0
      = .ok (IOERR_SHORT_READ, [0, 0, 0, 0, 0, 0, 0, 0, 0, 0, 0, 9, 0, 0, 0, 0]) :=
  ⟨zeroFill_eq b n, rfl, rfl, rfl⟩

end sqlite3

/-! ## C18: the file table -/

namespace sqlite3

theorem freeSlot_some (files : List (Option Nat)) (i : Nat) (h : freeSlot files = some i) :
    i < files.length ∧ files[i]? = some none ∧ ∀ j, j < i → ∃ g, files[j]? = some (some g) := by
  induction files generalizing i with
  | nil => cases h
  | cons x fs ih =>
    cases x with
    | none =>
      simp only [freeSlot, Option.some.injEq] at h
      subst h
      exact ⟨by simp, by simp, fun j hj => absurd hj (by omega)⟩
    | some g =>
      simp only [freeSlot, Option.map_eq_some'] at h
      obtain ⟨k, hk, rfl⟩ := h
      obtain ⟨h1, h2, h3⟩ := ih k hk
      refine ⟨by simp; omega, by simpa using h2, ?_⟩
      intro j hj
      cases j with
      | zero => exact ⟨g, by simp⟩
      | succ j =>
        obtain ⟨g1, hg1⟩ := h3 j (by omega)
        exact ⟨g1, by simpa using hg1⟩

theorem freeSlot_none (files : List (Option Nat)) (h : freeSlot files = none) :
    ∀ j, j < files.length → ∃ g, files[j]? = some (some g) := by
  induction files with
  | nil => intro j hj; simp at hj
  | cons x fs ih =>
    cases x with
    | none => simp [freeSlot] at h
    | some g =>
      simp only [freeSlot, Option.map_eq_none'] at h
      intro j hj
      cases j with
      | zero => exact ⟨g, by simp⟩
      | succ j =>
        obtain ⟨g1, hg1⟩ := ih h j (by simpa using hj)
        exact ⟨g1, by simpa using hg1⟩

theorem length_store (mem : Bytes) (off : Nat) (v : Bytes) (h : off + v.length ≤ mem.length) :
    (Memory.store mem off v).length = mem.length := by
  unfold Memory.store
  simp only [List.length_append, List.length_take, List.length_drop]
  omega

theorem read_store (mem : Bytes) (off : Nat) (v : Bytes) (h : off + v.length ≤ mem.length) :
    Memory.Read (Memory.store mem off v) off v.length = some v := by
  unfold Memory.Read
  rw [length_store mem off v h, if_pos h]
  unfold Memory.store
  have h1 : (mem.take off).length = off := by
    rw [List.length_take]
    omega
  rw [List.append_assoc, List.drop_left' h1, List.take_left' rfl]

theorem leUint32_bytes (v : Nat) (h : v < 2 ^ 32) :
    leUint32 [v % 256, v / 256 % 256, v / 65536 % 256, v / 16777216 % 256] = v := by
  unfold leUint32
  simp only [List.getD_cons_zero, List.getD_cons_succ]
  omega

theorem readUint32_writeUint32 (mem mem1 : Bytes) (off v : Nat) (hv : v < 2 ^ 32)
    (h : Memory.WriteUint32Le mem off v = some mem1) :
    Memory.ReadUint32Le mem1 off = some v := by
  unfold Memory.WriteUint32Le at h
  split_ifs at h with hr
  cases h
  unfold Memory.ReadUint32Le
  have := read_store mem off [v % 256, v / 256 % 256, v / 65536 % 256, v / 16777216 % 256] hr
  simp only [List.length_cons, List.length_nil] at this
  rw [this, Option.map_some', leUint32_bytes v hv]

theorem u32_of_lt (n : Nat) (h : n < 2 ^ 32) : u32 n = n := Nat.mod_eq_of_lt h

/-- C18: with fewer than `2^32` slots in the table, a host open that succeeds
(the write of the index is inside the memory) stores the file in the slot with
the lowest index among the empty ones, every slot below it being occupied, and
appends a slot only when none is empty; no occupied slot is replaced, every
other slot is as before, and the index can be read back behind the file header.
A host close empties the slot whose index is stored there, whether closing the
file fails or not, and leaves every other slot as it was. -/
theorem file_table_slots (mem : Bytes) (files : List (Option Nat)) (f file : Nat)
    (closeFails : Nat → Bool) (hlen : files.length < 2 ^ 32) :
    (u32 (file + ptrSize) + 4 ≤ mem.length →
      ∃ id files1 mem1, vfsOpen mem files (some f) file = .ok (_OK, files1, mem1) ∧
        id ≤ files.length ∧
        (∀ j, j < id → ∃ g, files[j]? = some (some g)) ∧
        (id < files.length → files[id]? = some none) ∧
        files1.length = max files.length (id + 1) ∧
        files1[id]? = some (some f) ∧
        (∀ j, j ≠ id → files1[j]? = files[j]?) ∧
        (∀ (j g : Nat), files[j]? = some (some g) → files1[j]? = some (some g)) ∧
        Memory.ReadUint32Le mem1 (u32 (file + ptrSize)) = some id) ∧
    (∀ id, Memory.ReadUint32Le mem (u32 (file + ptrSize)) = some id → id < files.length →
      ∃ rc files1, vfsClose mem files closeFails file = .ok (rc, files1) ∧
        (rc = _OK ∨ rc = IOERR_CLOSE) ∧
        (∀ fd, files[id]? = some (some fd) → (rc = IOERR_CLOSE ↔ closeFails fd = true)) ∧
        files1.length = files.length ∧ files1[id]? = some none ∧
        ∀ j, j ≠ id → files1[j]? = files[j]?) := by
  constructor
  · intro hr
    unfold vfsOpen
    dsimp only
    cases hfs : freeSlot files with
    | some i =>
      obtain ⟨h1, h2, h3⟩ := freeSlot_some files i hfs
      dsimp only
      rw [u32_of_lt i (by omega)]
      have hw : Memory.WriteUint32Le mem (u32 (file + ptrSize)) i
          = some (Memory.store mem (u32 (file + ptrSize))
              [i % 256, i / 256 % 256, i / 65536 % 256, i / 16777216 % 256]) := by
        unfold Memory.WriteUint32Le
        rw [if_pos hr]
      rw [hw]
      have hrt := readUint32_writeUint32 mem _ (u32 (file + ptrSize)) i (by omega) hw
      have hset : ∀ j, j ≠ i → (files.set i (some f))[j]? = files[j]? := by
        intro j hj
        rw [List.getElem?_set, if_neg (fun h => hj h.symm)]
      refine ⟨i, _, _, rfl, by omega, h3, fun _ => h2, ?_, ?_, hset, ?_, hrt⟩
      · rw [List.length_set]
        omega
      · rw [List.getElem?_set, if_pos rfl, if_pos h1]
      · intro j g hg
        have hj : j ≠ i := by
          intro h
          rw [h, h2] at hg
          cases hg
        rw [hset j hj, hg]
    | none =>
      have h3 := freeSlot_none files hfs
      dsimp only
      rw [u32_of_lt _ hlen]
      have hw : Memory.WriteUint32Le mem (u32 (file + ptrSize)) files.length
          = some (Memory.store mem (u32 (file + ptrSize))
              [files.length % 256, files.length / 256 % 256,
               files.length / 65536 % 256, files.length / 16777216 % 256]) := by
        unfold Memory.WriteUint32Le
        rw [if_pos hr]
      rw [hw]
      have hrt := readUint32_writeUint32 mem _ (u32 (file + ptrSize)) files.length hlen hw
      have happ : ∀ j, j ≠ files.length → (files ++ [some f])[j]? = files[j]? := by
        intro j hj
        by_cases hjl : j < files.length
        · rw [List.getElem?_append_left hjl]
        · rw [List.getElem?_eq_none (by simp; omega), List.getElem?_eq_none (by omega)]
      refine ⟨files.length, _, _, rfl, le_refl _, h3, fun h => absurd h (lt_irrefl _), ?_, ?_,
        happ, ?_, hrt⟩
      · simp
      · simp
      · intro j g hg
        have hj : j ≠ files.length := by
          intro h
          rw [h, List.getElem?_eq_none (le_refl _)] at hg
          cases hg
        rw [happ j hj, hg]
  · intro id hid hlt
    unfold vfsClose
    rw [hid]
    dsimp only
    obtain ⟨x, hx⟩ : ∃ x, files[id]? = some x := ⟨files[id], List.getElem?_eq_getElem hlt⟩
    rw [hx]
    dsimp only
    refine ⟨_, _, rfl, ?_, ?_, List.length_set .., ?_, ?_⟩
    · split_ifs
      · exact Or.inr rfl
      · exact Or.inl rfl
    · intro fd hfd
      cases Option.some.inj hfd
      dsimp only
      cases closeFails fd <;> decide
    · rw [List.getElem?_set, if_pos rfl, if_pos hlt]
    · intro j hj
      rw [List.getElem?_set, if_neg (fun h => hj h.symm)]

/-- C18 for a table whose second slot is empty: the file 9 goes to slot 1. -/
theorem file_table_slots_witness :
    ([some 3, none, some 5] : List (Option Nat)).length < 2 ^ 32 ∧
      u32 (8 + ptrSize) + 4 ≤ memSmall.length ∧
      ∃ id files1 mem1,
        vfsOpen memSmall [some 3, none, some 5] (some 9) 8 = .ok (_OK, files1, mem1) ∧
        id ≤ ([some 3, none, some 5] : List (Option Nat)).length ∧
        (∀ j, j < id → ∃ g, ([some 3, none, some 5] : List (Option Nat))[j]? = some (some g)) ∧
        (id < ([some 3, none, some 5] : List (Option Nat)).length →
          ([some 3, none, some 5] : List (Option Nat))[id]? = some none) ∧
        files1.length = max ([some 3, none, some 5] : List (Option Nat)).length (id + 1) ∧
        files1[id]? = some (some 9) ∧
        (∀ j, j ≠ id → files1[j]? = ([some 3, none, some 5] : List (Option Nat))[j]?) ∧
        (∀ (j g : Nat), ([some 3, none, some 5] : List (Option Nat))[j]? = some (some g) →
          files1[j]? = some (some g)) ∧
        Memory.ReadUint32Le mem1 (u32 (8 + ptrSize)) = some id :=
  ⟨by decide, by decide,
   (file_table_slots memSmall [some 3, none, some 5] 9 8 (fun _ => false) (by decide)).1
     (by decide)⟩

end sqlite3

/-! ## C19, C20: the data of the memory VFS -/

namespace memdb

open sqlite3 (Bytes IoError ReadResult)

theorem tdiv_sector (off : Nat) :
    Int.tdiv (off : Int) (sectorSize : Nat) = ((off / sectorSize : Nat) : Int) := by
  rw [Int.tdiv_eq_ediv (Int.ofNat_nonneg _) (Int.ofNat_nonneg _)]
  norm_cast

theorem tmod_sector (off : Nat) :
    Int.tmod (off : Int) (sectorSize : Nat) = ((off % sectorSize : Nat) : Int) := by
  rw [Int.tmod_eq_emod (Int.ofNat_nonneg _) (Int.ofNat_nonneg _)]
  norm_cast

theorem wrap64_of_lt (x : Int) (h0 : 0 ≤ x) (h : x < 2 ^ 63) : wrap64 x = x := by
  unfold wrap64
  norm_num at h ⊢
  omega

theorem getElem?_grown (data : List (List Nat)) (base : Nat) :
    ∃ sector, (data ++ List.replicate (base + 1 - data.length) newSector)[base]? = some sector ∧
      (data.length ≤ base → sector = newSector) := by
  by_cases h : base < data.length
  · refine ⟨data[base], ?_, fun h1 => absurd h (by omega)⟩
    rw [List.getElem?_append_left h, List.getElem?_eq_getElem h]
  · refine ⟨newSector, ?_, fun _ => rfl⟩
    rw [List.getElem?_append_right (by omega), List.getElem?_replicate, if_pos (by omega)]

/-- `WriteAt` at a non-negative offset, with the arithmetic carried out. -/
theorem WriteAt_eq (m : memDB) (b : Bytes) (off : Nat) (data1 : List (List Nat))
    (sector sector1 : List Nat) (n : Nat)
    (hd : data1 = m.data ++ List.replicate (off / sectorSize + 1 - m.data.length) newSector)
    (hs : data1[off / sectorSize]? = some sector)
    (hn : n = min (sectorSize - off % sectorSize) b.length)
    (hs1 : sector1 = sector.take (off % sectorSize) ++ b.take n
      ++ sector.drop (off % sectorSize + n)) :
    memFile.WriteAt m b off =
      some (
        if n < b.length then
          ({ m with data := data1.set (off / sectorSize) sector1 }, n, some .ErrShortWrite)
        else
          (if wrap64 ((off : Int) + (b.length : Int)) > m.size then
            { m with data := data1.set (off / sectorSize) sector1,
                     size := wrap64 ((off : Int) + (b.length : Int)) }
           else { m with data := data1.set (off / sectorSize) sector1 }, n, none)) := by
  subst hd hn hs1
  unfold memFile.WriteAt
  simp only [tdiv_sector, tmod_sector]
  have h1 : ¬ ((off / sectorSize : Nat) : Int) < 0 := not_lt.mpr (Int.ofNat_nonneg _)
  have h2 : (0 : Int) ≤ ((off % sectorSize : Nat) : Int) := Int.ofNat_nonneg _
  have h3 : (((off / sectorSize : Nat) : Int) + 1).toNat = off / sectorSize + 1 := by
    generalize off / sectorSize = k
    omega
  rw [if_neg h1, h3]
  simp only [Int.toNat_ofNat, hs, if_pos h2]
  split_ifs <;> rfl

theorem newSector_zero (j : Nat) (h : j < sectorSize) : newSector[j]? = some 0 := by
  unfold newSector
  rw [List.getElem?_replicate, if_pos h]

theorem length_newSector : newSector.length = sectorSize := by
  unfold newSector
  rw [List.length_replicate]

/-- The sectors that `WriteAt` appends are zero outside the bytes written. -/
theorem grown_zero (data : List (List Nat)) (b : Bytes) (off n : Nat) (sector : List Nat)
    (hs : (data ++ List.replicate (off / sectorSize + 1 - data.length) newSector)[
      off / sectorSize]? = some sector)
    (hnew : data.length ≤ off / sectorSize → sector = newSector)
    (hn : n = min (sectorSize - off % sectorSize) b.length)
    (i j : Nat) (hi : data.length ≤ i)
    (hlt : i < ((data ++ List.replicate (off / sectorSize + 1 - data.length) newSector).set
      (off / sectorSize) (sector.take (off % sectorSize) ++ b.take n
        ++ sector.drop (off % sectorSize + n))).length)
    (hj : j < sectorSize)
    (hout : ¬ (i = off / sectorSize ∧ off % sectorSize ≤ j ∧ j < off % sectorSize + n)) :
    ∃ s, ((data ++ List.replicate (off / sectorSize + 1 - data.length) newSector).set
      (off / sectorSize) (sector.take (off % sectorSize) ++ b.take n
        ++ sector.drop (off % sectorSize + n)))[i]? = some s ∧ s[j]? = some 0 := by
  have hrest : off % sectorSize < sectorSize := Nat.mod_lt _ (by decide)
  rw [List.length_set, List.length_append, List.length_replicate] at hlt
  by_cases hib : i = off / sectorSize
  · subst hib
    have hsec := hnew hi
    subst hsec
    refine ⟨newSector.take (off % sectorSize) ++ b.take n
      ++ newSector.drop (off % sectorSize + n), ?_, ?_⟩
    · rw [List.getElem?_set, if_pos rfl, if_pos]
      rw [List.length_append, List.length_replicate]
      exact hlt
    · have hl1 : (newSector.take (off % sectorSize)).length = off % sectorSize := by
        rw [List.length_take, length_newSector]
        omega
      have hl2 : (b.take n).length = n := by
        rw [List.length_take]
        omega
      by_cases hjr : j < off % sectorSize
      · rw [List.append_assoc, List.getElem?_append_left (by omega), List.getElem?_take,
          if_pos hjr]
        exact newSector_zero j hj
      · have hjn : off % sectorSize + n ≤ j := by
          by_contra hc
          exact hout ⟨rfl, by omega, by omega⟩
        rw [List.getElem?_append_right (by rw [List.length_append]; omega),
          List.getElem?_drop, List.length_append, hl1, hl2]
        have : off % sectorSize + n + (j - (off % sectorSize + n)) = j := by omega
        rw [this]
        exact newSector_zero j hj
  · refine ⟨newSector, ?_, newSector_zero j hj⟩
    rw [List.getElem?_set, if_neg (fun h => hib h.symm), List.getElem?_append_right hi,
      List.getElem?_replicate, if_pos (by omega)]

/-- C19: for every database, buffer `b` and offset `off ≥ 0` whose end
`off + len(b)` is an `int64`, `WriteAt` returns; it returns `len(b)` and no
error exactly when `off mod 65536 + len(b) ≤ 65536`, and `io.ErrShortWrite` with
fewer bytes otherwise; on success the size is the larger of the old size and
`off + len(b)`, and the size never shrinks; the sectors are as many as before
or just enough for the target sector, and every sector added is zero outside
the bytes written. -/
theorem writeAt_spec (m : memDB) (b : Bytes) (off : Nat) (hrep : off + b.length < 2 ^ 63) :
    ∃ m1 n err, memFile.WriteAt m b off = some (m1, n, err) ∧
      ((err = none ∧ n = b.length) ↔ off % sectorSize + b.length ≤ sectorSize) ∧
      (¬ off % sectorSize + b.length ≤ sectorSize → err = some .ErrShortWrite ∧ n < b.length) ∧
      (err = none → m1.size = max m.size ((off : Int) + (b.length : Int))) ∧
      m.size ≤ m1.size ∧
      m1.data.length = max m.data.length (off / sectorSize + 1) ∧
      (∀ i j, m.data.length ≤ i → i < m1.data.length → j < sectorSize →
        ¬ (i = off / sectorSize ∧ off % sectorSize ≤ j ∧ j < off % sectorSize + n) →
        ∃ s, m1.data[i]? = some s ∧ s[j]? = some 0) := by
  have hrest : off % sectorSize < sectorSize := Nat.mod_lt _ (by decide)
  obtain ⟨sector, hs, hnew⟩ := getElem?_grown m.data (off / sectorSize)
  have hw : wrap64 ((off : Int) + (b.length : Int)) = (off : Int) + (b.length : Int) :=
    wrap64_of_lt _ (by omega) (by exact_mod_cast hrep)
  rw [WriteAt_eq m b off _ sector _ _ rfl hs rfl rfl, hw]
  have hlen : ∀ s1 : List Nat,
      ((m.data ++ List.replicate (off / sectorSize + 1 - m.data.length) newSector).set
        (off / sectorSize) s1).length = max m.data.length (off / sectorSize + 1) := by
    intro s1
    rw [List.length_set, List.length_append, List.length_replicate]
    omega
  have hz := grown_zero m.data b off _ sector hs hnew rfl
  by_cases hshort : min (sectorSize - off % sectorSize) b.length < b.length
  · rw [if_pos hshort]
    refine ⟨_, _, _, rfl, ⟨fun h => (by cases h.1), fun h => (by omega)⟩,
      fun _ => ⟨rfl, hshort⟩, fun h => (by cases h), le_refl _, hlen _, hz⟩
  · rw [if_neg hshort]
    by_cases hsz : (off : Int) + (b.length : Int) > m.size
    · rw [if_pos hsz]
      refine ⟨_, _, _, rfl, ⟨fun _ => by omega, fun _ => ⟨rfl, by omega⟩⟩,
        fun h => by omega, fun _ => ?_, ?_, hlen _, hz⟩
      · dsimp only
        omega
      · dsimp only
        omega
    · rw [if_neg hsz]
      refine ⟨_, _, _, rfl, ⟨fun _ => by omega, fun _ => ⟨rfl, by omega⟩⟩,
        fun h => by omega, fun _ => ?_, le_refl _, hlen _, hz⟩
      dsimp only
      omega

/-- C19 for a write of three bytes at the offset 65534 into an empty database:
it crosses the end of the sector. -/
theorem writeAt_spec_witness :
    65534 + ([1, 2, 3] : Bytes).length < 2 ^ 63 ∧
    ∃ m1 n err, memFile.WriteAt ⟨none, none, [], 0, 0⟩ [1, 2, 3] (65534 : Nat)
        = some (m1, n, err) ∧
      ((err = none ∧ n = ([1, 2, 3] : Bytes).length) ↔
        65534 % sectorSize + ([1, 2, 3] : Bytes).length ≤ sectorSize) ∧
      (¬ 65534 % sectorSize + ([1, 2, 3] : Bytes).length ≤ sectorSize →
        err = some .ErrShortWrite ∧ n < ([1, 2, 3] : Bytes).length) :=
  ⟨by decide,
   let ⟨m1, n, err, h, h1, h2, _⟩ := writeAt_spec ⟨none, none, [], 0, 0⟩ [1, 2, 3] 65534 (by decide)
   ⟨m1, n, err, h, h1, h2⟩⟩

theorem modRoundUp_sector (a : Int) (h : 0 ≤ a) :
    modRoundUp a (sectorSize : Nat) = 65536 - (65536 - a % 65536) % 65536 := by
  unfold modRoundUp sectorSize
  have h1 : Int.tmod a ((65536 : Nat) : Int) = a % 65536 := by
    rw [Int.tmod_eq_emod h (by norm_num)]
    norm_num
  rw [h1]
  have h2 : 0 ≤ ((65536 : Nat) : Int) - a % 65536 := by
    have := Int.emod_lt_of_pos a (show (0 : Int) < 65536 by norm_num)
    norm_num
    omega
  rw [Int.tmod_eq_emod h2 (by norm_num)]
  norm_num

/-- `ReadAt` at a non-negative offset below the size, with a sector at hand and
the slice bounds in order. -/
theorem ReadAt_eq (m : memDB) (b : Bytes) (off : Nat) (sector : List Nat) (hav : Int)
    (hlt : (off : Int) < m.size)
    (hs : m.data[off / sectorSize]? = some sector)
    (hh : hav = if ((off / sectorSize : Nat) : Int) = (m.data.length : Int) - 1
      then modRoundUp m.size (sectorSize : Nat) else (sectorSize : Nat))
    (h1 : ((off % sectorSize : Nat) : Int) ≤ hav) (h2 : hav ≤ (sectorSize : Nat)) :
    memFile.ReadAt m b off =
      if min b.length (hav - ((off % sectorSize : Nat) : Int)).toNat < b.length then
        some ⟨0, some .ErrNoProgress,
          (sector.drop (off % sectorSize)).take
            (min b.length (hav - ((off % sectorSize : Nat) : Int)).toNat)
            ++ b.drop (min b.length (hav - ((off % sectorSize : Nat) : Int)).toNat)⟩
      else
        some ⟨min b.length (hav - ((off % sectorSize : Nat) : Int)).toNat, none,
          (sector.drop (off % sectorSize)).take
            (min b.length (hav - ((off % sectorSize : Nat) : Int)).toNat)
            ++ b.drop (min b.length (hav - ((off % sectorSize : Nat) : Int)).toNat)⟩ := by
  subst hh
  unfold memFile.ReadAt
  rw [if_neg (not_le.mpr hlt)]
  simp only [tdiv_sector, tmod_sector]
  rw [if_neg (not_lt.mpr (Int.ofNat_nonneg _))]
  simp only [Int.toNat_ofNat, hs]
  rw [if_pos ⟨Int.ofNat_nonneg _, h1, h2⟩]

/-- A short copy below the size: `ReadAt` returns 0 and `io.ErrNoProgress`. -/
theorem ReadAt_short (m : memDB) (b : Bytes) (off : Nat)
    (hlt : (off : Int) < m.size)
    (hinv : m.size ≤ ((m.data.length * sectorSize : Nat) : Int))
    (hshort : sectorSize < off % sectorSize + b.length ∨
      (off / sectorSize + 1 = m.data.length ∧ m.size < (off : Int) + (b.length : Int))) :
    ∃ copied, memFile.ReadAt m b off = some ⟨0, some .ErrNoProgress, copied⟩ := by
  have hinv1 : m.size ≤ ((m.data.length * 65536 : Nat) : Int) := hinv
  have hshort1 : 65536 < off % 65536 + b.length ∨
      (off / 65536 + 1 = m.data.length ∧ m.size < (off : Int) + (b.length : Int)) := hshort
  have hbase : off / 65536 < m.data.length := by omega
  have hs : m.data[off / sectorSize]? = some m.data[off / 65536] :=
    List.getElem?_eq_getElem hbase
  have hmr := modRoundUp_sector m.size (by omega)
  have hss : ((sectorSize : Nat) : Int) = 65536 := rfl
  have hrr : ((off % sectorSize : Nat) : Int) = ((off % 65536 : Nat) : Int) := rfl
  by_cases hlast : off / 65536 + 1 = m.data.length
  · have hc : ((off / sectorSize : Nat) : Int) = (m.data.length : Int) - 1 := by
      show ((off / 65536 : Nat) : Int) = _
      omega
    have hq : modRoundUp m.size (sectorSize : Nat) = m.size - ((off / 65536 : Nat) : Int) * 65536 := by
      rw [hmr]
      omega
    rw [ReadAt_eq m b off _ (modRoundUp m.size (sectorSize : Nat)) hlt hs (by rw [if_pos hc])
      (by rw [hq, hrr]; omega) (by rw [hq, hss]; omega), if_pos]
    · exact ⟨_, rfl⟩
    · rw [hq, hrr]
      omega
  · have hc : ¬ ((off / sectorSize : Nat) : Int) = (m.data.length : Int) - 1 := by
      show ¬ ((off / 65536 : Nat) : Int) = _
      omega
    rw [ReadAt_eq m b off _ (sectorSize : Nat) hlt hs (by rw [if_neg hc])
      (by rw [hss, hrr]; omega) (le_refl _), if_pos]
    · exact ⟨_, rfl⟩
    · rw [hss, hrr]
      omega

/-- C20, as stated, fails: a read of four bytes at the offset 0 of a database
of two bytes is below the size and produces fewer bytes than asked for;
`ReadAt` returns 0 and `io.ErrNoProgress`, and the host read callback reports
`IOERR_READ`, not `IOERR_SHORT_READ`. -/
theorem read_signal_counterexample :
    (0 : Int) < twoBytes.size ∧
      memFile.ReadAt twoBytes [9, 9, 9, 9] 0
        = some ⟨0, some .ErrNoProgress, [1, 2, 9, 9]⟩ ∧
      sqlite3.vfsRead sqlite3.memSmall [some 3] (readMem twoBytes) 0 8 4 0
        = .ok (sqlite3.IOERR_READ, [0, 0, 0, 0, 0, 0, 0, 0, 1, 2, 9, 9, 0, 0, 0, 0]) ∧
      sqlite3.IOERR_READ ≠ sqlite3.IOERR_SHORT_READ :=
  ⟨by decide, rfl, rfl, by decide⟩

/-- C20 (amended): a read at an offset at or beyond the size returns zero bytes
and `io.EOF`. A read at an offset below the size that produces fewer bytes than
the buffer asks for (the request runs past the end of its sector, or past the
size in the last sector; the size being within the sectors) returns zero bytes
and `io.ErrNoProgress`, and the host read callback reports it as `IOERR_READ`. -/
theorem read_signal (m : memDB) (b : Bytes) (off : Nat) :
    (∀ o : Int, m.size ≤ o → memFile.ReadAt m b o = some ⟨0, some .EOF, b⟩) ∧
    ((off : Int) < m.size → m.size ≤ ((m.data.length * sectorSize : Nat) : Int) →
      (sectorSize < off % sectorSize + b.length ∨
        (off / sectorSize + 1 = m.data.length ∧ m.size < (off : Int) + (b.length : Int))) →
      ∃ copied, memFile.ReadAt m b off = some ⟨0, some .ErrNoProgress, copied⟩ ∧
        ∀ (mem : Bytes) (files : List (Option Nat)) (file buf iOfst : Nat) (f : Option Nat),
          sqlite3.Memory.Read mem buf b.length = some b →
          sqlite3.vfsFile mem files file = .ok f →
          sqlite3.int64 iOfst = off →
          sqlite3.vfsRead mem files (readMem m) file buf b.length iOfst
            = .ok (sqlite3.IOERR_READ, sqlite3.Memory.store mem buf copied)) := by
  constructor
  · intro o ho
    unfold memFile.ReadAt
    rw [if_pos ho]
  · intro hlt hinv hshort
    obtain ⟨copied, hc⟩ := ReadAt_short m b off hlt hinv hshort
    refine ⟨copied, hc, ?_⟩
    intro mem files file buf iOfst f hb hf ho
    have hr : readMem m f b (sqlite3.int64 iOfst) = some ⟨0, some .ErrNoProgress, copied⟩ := by
      unfold readMem
      rw [ho]
      exact hc
    rw [sqlite3.vfsRead_eq mem files (readMem m) file buf b.length iOfst b f _ hb hf hr]
    have hpos : 0 < b.length := by
      have hrest : off % sectorSize < sectorSize := Nat.mod_lt _ (by decide)
      rcases hshort with h | h
      · omega
      · omega
    dsimp only
    rw [if_neg (by omega), if_pos ⟨rfl, by decide⟩]

/-- C20 (amended) for a read of four bytes at the offset 0 of a database of two
bytes. -/
theorem read_signal_witness :
    ((0 : Nat) : Int) < twoBytes.size ∧
      twoBytes.size ≤ ((twoBytes.data.length * sectorSize : Nat) : Int) ∧
      (0 / sectorSize + 1 = twoBytes.data.length ∧
        twoBytes.size < ((0 : Nat) : Int) + (([9, 9, 9, 9] : Bytes).length : Int)) ∧
      ∃ copied, memFile.ReadAt twoBytes [9, 9, 9, 9] (0 : Nat)
          = some ⟨0, some .ErrNoProgress, copied⟩ ∧
        ∀ (mem : Bytes) (files : List (Option Nat)) (file buf iOfst : Nat) (f : Option Nat),
          sqlite3.Memory.Read mem buf ([9, 9, 9, 9] : Bytes).length = some [9, 9, 9, 9] →
          sqlite3.vfsFile mem files file = .ok f →
          sqlite3.int64 iOfst = (0 : Nat) →
          sqlite3.vfsRead mem files (readMem twoBytes) file buf ([9, 9, 9, 9] : Bytes).length iOfst
            = .ok (sqlite3.IOERR_READ, sqlite3.Memory.store mem buf copied) :=
  ⟨by decide, by decide, by decide,
   (read_signal twoBytes [9, 9, 9, 9] 0).2 (by decide) (by decide) (Or.inr (by decide))⟩

end memdb

/-! ## C24, C27: the reserved holder and the shared count -/

namespace memdb

open vfs vfs.LockLevel

theorem Lock_reserved_from (self : Nat) (m : memFile) (db : memDB) (lock : LockLevel)
    (k : Nat) (hk : k ≠ self) (h : (m.Lock self db lock).db.reserved = some k) :
    db.reserved = some k := by
  obtain ⟨lk, ro⟩ := m
  by_cases h1 : db.pending = none <;> by_cases h2 : db.reserved = none <;>
    by_cases h3 : db.shared > 1 <;> cases lk <;> cases lock <;> cases ro <;>
    simp [memFile.Lock, LockLevel.le_iff, LockLevel.lt_iff, LockLevel.toNat, h1, h2, h3]
      at h ⊢ <;>
    first
      | exact h
      | exact absurd h.symm hk

theorem Lock_reserved_owner (self : Nat) (m : memFile) (db : memDB) (lock : LockLevel)
    (h : (m.Lock self db lock).db.reserved = some self)
    (ih : db.reserved = some self → LOCK_RESERVED ≤ m.lock) :
    LOCK_RESERVED ≤ (m.Lock self db lock).file.lock := by
  obtain ⟨lk, ro⟩ := m
  by_cases h1 : db.pending = none <;> by_cases h2 : db.reserved = none <;>
    by_cases h3 : db.shared > 1 <;> cases lk <;> cases lock <;> cases ro <;>
    simp [memFile.Lock, LockLevel.le_iff, LockLevel.lt_iff, LockLevel.toNat, h1, h2, h3]
      at h ih ⊢ <;>
    exact ih h

theorem Unlock_reserved_from (self : Nat) (m : memFile) (db : memDB) (lock : LockLevel)
    (k : Nat) (h : (m.Unlock self db lock).db.reserved = some k) : db.reserved = some k := by
  by_cases hle : m.lock ≤ lock
  · rwa [Unlock_noop self m db lock hle] at h
  · rw [Unlock_eq self m db lock hle] at h
    dsimp only at h
    split_ifs at h
    exact h

theorem Unlock_reserved_owner (self : Nat) (m : memFile) (db : memDB) (lock : LockLevel)
    (h : (m.Unlock self db lock).db.reserved = some self)
    (ih : db.reserved = some self → LOCK_RESERVED ≤ m.lock) :
    LOCK_RESERVED ≤ (m.Unlock self db lock).file.lock := by
  by_cases hle : m.lock ≤ lock
  · rw [Unlock_noop self m db lock hle] at h ⊢
    exact ih h
  · rw [Unlock_eq self m db lock hle] at h
    dsimp only at h
    split_ifs at h
    contradiction

theorem reserved_owner_run (s : State) (i : Nat) (f : Nat → memFile → memDB → Result)
    (m : memFile) (hm : s.files[i]? = some m)
    (h1 : ∀ k, (f i m s.db).db.reserved = some k → k ≠ i → s.db.reserved = some k)
    (h2 : (f i m s.db).db.reserved = some i → (s.db.reserved = some i → LOCK_RESERVED ≤ m.lock) →
      LOCK_RESERVED ≤ (f i m s.db).file.lock)
    (inv : ∀ k, s.db.reserved = some k → LOCK_RESERVED ≤ s.lockOf k) :
    ∀ k, (s.run i f).1.db.reserved = some k → LOCK_RESERVED ≤ (s.run i f).1.lockOf k := by
  rw [run_of_some s i f m hm]
  intro k hk
  rw [lockOf_set s _ i _ m hm]
  by_cases hki : k = i
  · subst hki
    rw [if_pos rfl]
    exact h2 hk (fun hp => (lockOf_of_some s k m hm) ▸ inv k hp)
  · rw [if_neg hki]
    exact inv k (h1 k hk hki)

/-- In every state a database can be in, whatever calls were made, the reserved
holder is at `RESERVED` or higher. -/
theorem reserved_owner_of_reachable (s : State) (h : Reachable anyCall s) :
    ∀ k, s.db.reserved = some k → LOCK_RESERVED ≤ s.lockOf k := by
  induction h with
  | fresh readOnly =>
    intro k hk
    simp [State.fresh] at hk
  | @call s c _ _ ih =>
    cases c with
    | Lock i lock polls =>
      rw [call_Lock_run]
      cases hm : s.files[i]? with
      | none => simpa [State.call, run_of_none s i _ hm] using ih
      | some m =>
        exact reserved_owner_run s i _ m hm
          (fun k hk hki => Lock_reserved_from i m s.db lock k hki hk)
          (Lock_reserved_owner i m s.db lock) ih
    | Unlock i lock =>
      cases hm : s.files[i]? with
      | none => simpa [State.call, run_of_none s i _ hm] using ih
      | some m =>
        exact reserved_owner_run s i _ m hm
          (fun k hk _ => Unlock_reserved_from i m s.db lock k hk)
          (Unlock_reserved_owner i m s.db lock) ih
    | Close i =>
      cases hm : s.files[i]? with
      | none => simpa [State.call, run_of_none s i _ hm] using ih
      | some m =>
        exact reserved_owner_run s i _ m hm
          (fun k hk _ => Unlock_reserved_from i m s.db LOCK_NONE k hk)
          (Unlock_reserved_owner i m s.db LOCK_NONE) ih

/-- C24: in every state reached from a fresh database by `Lock`, `Unlock` and
`Close` calls of its files, whatever they are, `CheckReservedLock` on a file
that holds `RESERVED` or higher reports a lock, and `CheckReservedLock` on any
file reports no lock when no file of the database holds `RESERVED` or higher. -/
theorem checkReserved_reports (s : State) (h : Reachable anyCall s) (i : Nat) (m : memFile)
    (hm : s.files[i]? = some m) :
    (LOCK_RESERVED ≤ m.lock → m.CheckReservedLock s.db = true) ∧
    ((∀ j, s.lockOf j < LOCK_RESERVED) → m.CheckReservedLock s.db = false) := by
  constructor
  · intro hr
    unfold memFile.CheckReservedLock
    rw [if_pos hr]
  · intro hnone
    have hlt : ¬ m.lock ≥ LOCK_RESERVED := by
      have := hnone i
      rw [lockOf_of_some s i m hm, LockLevel.lt_iff] at this
      show ¬ LOCK_RESERVED ≤ m.lock
      rw [LockLevel.le_iff]
      omega
    unfold memFile.CheckReservedLock
    rw [if_neg hlt]
    cases hr : s.db.reserved with
    | none => simp
    | some k =>
      have h1 := (LockLevel.le_iff _ _).mp (reserved_owner_of_reachable s h k hr)
      have h2 := (LockLevel.lt_iff _ _).mp (hnone k)
      omega

/-- C24 after the writer has unlocked to `SHARED` and another file has taken
`SHARED`: no lock is reported. -/
theorem checkReserved_reports_witness :
    (∀ j, writerDone.lockOf j < LOCK_RESERVED) ∧
      memFile.CheckReservedLock ⟨LOCK_SHARED, false⟩ writerDone.db = false :=
  have hn : ∀ j, writerDone.lockOf j < LOCK_RESERVED := by
    intro j
    have hlen : writerDone.files.length = 2 := by decide
    by_cases hj : j < 2
    · interval_cases j <;> decide
    · unfold State.lockOf
      rw [List.getElem?_eq_none (by omega)]
      decide
  ⟨hn, (checkReserved_reports writerDone
    (Reachable.calls anyCall _ _ (Reachable.fresh _) (by simp [admitted, anyCall]))
    1 ⟨LOCK_SHARED, false⟩ (by decide)).2 hn⟩

theorem Close_lock (self : Nat) (m : memFile) (db : memDB) :
    (m.Close self db).file.lock = LOCK_NONE := by
  unfold memFile.Close
  by_cases hle : m.lock ≤ LOCK_NONE
  · rw [Unlock_noop self m db LOCK_NONE hle]
    have := (LockLevel.le_iff _ _).mp hle
    cases hl : m.lock <;> simp [hl, LockLevel.toNat] at this ⊢
  · rw [Unlock_eq self m db LOCK_NONE hle]

/-- `Close` of a file that holds no lock changes nothing. -/
theorem call_Close_none (t : State) (i : Nat) (f : memFile) (hf : t.files[i]? = some f)
    (hl : f.lock = LOCK_NONE) : (t.call (.Close i)).1 = t := by
  have hle : f.lock ≤ LOCK_NONE := by
    rw [hl]
    exact (LockLevel.le_iff _ _).mpr (le_refl _)
  simp only [State.call]
  rw [run_of_some t i _ f hf]
  simp only [memFile.Close, Unlock_noop i f t.db LOCK_NONE hle]
  rw [set_same _ i f hf]

/-- C27: in every state reached from a fresh database under the calling
discipline, the shared count is the number of files at `SHARED` or higher, so
it is not negative; and a second `Close` of a file changes nothing, so the
count is not decremented twice. -/
theorem shared_count (s : State) (h : Reachable protocol s) (i : Nat) :
    s.db.shared = (s.holders : Int) ∧ 0 ≤ s.db.shared ∧
    ((s.call (.Close i)).1.call (.Close i)).1 = (s.call (.Close i)).1 := by
  refine ⟨(inv_of_reachable s h).shared_eq, ?_, ?_⟩
  · rw [(inv_of_reachable s h).shared_eq]
    exact Int.ofNat_nonneg _
  · cases hm : s.files[i]? with
    | none => simp [State.call, run_of_none s i _ hm]
    | some m =>
      have hi : i < s.files.length := by
        rcases Nat.lt_or_ge i s.files.length with hlt | hge
        · exact hlt
        · rw [List.getElem?_eq_none hge] at hm
          cases hm
      have hf : (s.call (.Close i)).1.files[i]? = some (m.Close i s.db).file := by
        simp [State.call, run_of_some s i _ m hm, List.getElem?_set, hi]
      exact call_Close_none _ i _ hf (Close_lock i m s.db)

/-- C27 for three files at `SHARED`, one of them at `PENDING`: the count is 3. -/
theorem shared_count_witness :
    waiterPending.db.shared = (waiterPending.holders : Int) ∧ 0 ≤ waiterPending.db.shared ∧
      waiterPending.db.shared = 3 :=
  ⟨(shared_count waiterPending
      (Reachable.calls protocol _ _ (Reachable.fresh _) (by decide)) 0).1,
   (shared_count waiterPending
      (Reachable.calls protocol _ _ (Reachable.fresh _) (by decide)) 0).2.1, by decide⟩

end memdb

/-! ## C21, C28, C29: the sectors and the size -/

namespace memdb

open sqlite3 (Bytes IoError ReadResult)

theorem wrap64_le (x : Int) (h : 0 ≤ x) : wrap64 x ≤ x := by
  unfold wrap64
  norm_num
  omega

theorem divRoundUp_sector (n : Nat) (h : (n : Int) + 65535 < 2 ^ 63) :
    divRoundUp n (sectorSize : Nat) = (((n + 65535) / 65536 : Nat) : Int) := by
  unfold divRoundUp
  have h1 : (n : Int) + ((sectorSize : Nat) : Int) - 1 = ((n + 65535 : Nat) : Int) := by
    have : ((sectorSize : Nat) : Int) = 65536 := rfl
    rw [this]
    push_cast
    omega
  rw [h1, wrap64_of_lt _ (Int.ofNat_nonneg _) (by push_cast; omega)]
  exact tdiv_sector (n + 65535)

/-- `truncate` to a non-negative size whose sector count is an `int64`, with the
sector that is partly kept at hand. -/
theorem truncate_eq (m : memDB) (n : Nat) (data0 : List (List Nat)) (sector : List Nat)
    (hrep : (n : Int) + 65535 < 2 ^ 63)
    (hs : (n : Int) < m.size → n % 65536 ≠ 0 → m.data[n / 65536]? = some sector)
    (hd : data0 = if (n : Int) < m.size ∧ n % 65536 ≠ 0
      then m.data.set (n / 65536)
        (sector.take (n % 65536) ++ List.replicate (sector.length - n % 65536) 0)
      else m.data) :
    memFile.truncate m n = some { m with
      data := (data0 ++ List.replicate ((n + 65535) / 65536 - data0.length) newSector).take
        ((n + 65535) / 65536)
      size := n } := by
  unfold memFile.truncate
  simp only [tdiv_sector, tmod_sector, divRoundUp_sector n hrep, Int.toNat_ofNat]
  have hneg : ¬ ((((n + 65535) / 65536 : Nat) : Int) < 0) := not_lt.mpr (Int.ofNat_nonneg _)
  have hneg2 : ¬ ((((n / sectorSize : Nat) : Int) < 0) ∨ (((n % sectorSize : Nat) : Int) < 0)) := by
    intro h
    rcases h with h | h
    · exact absurd h (not_lt.mpr (Int.ofNat_nonneg _))
    · exact absurd h (not_lt.mpr (Int.ofNat_nonneg _))
  have hrest : (((n % sectorSize : Nat) : Int) ≠ 0) ↔ n % 65536 ≠ 0 := by
    show (((n % 65536 : Nat) : Int) ≠ 0) ↔ _
    omega
  by_cases h1 : (n : Int) < m.size
  · by_cases h2 : n % 65536 ≠ 0
    · have hs2 : m.data[n / sectorSize]? = some sector := hs h1 h2
      rw [if_pos h1, if_pos (hrest.mpr h2), if_neg hneg2]
      simp only [hs2]
      rw [if_neg hneg, hd, if_pos ⟨h1, h2⟩]
      rfl
    · rw [if_pos h1, if_neg (fun h => h2 (hrest.mp h))]
      dsimp only
      rw [if_neg hneg, hd, if_neg (fun h => h2 h.2)]
  · rw [if_neg h1]
    dsimp only
    rw [if_neg hneg, hd, if_neg (fun h => h1 h.1)]

/-- What `truncate` leaves: the size, the number of sectors, and each sector. -/
theorem truncate_spec (m : memDB) (hinv : DataInv m) (n : Nat)
    (hrep : (n : Int) + 65535 < 2 ^ 63) :
    ∃ m1, memFile.truncate m n = some m1 ∧ m1.size = n ∧
      m1.data.length = (n + 65535) / 65536 ∧
      ∀ i, i < (n + 65535) / 65536 →
        m1.data[i]? =
          if i < m.data.length then
            if (n : Int) < m.size ∧ n % 65536 ≠ 0 ∧ i = n / 65536 then
              (m.data[i]?).map (fun sector =>
                sector.take (n % 65536) ++ List.replicate (sector.length - n % 65536) 0)
            else m.data[i]?
          else some newSector := by
  have hle : m.size ≤ ((m.data.length * 65536 : Nat) : Int) := hinv.size_le
  by_cases hc : (n : Int) < m.size ∧ n % 65536 ≠ 0
  · have hb : n / 65536 < m.data.length := by omega
    have hs : m.data[n / 65536]? = some m.data[n / 65536] := List.getElem?_eq_getElem hb
    rw [truncate_eq m n _ m.data[n / 65536] hrep (fun _ _ => hs) rfl, if_pos hc]
    refine ⟨_, rfl, rfl, ?_, ?_⟩
    · simp only [List.length_take, List.length_append, List.length_set, List.length_replicate]
      omega
    · intro i hi
      dsimp only
      rw [List.getElem?_take, if_pos hi]
      by_cases hil : i < m.data.length
      · rw [if_pos hil, List.getElem?_append_left (by rw [List.length_set]; exact hil),
          List.getElem?_set]
        by_cases hib : i = n / 65536
        · subst hib
          rw [if_pos rfl, if_pos hil, if_pos ⟨hc.1, hc.2, rfl⟩, hs]
          rfl
        · rw [if_neg (fun h => hib h.symm), if_neg (fun h => hib h.2.2)]
      · rw [if_neg hil, List.getElem?_append_right (by rw [List.length_set]; omega),
          List.getElem?_replicate, if_pos (by rw [List.length_set]; omega)]
  · rw [truncate_eq m n _ [] hrep (fun h1 h2 => absurd ⟨h1, h2⟩ hc) rfl, if_neg hc]
    refine ⟨_, rfl, rfl, ?_, ?_⟩
    · simp only [List.length_take, List.length_append, List.length_replicate]
      omega
    · intro i hi
      dsimp only
      rw [List.getElem?_take, if_pos hi]
      by_cases hil : i < m.data.length
      · rw [if_pos hil, List.getElem?_append_left hil, if_neg (fun h => hc ⟨h.1, h.2.1⟩)]
      · rw [if_neg hil, List.getElem?_append_right (by omega),
          List.getElem?_replicate, if_pos (by omega)]

theorem mem_of_getElem? {α : Type} (l : List α) (i : Nat) (a : α) (h : l[i]? = some a) :
    a ∈ l := by
  rw [List.getElem?_eq_some] at h
  obtain ⟨hi, rfl⟩ := h
  exact List.getElem_mem _

theorem exists_getElem?_of_mem {α : Type} (l : List α) (a : α) (h : a ∈ l) :
    ∃ i, i < l.length ∧ l[i]? = some a := by
  obtain ⟨i, hi, rfl⟩ := List.getElem_of_mem h
  exact ⟨i, hi, List.getElem?_eq_getElem hi⟩

/-- `truncate` keeps the invariant of the data. -/
theorem dataInv_truncate (m m1 : memDB) (hinv : DataInv m) (n : Nat)
    (h : memFile.truncate m n = some m1) (hrep : (n : Int) + 65535 < 2 ^ 63) :
    DataInv m1 := by
  obtain ⟨m2, h2, hsz, hlen, hsec⟩ := truncate_spec m hinv n hrep
  rw [h] at h2
  cases h2
  refine ⟨by rw [hsz]; exact Int.ofNat_nonneg _, ?_, ?_⟩
  · rw [hsz, hlen]
    show (n : Int) ≤ (((n + 65535) / 65536 * 65536 : Nat) : Int)
    omega
  · intro s hs
    obtain ⟨i, hi, hgi⟩ := exists_getElem?_of_mem _ s hs
    rw [hlen] at hi
    rw [hsec i hi] at hgi
    by_cases hil : i < m.data.length
    · rw [if_pos hil] at hgi
      have hold : m.data[i]? = some m.data[i] := List.getElem?_eq_getElem hil
      have hl := hinv.sectors _ (mem_of_getElem? _ _ _ hold)
      split_ifs at hgi with hc
      · rw [hold] at hgi
        cases hgi
        rw [List.length_append, List.length_take, List.length_replicate, hl]
        have : n % 65536 < 65536 := Nat.mod_lt _ (by decide)
        show min (n % 65536) 65536 + (65536 - n % 65536) = 65536
        omega
      · rw [hold] at hgi
        cases hgi
        exact hl
    · rw [if_neg hil] at hgi
      cases hgi
      exact length_newSector

/-- A sector with `n` bytes of `b` copied to the position `rest`. -/
theorem getElem?_splice (old b : List Nat) (rest n j : Nat) (h1 : rest + n ≤ old.length)
    (h2 : n ≤ b.length) :
    (old.take rest ++ b.take n ++ old.drop (rest + n))[j]?
      = if rest ≤ j ∧ j < rest + n then b[j - rest]? else old[j]? := by
  have hl1 : (old.take rest).length = rest := by
    rw [List.length_take]
    omega
  have hl2 : (b.take n).length = n := by
    rw [List.length_take]
    omega
  by_cases hj : j < rest
  · rw [if_neg (by omega), List.append_assoc, List.getElem?_append_left (by omega),
      List.getElem?_take, if_pos hj]
  · by_cases hjn : j < rest + n
    · rw [if_pos ⟨by omega, hjn⟩, List.append_assoc, List.getElem?_append_right (by omega),
        List.getElem?_append_left (by omega), hl1, List.getElem?_take, if_pos (by omega)]
    · rw [if_neg (by omega), List.getElem?_append_right (by rw [List.length_append]; omega),
        List.getElem?_drop, List.length_append, hl1, hl2]
      congr 1
      omega

theorem length_splice (old b : List Nat) (rest n : Nat) (h1 : rest + n ≤ old.length)
    (h2 : n ≤ b.length) :
    (old.take rest ++ b.take n ++ old.drop (rest + n)).length = old.length := by
  simp only [List.length_append, List.length_take, List.length_drop]
  omega

/-- What `WriteAt` at a non-negative offset leaves: the count, the error, the
size, the number of sectors, and each sector. -/
theorem WriteAt_sectors (m : memDB) (b : Bytes) (off : Nat) :
    ∃ m1 err, memFile.WriteAt m b off
        = some (m1, min (65536 - off % 65536) b.length, err) ∧
      (err = none ↔ off % 65536 + b.length ≤ 65536) ∧
      m1.data.length = max m.data.length (off / 65536 + 1) ∧
      m1.size = (if err = none ∧ wrap64 ((off : Int) + (b.length : Int)) > m.size
        then wrap64 ((off : Int) + (b.length : Int)) else m.size) ∧
      ∀ i, i < m1.data.length →
        m1.data[i]? =
          if i = off / 65536 then
            some (((m.data[i]?).getD newSector).take (off % 65536)
              ++ b.take (min (65536 - off % 65536) b.length)
              ++ ((m.data[i]?).getD newSector).drop
                (off % 65536 + min (65536 - off % 65536) b.length))
          else if i < m.data.length then m.data[i]? else some newSector := by
  have hrest : off % 65536 < 65536 := Nat.mod_lt _ (by decide)
  obtain ⟨sector, hs, hnew⟩ := getElem?_grown m.data (off / sectorSize)
  have e : sectorSize = 65536 := rfl
  have hw := WriteAt_eq m b off _ sector _ _ rfl hs rfl rfl
  simp only [e] at hw hs hnew
  have hsec : (m.data[off / 65536]?).getD newSector = sector := by
    by_cases hb : off / 65536 < m.data.length
    · have h1 : (m.data ++ List.replicate (off / 65536 + 1 - m.data.length) newSector)[
          off / 65536]? = m.data[off / 65536]? := List.getElem?_append_left hb
      rw [h1] at hs
      rw [hs]
      rfl
    · rw [List.getElem?_eq_none (by omega), hnew (by show m.data.length ≤ off / 65536; omega)]
      rfl
  have hlen : ∀ s1 : List Nat,
      ((m.data ++ List.replicate (off / 65536 + 1 - m.data.length) newSector).set
        (off / 65536) s1).length = max m.data.length (off / 65536 + 1) := by
    intro s1
    rw [List.length_set, List.length_append, List.length_replicate]
    show m.data.length + (off / 65536 + 1 - m.data.length) = _
    omega
  have hget : ∀ (s1 : List Nat) (i : Nat), i < max m.data.length (off / 65536 + 1) →
      ((m.data ++ List.replicate (off / 65536 + 1 - m.data.length) newSector).set
        (off / 65536) s1)[i]?
        = if i = off / 65536 then some s1
          else if i < m.data.length then m.data[i]? else some newSector := by
    intro s1 i hi
    rw [List.getElem?_set]
    by_cases hib : i = off / 65536
    · subst hib
      rw [if_pos rfl, if_pos rfl, if_pos]
      rw [List.length_append, List.length_replicate]
      show off / 65536 < m.data.length + (off / 65536 + 1 - m.data.length)
      omega
    · rw [if_neg (fun h => hib h.symm), if_neg hib]
      by_cases hil : i < m.data.length
      · rw [if_pos hil, List.getElem?_append_left hil]
      · rw [if_neg hil, List.getElem?_append_right (by omega), List.getElem?_replicate, if_pos]
        show i - m.data.length < off / 65536 + 1 - m.data.length
        omega
  rw [hw]
  by_cases hshort : min (65536 - off % 65536) b.length < b.length
  · have hshort2 : min (65536 - off % 65536) b.length < b.length := hshort
    rw [if_pos hshort]
    refine ⟨_, some .ErrShortWrite, rfl, ⟨fun h => (by cases h), fun h => (by omega)⟩, hlen _, ?_, ?_⟩
    · rw [if_neg (fun h => by cases h.1)]
    · intro i hi
      dsimp only at hi ⊢
      rw [hlen] at hi
      rw [hget _ i hi]
      by_cases hib : i = off / 65536
      · rw [if_pos hib, if_pos hib, hib, hsec]
      · rw [if_neg hib, if_neg hib]
  · have hshort2 : ¬ min (65536 - off % 65536) b.length < b.length := hshort
    rw [if_neg hshort]
    by_cases hsz : wrap64 ((off : Int) + (b.length : Int)) > m.size
    · rw [if_pos hsz]
      refine ⟨_, none, rfl, ⟨fun _ => (by omega), fun _ => rfl⟩, hlen _, ?_, ?_⟩
      · rw [if_pos ⟨rfl, hsz⟩]
      · intro i hi
        dsimp only at hi ⊢
        rw [hlen] at hi
        rw [hget _ i hi]
        by_cases hib : i = off / 65536
        · rw [if_pos hib, if_pos hib, hib, hsec]
        · rw [if_neg hib, if_neg hib]
    · rw [if_neg hsz]
      refine ⟨_, none, rfl, ⟨fun _ => (by omega), fun _ => rfl⟩, hlen _, ?_, ?_⟩
      · rw [if_neg (fun h => hsz h.2)]
      · intro i hi
        dsimp only at hi ⊢
        rw [hlen] at hi
        rw [hget _ i hi]
        by_cases hib : i = off / 65536
        · rw [if_pos hib, if_pos hib, hib, hsec]
        · rw [if_neg hib, if_neg hib]

/-- A read that lies within its sector and within the size returns all its
bytes. -/
theorem ReadAt_full (m : memDB) (hinv : DataInv m) (buf : Bytes) (off : Nat)
    (hpos : 0 < buf.length) (hsec : off % 65536 + buf.length ≤ 65536)
    (hsz : (off : Int) + (buf.length : Int) ≤ m.size) :
    ∃ sector, m.data[off / 65536]? = some sector ∧
      memFile.ReadAt m buf off
        = some ⟨buf.length, none, (sector.drop (off % 65536)).take buf.length⟩ := by
  have hinv1 : m.size ≤ ((m.data.length * 65536 : Nat) : Int) := hinv.size_le
  have hlt : (off : Int) < m.size := by omega
  have hbase : off / 65536 < m.data.length := by omega
  have hs : m.data[off / sectorSize]? = some m.data[off / 65536] :=
    List.getElem?_eq_getElem hbase
  have hmr := modRoundUp_sector m.size (by omega)
  have hss : ((sectorSize : Nat) : Int) = 65536 := rfl
  have hrr : ((off % sectorSize : Nat) : Int) = ((off % 65536 : Nat) : Int) := rfl
  refine ⟨m.data[off / 65536], hs, ?_⟩
  have hfin : ∀ k : Nat, k = buf.length →
      (List.take k (List.drop (off % sectorSize) m.data[off / 65536]) ++ List.drop k buf)
        = (m.data[off / 65536].drop (off % 65536)).take buf.length := by
    intro k hk
    rw [hk, List.drop_length, List.append_nil]
    rfl
  by_cases hlast : off / 65536 + 1 = m.data.length
  · have hc : ((off / sectorSize : Nat) : Int) = (m.data.length : Int) - 1 := by
      show ((off / 65536 : Nat) : Int) = _
      omega
    have hq : modRoundUp m.size (sectorSize : Nat)
        = m.size - ((off / 65536 : Nat) : Int) * 65536 := by
      rw [hmr]
      omega
    have hmin : min buf.length
        (modRoundUp m.size (sectorSize : Nat) - ((off % sectorSize : Nat) : Int)).toNat
          = buf.length := by
      rw [hq, hrr]
      omega
    rw [ReadAt_eq m buf off _ (modRoundUp m.size (sectorSize : Nat)) hlt hs (by rw [if_pos hc])
      (by rw [hq, hrr]; omega) (by rw [hq, hss]; omega), hmin, if_neg (lt_irrefl _),
      hfin _ rfl]
  · have hc : ¬ ((off / sectorSize : Nat) : Int) = (m.data.length : Int) - 1 := by
      show ¬ ((off / 65536 : Nat) : Int) = _
      omega
    have hmin : min buf.length
        (((sectorSize : Nat) : Int) - ((off % sectorSize : Nat) : Int)).toNat = buf.length := by
      rw [hss, hrr]
      omega
    rw [ReadAt_eq m buf off _ (sectorSize : Nat) hlt hs (by rw [if_neg hc])
      (by rw [hss, hrr]; omega) (le_refl _), hmin, if_neg (lt_irrefl _), hfin _ rfl]

theorem take_one_drop (l : List Nat) (j v : Nat) (h : l[j]? = some v) :
    (l.drop j).take 1 = [v] := by
  rw [List.getElem?_eq_some] at h
  obtain ⟨hj, rfl⟩ := h
  rw [List.drop_eq_getElem_cons hj]
  rfl

/-- Below the size every byte can be read, and a read of one byte returns it. -/
theorem ReadAt_one (m : memDB) (hinv : DataInv m) (p : Nat) (hlt : (p : Int) < m.size)
    (x : Nat) :
    ∃ v, m.byteAt p = some v ∧ memFile.ReadAt m [x] p = some ⟨1, none, [v]⟩ := by
  have hrest : p % 65536 < 65536 := Nat.mod_lt _ (by decide)
  obtain ⟨sector, hs, hr⟩ := ReadAt_full m hinv [x] p (by simp) (by simp; omega)
    (by simp; omega)
  have hl := hinv.sectors _ (mem_of_getElem? _ _ _ hs)
  have hj : p % 65536 < sector.length := by
    rw [hl]
    exact hrest
  have hv : sector[p % 65536]? = some sector[p % 65536] := List.getElem?_eq_getElem hj
  refine ⟨sector[p % 65536], ?_, ?_⟩
  · unfold memDB.byteAt
    show (match m.data[p / 65536]? with
      | none => none
      | some sector => sector[p % 65536]?) = _
    rw [hs]
    exact hv
  · rw [hr]
    simp only [List.length_singleton]
    rw [take_one_drop sector _ _ hv]

/-- `WriteAt` keeps the invariant of the data, also when it is short. -/
theorem dataInv_WriteAt (m m1 : memDB) (hinv : DataInv m) (b : Bytes) (off n : Nat)
    (err : Option IoError) (h : memFile.WriteAt m b off = some (m1, n, err)) : DataInv m1 := by
  have hrest : off % 65536 < 65536 := Nat.mod_lt _ (by decide)
  obtain ⟨m2, err2, h2, herr, hlen, hsz, hsec⟩ := WriteAt_sectors m b off
  rw [h] at h2
  cases h2
  have h0 := hinv.size_nonneg
  have hle : m.size ≤ ((m.data.length * 65536 : Nat) : Int) := hinv.size_le
  have hw := wrap64_le ((off : Int) + (b.length : Int)) (by omega)
  refine ⟨?_, ?_, ?_⟩
  · rw [hsz]
    split_ifs with hc
    · omega
    · exact h0
  · rw [hsz, hlen]
    show _ ≤ (((max m.data.length (off / 65536 + 1)) * 65536 : Nat) : Int)
    split_ifs with hc
    · have := herr.mp hc.1
      omega
    · omega
  · intro s hs
    obtain ⟨i, hi, hgi⟩ := exists_getElem?_of_mem _ s hs
    rw [hsec i hi] at hgi
    have hgetD : ((m.data[i]?).getD newSector).length = sectorSize := by
      by_cases hil : i < m.data.length
      · have hx : m.data[i]? = some m.data[i] := List.getElem?_eq_getElem hil
        rw [hx]
        exact hinv.sectors _ (mem_of_getElem? _ _ _ hx)
      · rw [List.getElem?_eq_none (by omega)]
        exact length_newSector
    split_ifs at hgi with hib hil
    · cases hgi
      rw [length_splice _ _ _ _ (by rw [hgetD]; show _ ≤ 65536; omega) (by omega)]
      exact hgetD
    · exact hinv.sectors _ (mem_of_getElem? _ _ _ hgi)
    · cases hgi
      exact length_newSector

theorem truncate_overflows (m : memDB) (n : Nat) (h1 : (2 : Int) ^ 63 ≤ (n : Int) + 65535)
    (h2 : (n : Int) < 2 ^ 63) : memFile.truncate m n = none := by
  have hneg : divRoundUp n (sectorSize : Nat) < 0 := by
    unfold divRoundUp wrap64
    have hss : ((sectorSize : Nat) : Int) = 65536 := rfl
    rw [hss]
    have : ((n : Int) + 65536 - 1 + 2 ^ 63) % 2 ^ 64 - 2 ^ 63 < -65536 := by
      norm_num at h1 h2 ⊢
      omega
    generalize ((n : Int) + 65536 - 1 + 2 ^ 63) % 2 ^ 64 - 2 ^ 63 = y at this
    have hy : Int.tdiv y 65536 = -(Int.tdiv (-y) 65536) := by
      rw [Int.neg_tdiv, neg_neg]
    rw [hy, Int.tdiv_eq_ediv (by omega) (by norm_num)]
    omega
  unfold memFile.truncate
  dsimp only
  split
  · rfl
  · rw [if_pos hneg]

theorem dataInv_empty : DataInv emptyDB :=
  ⟨le_refl _, le_refl _, fun s hs => by cases hs⟩

theorem dataInv_truncate_int (m m1 : memDB) (hinv : DataInv m) (size : Int)
    (hr : 0 ≤ size ∧ size < 2 ^ 63) (h : memFile.truncate m size = some m1) : DataInv m1 := by
  obtain ⟨k, rfl⟩ := Int.eq_ofNat_of_zero_le hr.1
  by_cases hrep : (k : Int) + 65535 < 2 ^ 63
  · exact dataInv_truncate m m1 hinv k h hrep
  · rw [truncate_overflows m k (by omega) hr.2] at h
    cases h

/-- In every state reached from the empty database by
`WriteAt` (successful or short), `Truncate` and `SizeHint` calls that return,
the size is not negative and does not exceed 65536 times the number of
sectors, and every sector has 65536 bytes. -/
theorem dataInv_of_written (successful : Bool) (m : memDB) (h : Written successful m) :
    DataInv m := by
  induction h with
  | empty => exact dataInv_empty
  | @call m m1 err c _ hr hc _ ih =>
    cases c with
    | WriteAt b off =>
      obtain ⟨k, rfl⟩ := Int.eq_ofNat_of_zero_le hr.1
      simp only [memDB.dataCall, Option.map_eq_some'] at hc
      obtain ⟨⟨m2, n, e⟩, hw, he⟩ := hc
      cases he
      exact dataInv_WriteAt m _ ih b k _ _ hw
    | Truncate size =>
      simp only [memDB.dataCall, Option.map_eq_some', memFile.Truncate] at hc
      obtain ⟨m2, hw, he⟩ := hc
      cases he
      exact dataInv_truncate_int m _ ih size hr hw
    | SizeHint size =>
      simp only [memDB.dataCall, Option.map_eq_some', memFile.SizeHint] at hc
      obtain ⟨m2, hw, he⟩ := hc
      cases he
      split_ifs at hw
      · exact dataInv_truncate_int m _ ih size hr hw
      · cases hw
        exact ih

theorem byteAt_eq (m : memDB) (p : Nat) (sector : List Nat)
    (h : m.data[p / 65536]? = some sector) : m.byteAt p = sector[p % 65536]? := by
  unfold memDB.byteAt
  show (match m.data[p / 65536]? with
    | none => none
    | some sector => sector[p % 65536]?) = _
  rw [h]

/-- After `truncate` every byte of a sector beyond the size is zero, provided
this was so before when the size does not shrink. -/
theorem zeroTail_truncate (m m1 : memDB) (hinv : DataInv m) (n : Nat)
    (hrep : (n : Int) + 65535 < 2 ^ 63) (h : memFile.truncate m n = some m1)
    (hz : m.size ≤ (n : Int) → ZeroTail m) : ZeroTail m1 := by
  obtain ⟨m2, h2, hsz, hlen, hsec⟩ := truncate_spec m hinv n hrep
  rw [h] at h2
  cases h2
  intro off hoff hidx
  have hidx2 : off / 65536 < m1.data.length := hidx
  rw [hlen] at hidx2
  rw [hsz] at hoff
  have hrest : off % 65536 < 65536 := Nat.mod_lt _ (by decide)
  have hget := hsec _ hidx2
  by_cases hil : off / 65536 < m.data.length
  · rw [if_pos hil] at hget
    have hold : m.data[off / 65536]? = some m.data[off / 65536] := List.getElem?_eq_getElem hil
    have hl := hinv.sectors _ (mem_of_getElem? _ _ _ hold)
    by_cases hc : (n : Int) < m.size ∧ n % 65536 ≠ 0 ∧ off / 65536 = n / 65536
    · rw [if_pos hc, hold] at hget
      rw [byteAt_eq m1 off _ hget, List.getElem?_append_right, List.getElem?_replicate, if_pos]
      · rw [List.length_take, hl]
        show off % 65536 - min (n % 65536) 65536 < 65536 - n % 65536
        omega
      · rw [List.length_take, hl]
        show min (n % 65536) 65536 ≤ off % 65536
        omega
    · rw [if_neg hc] at hget
      rw [hold] at hget
      rw [byteAt_eq m1 off _ hget, ← byteAt_eq m off _ hold]
      by_cases hgrow : m.size ≤ (n : Int)
      · exact hz hgrow off (by omega) hil
      · exfalso
        apply hc
        refine ⟨by omega, ?_, ?_⟩ <;> omega
  · rw [if_neg hil] at hget
    rw [byteAt_eq m1 off _ hget]
    exact newSector_zero _ hrest

/-- A successful `WriteAt` whose end is an `int64` leaves every byte of a sector
beyond the size zero, if this was so before. -/
theorem zeroTail_WriteAt (m m1 : memDB) (hinv : DataInv m) (hz : ZeroTail m) (b : Bytes)
    (off n : Nat) (hrep : (off : Int) + (b.length : Int) < 2 ^ 63)
    (h : memFile.WriteAt m b off = some (m1, n, none)) : ZeroTail m1 := by
  obtain ⟨m2, err2, h2, herr, hlen, hsz, hsec⟩ := WriteAt_sectors m b off
  rw [h] at h2
  cases h2
  have hfit := herr.mp rfl
  have hw : wrap64 ((off : Int) + (b.length : Int)) = (off : Int) + (b.length : Int) :=
    wrap64_of_lt _ (by omega) hrep
  rw [hw] at hsz
  have h0 := hinv.size_nonneg
  intro p hp hidx
  have hidx2 : p / 65536 < m1.data.length := hidx
  have hrest : p % 65536 < 65536 := Nat.mod_lt _ (by decide)
  have hget := hsec _ hidx2
  have hsize : m.size ≤ (p : Int) ∧ (off : Int) + (b.length : Int) ≤ (p : Int) := by
    rw [hsz] at hp
    split_ifs at hp with hc
    · omega
    · have : ¬ (off : Int) + (b.length : Int) > m.size := fun hgt => hc ⟨rfl, hgt⟩
      omega
  by_cases hil : p / 65536 < m.data.length
  · have hold : m.data[p / 65536]? = some m.data[p / 65536] := List.getElem?_eq_getElem hil
    have hl := hinv.sectors _ (mem_of_getElem? _ _ _ hold)
    have hzero := hz p hsize.1 hil
    rw [byteAt_eq m p _ hold] at hzero
    by_cases hib : p / 65536 = off / 65536
    · rw [if_pos hib, hold] at hget
      rw [byteAt_eq m1 p _ hget]
      simp only [Option.getD_some]
      rw [getElem?_splice _ _ _ _ _ (by rw [hl]; show _ ≤ 65536; omega) (by omega),
        if_neg (by omega)]
      exact hzero
    · rw [if_neg hib, if_pos hil, hold] at hget
      rw [byteAt_eq m1 p _ hget]
      exact hzero
  · have hnone : m.data[p / 65536]? = none := List.getElem?_eq_none (by omega)
    by_cases hib : p / 65536 = off / 65536
    · rw [if_pos hib, hnone] at hget
      rw [byteAt_eq m1 p _ hget]
      simp only [Option.getD_none]
      rw [getElem?_splice _ _ _ _ _ (by rw [length_newSector]; show _ ≤ 65536; omega)
        (by omega), if_neg (by omega)]
      exact newSector_zero _ hrest
    · rw [if_neg hib, if_neg hil] at hget
      rw [byteAt_eq m1 p _ hget]
      exact newSector_zero _ hrest

theorem zeroTail_truncate_int (m m1 : memDB) (hinv : DataInv m) (hz : ZeroTail m) (size : Int)
    (hr : 0 ≤ size ∧ size < 2 ^ 63) (h : memFile.truncate m size = some m1) : ZeroTail m1 := by
  obtain ⟨k, rfl⟩ := Int.eq_ofNat_of_zero_le hr.1
  by_cases hrep : (k : Int) + 65535 < 2 ^ 63
  · exact zeroTail_truncate m m1 hinv k hrep h (fun _ => hz)
  · rw [truncate_overflows m k (by omega) hr.2] at h
    cases h

/-- In every state reached from the empty database by successful calls, every
byte of a sector at an offset at or beyond the size is zero. -/
theorem zeroTail_of_written (m : memDB) (h : Written true m) : ZeroTail m := by
  induction h with
  | empty =>
    intro p _ hidx
    exact absurd hidx (Nat.not_lt_zero _)
  | @call m m1 err c hm hr hc hs ih =>
    have hinv := dataInv_of_written true m hm
    cases c with
    | WriteAt b off =>
      obtain ⟨k, rfl⟩ := Int.eq_ofNat_of_zero_le hr.1
      simp only [memDB.dataCall, Option.map_eq_some'] at hc
      obtain ⟨⟨m2, n, e⟩, hw, he⟩ := hc
      cases he
      cases hs rfl
      exact zeroTail_WriteAt m _ hinv ih b k _ hr.2 hw
    | Truncate size =>
      simp only [memDB.dataCall, Option.map_eq_some', memFile.Truncate] at hc
      obtain ⟨m2, hw, he⟩ := hc
      cases he
      exact zeroTail_truncate_int m _ hinv ih size hr hw
    | SizeHint size =>
      simp only [memDB.dataCall, Option.map_eq_some', memFile.SizeHint] at hc
      obtain ⟨m2, hw, he⟩ := hc
      cases he
      split_ifs at hw
      · exact zeroTail_truncate_int m _ hinv ih size hr hw
      · cases hw
        exact ih

end memdb

namespace memdb

open sqlite3 (Bytes IoError ReadResult)

/-- Where the sector counts are `int64` values: in every state reached from the
empty database by successful `WriteAt`, `Truncate` and `SizeHint` calls, for
every `n ≥ 0` and every `k > n` with `k + 65535 < 2^63`: `Truncate(n)` returns and leaves the size `n` and
exactly `ceil(n / 65536)` sectors; growing the database again to `k`, by
`Truncate` or by `SizeHint`, returns, and then every byte at an offset from `n`
to `k - 1` reads as zero. -/
theorem truncate_grow (m : memDB) (h : Written true m) (n k : Nat) (hnk : n < k)
    (hrep : (k : Int) + 65535 < 2 ^ 63) :
    ∃ m1, memFile.Truncate m n = some m1 ∧ m1.size = n ∧
      m1.data.length = (n + 65535) / 65536 ∧
      ∃ m2, memFile.Truncate m1 k = some m2 ∧ memFile.SizeHint m1 k = some m2 ∧
        m2.size = k ∧
        ∀ p : Nat, n ≤ p → p < k → ∀ x, memFile.ReadAt m2 [x] p = some ⟨1, none, [0]⟩ := by
  have hinv := dataInv_of_written true m h
  have hz := zeroTail_of_written m h
  have hrepn : (n : Int) + 65535 < 2 ^ 63 := by omega
  obtain ⟨m1, h1, hsz1, hlen1, _⟩ := truncate_spec m hinv n hrepn
  have hinv1 := dataInv_truncate m m1 hinv n h1 hrepn
  have hz1 := zeroTail_truncate m m1 hinv n hrepn h1 (fun _ => hz)
  obtain ⟨m2, h2, hsz2, hlen2, hsec2⟩ := truncate_spec m1 hinv1 k hrep
  have hinv2 := dataInv_truncate m1 m2 hinv1 k h2 hrep
  refine ⟨m1, h1, hsz1, hlen1, m2, h2, ?_, hsz2, ?_⟩
  · unfold memFile.SizeHint
    rw [if_pos (by rw [hsz1]; omega)]
    exact h2
  · intro p hp hpk x
    obtain ⟨v, hv, hr⟩ := ReadAt_one m2 hinv2 p (by rw [hsz2]; omega) x
    have hrest : p % 65536 < 65536 := Nat.mod_lt _ (by decide)
    have hidx : p / 65536 < (k + 65535) / 65536 := by omega
    have hget := hsec2 _ hidx
    have hzero : m2.byteAt p = some 0 := by
      by_cases hil : p / 65536 < m1.data.length
      · have hold : m1.data[p / 65536]? = some m1.data[p / 65536] :=
          List.getElem?_eq_getElem hil
        rw [if_pos hil, if_neg (fun hc => by rw [hsz1] at hc; omega), hold] at hget
        rw [byteAt_eq m2 p _ hget, ← byteAt_eq m1 p _ hold]
        exact hz1 p (by rw [hsz1]; omega) hil
      · rw [if_neg hil] at hget
        rw [byteAt_eq m2 p _ hget]
        exact newSector_zero _ hrest
    rw [hv] at hzero
    cases hzero
    exact hr

/-- The empty database, cut to one byte and grown to two. -/
theorem truncate_grow_witness :
    (1 : Nat) < 2 ∧ ((2 : Nat) : Int) + 65535 < 2 ^ 63 ∧
    ∃ m1, memFile.Truncate emptyDB (1 : Nat) = some m1 ∧ m1.size = (1 : Nat) ∧
      m1.data.length = (1 + 65535) / 65536 ∧
      ∃ m2, memFile.Truncate m1 (2 : Nat) = some m2 ∧ memFile.SizeHint m1 (2 : Nat) = some m2 ∧
        m2.size = (2 : Nat) ∧
        ∀ p : Nat, 1 ≤ p → p < 2 → ∀ x, memFile.ReadAt m2 [x] p = some ⟨1, none, [0]⟩ :=
  ⟨by decide, by decide, truncate_grow emptyDB Written.empty 1 2 (by decide) (by decide)⟩

/-- C21 (defect in the code, the one of C28): for the sizes from `2^63 - 65535`
on, which are not negative, `Truncate` does not return, so that no size and no
sector list is left. The empty database is a state reached by successful
calls; `Truncate` of the least such size panics on it. And after `Truncate(1)`,
which returns with the size 1, the database cannot be grown to `2^63 - 1`, by
`Truncate` or by `SizeHint`: both panic. -/
theorem truncate_grow_overflow :
    Written true emptyDB ∧
    (0 : Int) ≤ ((9223372036854710273 : Nat) : Int) ∧
    ((9223372036854710273 : Nat) : Int) = 2 ^ 63 - 65535 ∧
    memFile.Truncate emptyDB ((9223372036854710273 : Nat) : Int) = none ∧
    ∃ m1, memFile.Truncate emptyDB ((1 : Nat) : Int) = some m1 ∧ m1.size = 1 ∧
      (1 : Int) < ((9223372036854775807 : Nat) : Int) ∧
      memFile.Truncate m1 ((9223372036854775807 : Nat) : Int) = none ∧
      memFile.SizeHint m1 ((9223372036854775807 : Nat) : Int) = none := by
  obtain ⟨m1, h1, hs1, _⟩ := truncate_spec emptyDB dataInv_empty 1 (by decide)
  refine ⟨Written.empty, by decide, by decide,
    truncate_overflows emptyDB 9223372036854710273 (by decide) (by decide),
    m1, h1, ?_, by decide,
    truncate_overflows m1 9223372036854775807 (by decide) (by decide), ?_⟩
  · rw [hs1]
    rfl
  · unfold memFile.SizeHint
    rw [if_pos (by rw [hs1]; decide)]
    exact truncate_overflows m1 9223372036854775807 (by decide) (by decide)

/-- C28 (defect in the code): `divRoundUp` adds `b - 1` in `int64` arithmetic.
For the size `2^63 - 1`, which is not negative, the sum wraps, the sector count
comes out as `-140737488355327`, and the slice expression `m.data[sectors:]`
of `truncate` panics on it: `Truncate` and `SizeHint` fail on an index out of
range, on the empty database and on every other. -/
theorem truncate_overflow (m : memDB) :
    (0 : Int) ≤ ((9223372036854775807 : Nat) : Int) ∧
    ((9223372036854775807 : Nat) : Int) < 2 ^ 63 ∧
    divRoundUp ((9223372036854775807 : Nat) : Int) (sectorSize : Nat) = -140737488355327 ∧
    memFile.Truncate m ((9223372036854775807 : Nat) : Int) = none ∧
    memFile.SizeHint emptyDB ((9223372036854775807 : Nat) : Int) = none :=
  ⟨by decide, by decide, by decide,
   truncate_overflows m 9223372036854775807 (by decide) (by decide),
   truncate_overflows emptyDB 9223372036854775807 (by decide) (by decide)⟩

theorem drop_take_splice (old b : List Nat) (rest : Nat) (h1 : rest + b.length ≤ old.length) :
    ((old.take rest ++ b.take b.length ++ old.drop (rest + b.length)).drop rest).take b.length
      = b := by
  have hl1 : (old.take rest).length = rest := by
    rw [List.length_take]
    omega
  rw [List.take_length, List.append_assoc, List.drop_left' hl1, List.take_left' rfl]

/-- C29: in every state reached from the empty database, for every offset
`off ≥ 0` and non-empty buffer `b` with `off mod 65536 + len(b) ≤ 65536` whose
end is an `int64`: `WriteAt(b, off)` succeeds; after it `ReadAt` with a buffer
of `len(b)` bytes at `off` returns `len(b)`, no error and the bytes of `b`; and
every byte below the old size and outside the bytes written reads as before. -/
theorem write_then_read (m : memDB) (h : Written false m) (b : Bytes) (off : Nat)
    (hne : b ≠ []) (hfit : off % 65536 + b.length ≤ 65536)
    (hrep : (off : Int) + (b.length : Int) < 2 ^ 63) :
    ∃ m1, memFile.WriteAt m b off = some (m1, b.length, none) ∧
      (∀ buf : Bytes, buf.length = b.length →
        memFile.ReadAt m1 buf off = some ⟨b.length, none, b⟩) ∧
      ∀ p : Nat, (p : Int) < m.size → (p < off ∨ off + b.length ≤ p) → ∀ x,
        ∃ v, memFile.ReadAt m [x] p = some ⟨1, none, [v]⟩ ∧
          memFile.ReadAt m1 [x] p = some ⟨1, none, [v]⟩ := by
  have hinv := dataInv_of_written false m h
  have hrest : off % 65536 < 65536 := Nat.mod_lt _ (by decide)
  have hpos : 0 < b.length := List.length_pos.mpr hne
  obtain ⟨m1, err, hw, herr, hlen, hsz, hsec⟩ := WriteAt_sectors m b off
  have he : err = none := herr.mpr hfit
  subst he
  have hmin : min (65536 - off % 65536) b.length = b.length := by omega
  rw [hmin] at hw hsec
  have hinv1 := dataInv_WriteAt m m1 hinv b off _ _ hw
  have hwrap : wrap64 ((off : Int) + (b.length : Int)) = (off : Int) + (b.length : Int) :=
    wrap64_of_lt _ (by omega) hrep
  rw [hwrap] at hsz
  have h0 := hinv.size_nonneg
  have hle : m.size ≤ ((m.data.length * 65536 : Nat) : Int) := hinv.size_le
  have hsz1 : m.size ≤ m1.size ∧ (off : Int) + (b.length : Int) ≤ m1.size := by
    rw [hsz]
    split_ifs with hc
    · omega
    · have : ¬ (off : Int) + (b.length : Int) > m.size := fun hgt => hc ⟨rfl, hgt⟩
      omega
  have hgetD : ((m.data[off / 65536]?).getD newSector).length = 65536 := by
    by_cases hil : off / 65536 < m.data.length
    · have hx : m.data[off / 65536]? = some m.data[off / 65536] := List.getElem?_eq_getElem hil
      rw [hx]
      exact hinv.sectors _ (mem_of_getElem? _ _ _ hx)
    · rw [List.getElem?_eq_none (by omega)]
      exact length_newSector
  refine ⟨m1, hw, ?_, ?_⟩
  · intro buf hbuf
    obtain ⟨sector, hs, hr⟩ := ReadAt_full m1 hinv1 buf off (by omega) (by omega)
      (by rw [hbuf]; exact hsz1.2)
    rw [hsec _ (by rw [hlen]; omega), if_pos rfl] at hs
    cases hs
    rw [hr, hbuf, drop_take_splice _ b _ (by rw [hgetD]; omega)]
  · intro p hp hout x
    obtain ⟨v, hv, hr⟩ := ReadAt_one m hinv p hp x
    obtain ⟨v1, hv1, hr1⟩ := ReadAt_one m1 hinv1 p (by omega) x
    refine ⟨v, hr, ?_⟩
    have hil : p / 65536 < m.data.length := by omega
    have hold : m.data[p / 65536]? = some m.data[p / 65536] := List.getElem?_eq_getElem hil
    have hl := hinv.sectors _ (mem_of_getElem? _ _ _ hold)
    have hget := hsec (p / 65536) (by rw [hlen]; omega)
    have hsame : m1.byteAt p = m.byteAt p := by
      rw [byteAt_eq m p _ hold]
      by_cases hib : p / 65536 = off / 65536
      · rw [if_pos hib, hold] at hget
        simp only [Option.getD_some] at hget
        rw [byteAt_eq m1 p _ hget,
          getElem?_splice _ _ _ _ _ (by rw [hl]; show _ ≤ 65536; omega) (le_refl _),
          if_neg (by omega)]
      · rw [if_neg hib, if_pos hil, hold] at hget
        rw [byteAt_eq m1 p _ hget]
    rw [hv, hv1] at hsame
    cases hsame
    exact hr1

/-- C29 for three bytes written at the offset 5 of the empty database. -/
theorem write_then_read_witness :
    ([1, 2, 3] : Bytes) ≠ [] ∧ 5 % 65536 + ([1, 2, 3] : Bytes).length ≤ 65536 ∧
    ((5 : Nat) : Int) + (([1, 2, 3] : Bytes).length : Int) < 2 ^ 63 ∧
    ∃ m1, memFile.WriteAt emptyDB [1, 2, 3] (5 : Nat)
        = some (m1, ([1, 2, 3] : Bytes).length, none) ∧
      (∀ buf : Bytes, buf.length = ([1, 2, 3] : Bytes).length →
        memFile.ReadAt m1 buf (5 : Nat) = some ⟨([1, 2, 3] : Bytes).length, none, [1, 2, 3]⟩) :=
  ⟨by decide, by decide, by decide,
   let ⟨m1, h1, h2, _⟩ := write_then_read emptyDB Written.empty [1, 2, 3] 5 (by decide)
     (by decide) (by decide)
   ⟨m1, h1, h2⟩⟩

end memdb

/-! ## C22, C23: `Open` of the memory VFS -/

namespace memdb

open vfs vfs.LockLevel
open sqlite3 (Bytes)

theorem lor_eq_zero (a b : Nat) : a ||| b = 0 ↔ a = 0 ∧ b = 0 := by
  constructor
  · intro h
    have hbit : ∀ i, (a.testBit i || b.testBit i) = false := by
      intro i
      rw [← Nat.testBit_or, h, Nat.zero_testBit]
    constructor
    · apply Nat.eq_of_testBit_eq
      intro i
      have := hbit i
      rw [Bool.or_eq_false_iff] at this
      rw [this.1, Nat.zero_testBit]
    · apply Nat.eq_of_testBit_eq
      intro i
      have := hbit i
      rw [Bool.or_eq_false_iff] at this
      rw [this.2, Nat.zero_testBit]
  · rintro ⟨rfl, rfl⟩
    rfl

theorem find_assign_same (r : Registry) (name : Bytes) (d : Nat) :
    (r.assign name d).find name = some d := by
  induction r with
  | nil => simp [Registry.assign, Registry.find]
  | cons kv r ih =>
    obtain ⟨k, v⟩ := kv
    by_cases hk : k = name
    · simp [Registry.assign, Registry.find, hk]
    · simp [Registry.assign, Registry.find, hk, ih]

theorem find_assign_other (r : Registry) (name other : Bytes) (d : Nat) (h : other ≠ name) :
    (r.assign name d).find other = r.find other := by
  induction r with
  | nil => simp [Registry.assign, Registry.find, h.symm]
  | cons kv r ih =>
    obtain ⟨k, v⟩ := kv
    by_cases hk : k = name
    · subst hk
      simp [Registry.assign, Registry.find, h.symm]
    · by_cases hko : k = other
      · subst hko
        simp [Registry.assign, Registry.find, hk]
      · simp [Registry.assign, Registry.find, hk, hko, ih]

/-- The three ways `Open` can go. -/
theorem Open_cases (p : Process) (name : Bytes) (flags : Nat) :
    (memVFS.Open p name flags = (p, ⟨none, flags, some sqlite3.CANTOPEN⟩) ∧
      (flags &&& (OPEN_MAIN_DB ||| OPEN_TRANSIENT_DB ||| OPEN_TEMP_DB ||| OPEN_TEMP_JOURNAL) = 0 ∨
        ((if isShared name then p.memoryDBs.find (name.drop 1) else none) = none ∧
          flags &&& OPEN_CREATE = 0))) ∨
    (flags &&& (OPEN_MAIN_DB ||| OPEN_TRANSIENT_DB ||| OPEN_TEMP_DB ||| OPEN_TEMP_JOURNAL) ≠ 0 ∧
      (if isShared name then p.memoryDBs.find (name.drop 1) else none) = none ∧
      flags &&& OPEN_CREATE ≠ 0 ∧
      memVFS.Open p name flags =
        (⟨p.heap ++ [emptyDB],
          if isShared name then p.memoryDBs.assign (name.drop 1) p.heap.length
          else p.memoryDBs⟩,
         ⟨some (p.heap.length, ⟨LOCK_NONE, decide (flags &&& OPEN_READONLY ≠ 0)⟩),
          flags ||| OPEN_MEMORY, none⟩)) ∨
    (∃ d, flags &&& (OPEN_MAIN_DB ||| OPEN_TRANSIENT_DB ||| OPEN_TEMP_DB ||| OPEN_TEMP_JOURNAL) ≠ 0 ∧
      isShared name = true ∧ p.memoryDBs.find (name.drop 1) = some d ∧
      memVFS.Open p name flags =
        (⟨p.heap, p.memoryDBs.assign (name.drop 1) d⟩,
         ⟨some (d, ⟨LOCK_NONE, decide (flags &&& OPEN_READONLY ≠ 0)⟩),
          flags ||| OPEN_MEMORY, none⟩)) := by
  unfold memVFS.Open
  dsimp only
  by_cases ht : flags &&& (OPEN_MAIN_DB ||| OPEN_TRANSIENT_DB ||| OPEN_TEMP_DB
      ||| OPEN_TEMP_JOURNAL) = 0
  · rw [if_pos ht]
    exact Or.inl ⟨rfl, Or.inl ht⟩
  · rw [if_neg ht]
    cases hdb : (if isShared name then p.memoryDBs.find (name.drop 1) else none) with
    | none =>
      dsimp only
      by_cases hc : flags &&& OPEN_CREATE = 0
      · rw [if_pos hc]
        exact Or.inl ⟨rfl, Or.inr ⟨rfl, hc⟩⟩
      · rw [if_neg hc]
        exact Or.inr (Or.inl ⟨ht, rfl, hc, rfl⟩)
    | some d =>
      dsimp only
      cases hsh : isShared name with
      | false =>
        rw [hsh] at hdb
        cases hdb
      | true =>
        rw [hsh, if_pos rfl] at hdb
        exact Or.inr (Or.inr ⟨d, ht, rfl, hdb, rfl⟩)

theorem WF_Open (p : Process) (hp : p.WF) (name : Bytes) (flags : Nat) :
    (memVFS.Open p name flags).1.WF := by
  rcases Open_cases p name flags with ⟨h, _⟩ | ⟨_, hn, _, h⟩ | ⟨d, _, hs, hf, h⟩
  · rw [h]
    exact hp
  · rw [h]
    intro k v hk
    dsimp only at hk ⊢
    rw [List.length_append, List.length_singleton]
    by_cases hsh : isShared name = true
    · rw [if_pos hsh] at hk
      by_cases hkn : k = name.drop 1
      · rw [hkn, find_assign_same] at hk
        cases hk
        omega
      · rw [find_assign_other _ _ _ _ hkn] at hk
        have := hp k v hk
        omega
    · rw [if_neg hsh] at hk
      have := hp k v hk
      omega
  · rw [h]
    intro k v hk
    dsimp only at hk ⊢
    by_cases hkn : k = name.drop 1
    · rw [hkn, find_assign_same] at hk
      cases hk
      exact hp _ _ hf
    · rw [find_assign_other _ _ _ _ hkn] at hk
      exact hp k v hk

theorem WF_opens (p : Process) (hp : p.WF) (calls : List (Bytes × Nat)) :
    (p.opens calls).WF := by
  induction calls generalizing p with
  | nil => exact hp
  | cons c rest ih => exact ih _ (WF_Open p hp c.1 c.2)

theorem WF_start : Process.start.WF := by
  intro name d h
  cases h

theorem opens_append (p : Process) (a b : List (Bytes × Nat)) :
    p.opens (a ++ b) = (p.opens a).opens b := by
  induction a generalizing p with
  | nil => rfl
  | cons c rest ih => exact ih _

theorem heap_Open (p : Process) (name : Bytes) (flags : Nat) :
    p.heap.length ≤ (memVFS.Open p name flags).1.heap.length := by
  rcases Open_cases p name flags with ⟨h, _⟩ | ⟨_, _, _, h⟩ | ⟨d, _, _, _, h⟩ <;> rw [h]
  dsimp only
  rw [List.length_append]
  omega

theorem heap_opens (p : Process) (calls : List (Bytes × Nat)) :
    p.heap.length ≤ (p.opens calls).heap.length := by
  induction calls generalizing p with
  | nil => exact le_refl _
  | cons c rest ih => exact le_trans (heap_Open p c.1 c.2) (ih _)

/-- The database of a file that `Open` returns is allocated. -/
theorem file_Open (p : Process) (hp : p.WF) (name : Bytes) (flags : Nat) (g : Nat × memFile)
    (h : (memVFS.Open p name flags).2.file = some g) :
    g.1 < (memVFS.Open p name flags).1.heap.length := by
  rcases Open_cases p name flags with ⟨h1, _⟩ | ⟨_, _, _, h1⟩ | ⟨d, _, _, hf, h1⟩
  · rw [h1] at h
    cases h
  · rw [h1] at h ⊢
    cases h
    dsimp only
    rw [List.length_append, List.length_singleton]
    omega
  · rw [h1] at h ⊢
    cases h
    exact hp _ _ hf

/-- A registered name stays registered, with the same database. -/
theorem find_Open (p : Process) (name : Bytes) (flags : Nat) (k : Bytes) (d : Nat)
    (h : p.memoryDBs.find k = some d) : (memVFS.Open p name flags).1.memoryDBs.find k = some d := by
  rcases Open_cases p name flags with ⟨h1, _⟩ | ⟨_, hn, _, h1⟩ | ⟨d1, _, hs, hf, h1⟩
  · rw [h1]
    exact h
  · rw [h1]
    dsimp only
    by_cases hsh : isShared name = true
    · rw [if_pos hsh] at hn ⊢
      have hkn : k ≠ name.drop 1 := by
        intro e
        rw [e, hn] at h
        cases h
      rw [find_assign_other _ _ _ _ hkn]
      exact h
    · rw [if_neg hsh]
      exact h
  · rw [h1]
    dsimp only
    by_cases hkn : k = name.drop 1
    · rw [hkn] at h ⊢
      rw [find_assign_same, ← hf, h]
    · rw [find_assign_other _ _ _ _ hkn]
      exact h

theorem find_opens (p : Process) (calls : List (Bytes × Nat)) (k : Bytes) (d : Nat)
    (h : p.memoryDBs.find k = some d) : (p.opens calls).memoryDBs.find k = some d := by
  induction calls generalizing p with
  | nil => exact h
  | cons c rest ih => exact ih _ (find_Open p c.1 c.2 k d h)

/-- A database that is allocated and not registered is never registered and
never returned by an `Open`. -/
theorem hidden_Open (p : Process) (d : Nat) (hd : d < p.heap.length)
    (hr : ∀ k, p.memoryDBs.find k ≠ some d) (name : Bytes) (flags : Nat) :
    (∀ k, (memVFS.Open p name flags).1.memoryDBs.find k ≠ some d) ∧
    ∀ g, (memVFS.Open p name flags).2.file = some g → g.1 ≠ d := by
  rcases Open_cases p name flags with ⟨h1, _⟩ | ⟨_, hn, _, h1⟩ | ⟨d1, _, hs, hf, h1⟩
  · rw [h1]
    exact ⟨hr, fun g hg => by cases hg⟩
  · rw [h1]
    dsimp only
    refine ⟨?_, ?_⟩
    · intro k
      by_cases hsh : isShared name = true
      · rw [if_pos hsh]
        by_cases hkn : k = name.drop 1
        · rw [hkn, find_assign_same]
          intro e
          cases e
          omega
        · rw [find_assign_other _ _ _ _ hkn]
          exact hr k
      · rw [if_neg hsh]
        exact hr k
    · intro g hg
      cases hg
      dsimp only
      omega
  · rw [h1]
    dsimp only
    refine ⟨?_, ?_⟩
    · intro k
      by_cases hkn : k = name.drop 1
      · rw [hkn, find_assign_same]
        intro e
        cases e
        exact hr _ hf
      · rw [find_assign_other _ _ _ _ hkn]
        exact hr k
    · intro g hg
      cases hg
      dsimp only
      intro e
      rw [e] at hf
      exact hr _ hf

theorem hidden_opens (p : Process) (d : Nat) (hd : d < p.heap.length)
    (hr : ∀ k, p.memoryDBs.find k ≠ some d) (calls : List (Bytes × Nat)) :
    (p.opens calls).heap.length > d ∧ ∀ k, (p.opens calls).memoryDBs.find k ≠ some d := by
  induction calls generalizing p with
  | nil => exact ⟨hd, hr⟩
  | cons c rest ih =>
    exact ih _ (lt_of_lt_of_le hd (heap_Open p c.1 c.2)) (hidden_Open p d hd hr c.1 c.2).1

/-- C22: in a process whose registry was filled by `Open` calls, let an `Open`
of `name` succeed. If `name` begins with `/`, every later successful `Open` of
the same name, whatever was opened in between, returns a file on the same
database (the same `*memDB`, so data and locks are shared). If it does not, the
database is new and empty, no earlier `Open` returned it, and no later `Open`
of any name returns it. -/
theorem open_sharing (calls later : List (Bytes × Nat)) (name name2 : Bytes)
    (flags flags2 d : Nat) (f : memFile)
    (h : (memVFS.Open (Process.start.opens calls) name flags).2.file = some (d, f)) :
    (isShared name = true → ∀ g,
      (memVFS.Open ((memVFS.Open (Process.start.opens calls) name flags).1.opens later)
        name flags2).2.file = some g → g.1 = d) ∧
    (isShared name = false →
      d = (Process.start.opens calls).heap.length ∧
      (memVFS.Open (Process.start.opens calls) name flags).1.heap[d]? = some emptyDB ∧
      (∀ pre n fl post g, calls = pre ++ (n, fl) :: post →
        (memVFS.Open (Process.start.opens pre) n fl).2.file = some g → g.1 ≠ d) ∧
      (∀ g, (memVFS.Open ((memVFS.Open (Process.start.opens calls) name flags).1.opens later)
        name2 flags2).2.file = some g → g.1 ≠ d)) := by
  have hwf := WF_opens Process.start WF_start calls
  constructor
  · intro hsh g hg
    have hreg : (memVFS.Open (Process.start.opens calls) name flags).1.memoryDBs.find
        (name.drop 1) = some d := by
      rcases Open_cases (Process.start.opens calls) name flags with
        ⟨h1, _⟩ | ⟨_, _, _, h1⟩ | ⟨d1, _, _, _, h1⟩
      · rw [h1] at h
        cases h
      · rw [h1] at h ⊢
        cases h
        dsimp only
        rw [if_pos hsh, find_assign_same]
      · rw [h1] at h ⊢
        cases h
        dsimp only
        rw [find_assign_same]
    have hlater := find_opens _ later _ _ hreg
    rcases Open_cases ((memVFS.Open (Process.start.opens calls) name flags).1.opens later)
        name flags2 with ⟨h1, _⟩ | ⟨_, hn, _, h1⟩ | ⟨d1, _, _, hf, h1⟩
    · rw [h1] at hg
      cases hg
    · rw [if_pos hsh, hlater] at hn
      cases hn
    · rw [h1] at hg
      cases hg
      rw [hlater] at hf
      cases hf
      rfl
  · intro hsh
    rcases Open_cases (Process.start.opens calls) name flags with
      ⟨h1, _⟩ | ⟨_, _, _, h1⟩ | ⟨d1, _, hs, _, h1⟩
    · rw [h1] at h
      cases h
    · have hne : ¬ isShared name = true := by
        rw [hsh]
        decide
      rw [if_neg hne] at h1
      rw [h1] at h ⊢
      cases h
      dsimp only
      have hhid : ∀ k, (Process.start.opens calls).memoryDBs.find k
          ≠ some (Process.start.opens calls).heap.length := by
        intro k e
        exact absurd (hwf k _ e) (lt_irrefl _)
      refine ⟨rfl, ?_, ?_, ?_⟩
      · rw [List.getElem?_append_right (le_refl _)]
        simp
      · intro pre n fl post g hc hg
        have hlt := file_Open _ (WF_opens Process.start WF_start pre) n fl g hg
        have hmono : (memVFS.Open (Process.start.opens pre) n fl).1.heap.length
            ≤ (Process.start.opens calls).heap.length := by
          rw [hc, opens_append]
          exact heap_opens _ post
        omega
      · intro g hg
        have hq := hidden_opens ⟨(Process.start.opens calls).heap ++ [emptyDB],
          (Process.start.opens calls).memoryDBs⟩ (Process.start.opens calls).heap.length
          (by simp) hhid later
        exact (hidden_Open _ _ hq.1 hq.2 name2 flags2).2 g hg
    · rw [hsh] at hs
      cases hs

/-- C22 for the names `/a` and `a`, each opened twice. -/
theorem open_sharing_witness :
    (memVFS.Open (Process.start.opens []) nameShared (OPEN_MAIN_DB ||| OPEN_CREATE)).2.file
        = some (0, ⟨LOCK_NONE, false⟩) ∧
      isShared nameShared = true ∧
      ∀ g, (memVFS.Open ((memVFS.Open (Process.start.opens []) nameShared
          (OPEN_MAIN_DB ||| OPEN_CREATE)).1.opens [(namePrivate, OPEN_MAIN_DB ||| OPEN_CREATE)])
          nameShared OPEN_MAIN_DB).2.file = some g → g.1 = 0 :=
  ⟨rfl, rfl,
   (open_sharing [] [(namePrivate, OPEN_MAIN_DB ||| OPEN_CREATE)] nameShared nameShared
      (OPEN_MAIN_DB ||| OPEN_CREATE) OPEN_MAIN_DB 0 ⟨LOCK_NONE, false⟩ rfl).1 rfl⟩

/-- C23: `Open` fails with `CANTOPEN` and leaves the process as it is when the
flags name none of the types `MAIN_DB`, `TRANSIENT_DB`, `TEMP_DB`,
`TEMP_JOURNAL`, or when no database is found for the name (none is registered
under it, or the name is private) and `CREATE` is not among the flags. In every
other case it succeeds: it returns a file at `LOCK_NONE` that is read-only
exactly when `READONLY` is among the flags, and the flags with `MEMORY` added. -/
theorem open_outcome (p : Process) (name : Bytes) (flags : Nat) :
    ((flags &&& (OPEN_MAIN_DB ||| OPEN_TRANSIENT_DB ||| OPEN_TEMP_DB ||| OPEN_TEMP_JOURNAL) = 0)
      ↔ (flags &&& OPEN_MAIN_DB = 0 ∧ flags &&& OPEN_TRANSIENT_DB = 0 ∧
          flags &&& OPEN_TEMP_DB = 0 ∧ flags &&& OPEN_TEMP_JOURNAL = 0)) ∧
    ((flags &&& (OPEN_MAIN_DB ||| OPEN_TRANSIENT_DB ||| OPEN_TEMP_DB ||| OPEN_TEMP_JOURNAL) = 0 ∨
        ((if isShared name then p.memoryDBs.find (name.drop 1) else none) = none ∧
          flags &&& OPEN_CREATE = 0)) →
      memVFS.Open p name flags = (p, ⟨none, flags, some sqlite3.CANTOPEN⟩)) ∧
    (¬ (flags &&& (OPEN_MAIN_DB ||| OPEN_TRANSIENT_DB ||| OPEN_TEMP_DB ||| OPEN_TEMP_JOURNAL) = 0 ∨
        ((if isShared name then p.memoryDBs.find (name.drop 1) else none) = none ∧
          flags &&& OPEN_CREATE = 0)) →
      ∃ d, (memVFS.Open p name flags).2 =
        ⟨some (d, ⟨LOCK_NONE, decide (flags &&& OPEN_READONLY ≠ 0)⟩),
          flags ||| OPEN_MEMORY, none⟩) := by
  refine ⟨?_, ?_, ?_⟩
  · rw [Nat.and_or_distrib_left, Nat.and_or_distrib_left, Nat.and_or_distrib_left,
      lor_eq_zero, lor_eq_zero, lor_eq_zero]
    constructor
    · rintro ⟨⟨⟨h1, h2⟩, h3⟩, h4⟩
      exact ⟨h1, h2, h3, h4⟩
    · rintro ⟨h1, h2, h3, h4⟩
      exact ⟨⟨⟨h1, h2⟩, h3⟩, h4⟩
  · intro hfail
    rcases Open_cases p name flags with ⟨h1, _⟩ | ⟨ht, hn, hc, _⟩ | ⟨d1, ht, hs, hf, _⟩
    · exact h1
    · rcases hfail with h | h
      · exact absurd h ht
      · exact absurd h.2 hc
    · rcases hfail with h | h
      · exact absurd h ht
      · rw [hs, if_pos rfl, hf] at h
        cases h.1
  · intro hok
    rcases Open_cases p name flags with ⟨_, h1⟩ | ⟨_, _, _, h1⟩ | ⟨d1, _, _, _, h1⟩
    · exact absurd h1 hok
    · exact ⟨_, by rw [h1]⟩
    · exact ⟨_, by rw [h1]⟩

/-- C23 for a read-only `Open` of `/a` in a process where nothing is registered:
it fails. -/
theorem open_outcome_witness :
    ((if isShared nameShared then Process.start.memoryDBs.find (nameShared.drop 1) else none)
        = none ∧ (OPEN_MAIN_DB ||| OPEN_READONLY) &&& OPEN_CREATE = 0) ∧
      memVFS.Open Process.start nameShared (OPEN_MAIN_DB ||| OPEN_READONLY)
        = (Process.start, ⟨none, OPEN_MAIN_DB ||| OPEN_READONLY, some sqlite3.CANTOPEN⟩) :=
  ⟨⟨rfl, by decide⟩,
   (open_outcome Process.start nameShared (OPEN_MAIN_DB ||| OPEN_READONLY)).2.1
     (Or.inr ⟨rfl, by decide⟩)⟩

end memdb

/-! ## C30: the Bloom filter has no false negatives -/

namespace ext

open sqlite3 (Bytes)

theorem and_shift_ne_zero (x k : Nat) : x &&& (1 <<< k) ≠ 0 ↔ x.testBit k = true := by
  rw [Nat.one_shiftLeft]
  constructor
  · intro h
    by_contra hb
    apply h
    apply Nat.eq_of_testBit_eq
    intro i
    rw [Nat.testBit_and, Nat.testBit_two_pow, Nat.zero_testBit]
    by_cases hki : k = i
    · subst hki
      simp [hb]
    · simp [hki]
  · intro hb h
    have := congrArg (fun y => y.testBit k) h
    simp only [Nat.testBit_and, Nat.testBit_two_pow, Nat.zero_testBit, hb] at this
    simp at this

/-- Setting a bit of a byte sets it, and keeps every other bit of the byte. -/
theorem set_bit (v j k : Nat) (hk : k < 8) (h : k = j ∨ v &&& (1 <<< k) ≠ 0) :
    ((v ||| (1 <<< j)) % 256) &&& (1 <<< k) ≠ 0 := by
  rw [and_shift_ne_zero]
  have h256 : (256 : Nat) = 2 ^ 8 := by norm_num
  rw [h256, Nat.testBit_mod_two_pow, Nat.testBit_or, Nat.one_shiftLeft, Nat.testBit_two_pow]
  rcases h with h | h
  · subst h
    simp [hk]
  · rw [and_shift_ne_zero] at h
    simp [hk, h]

theorem position_lt (b : bloom) (siphash : Nat → Nat → Bytes → Nat) (n : Int) (blob : Bytes) :
    (b.position siphash n blob).2 < 8 := by
  unfold bloom.position
  exact Nat.mod_lt _ (by decide)

/-- The loop of `Update` clears no bit. -/
theorem Marked_updateLoop {σ : Type} (db : Blob σ) (law : db.Lawful)
    (siphash : Nat → Nat → Bytes → Nat) (b : bloom) (blob : Bytes) (pos k : Nat) (hk : k < 8)
    (fuel : Nat) (n : Int) (s s1 : σ) (e : Bool)
    (h : updateLoop db siphash b blob fuel n s = some (s1, e)) (hm : Marked db s pos k) :
    Marked db s1 pos k := by
  induction fuel generalizing n s with
  | zero =>
    simp only [updateLoop, Option.some.injEq, Prod.mk.injEq] at h
    rw [← h.1]
    exact hm
  | succ fuel ih =>
    unfold updateLoop at h
    split_ifs at h with hb
    cases hr : db.read s (b.position siphash n blob).1 with
    | none =>
      rw [hr] at h
      simp only [Option.some.injEq, Prod.mk.injEq] at h
      rw [← h.1]
      exact hm
    | some v =>
      rw [hr] at h
      dsimp only at h
      cases hw : db.write s (b.position siphash n blob).1
          ((v ||| (1 <<< (b.position siphash n blob).2)) % 256) with
      | none =>
        rw [hw] at h
        simp only [Option.some.injEq, Prod.mk.injEq] at h
        rw [← h.1]
        exact hm
      | some s2 =>
        rw [hw] at h
        dsimp only at h
        apply ih (n + 1) s2 h
        intro u hu
        have hl := law s _ _ s2 hw pos u hu
        by_cases hp : pos = (b.position siphash n blob).1
        · rw [hl.1 hp]
          apply set_bit _ _ _ hk
          right
          apply hm v
          rw [hp]
          exact hr
        · exact hm u (hl.2 hp)

/-- A loop of `Update` that ends without an error has set the bit of each of
its rounds. -/
theorem updateLoop_marks {σ : Type} (db : Blob σ) (law : db.Lawful)
    (siphash : Nat → Nat → Bytes → Nat) (b : bloom) (blob : Bytes)
    (fuel : Nat) (n : Int) (s s1 : σ)
    (h : updateLoop db siphash b blob fuel n s = some (s1, false)) :
    (0 < fuel → b.bits ≠ 0) ∧
    ∀ i : Nat, i < fuel →
      Marked db s1 (b.position siphash (n + i) blob).1 (b.position siphash (n + i) blob).2 := by
  induction fuel generalizing n s with
  | zero => exact ⟨fun h0 => absurd h0 (lt_irrefl _), fun i hi => absurd hi (Nat.not_lt_zero _)⟩
  | succ fuel ih =>
    have h0 := h
    unfold updateLoop at h
    split_ifs at h with hb
    refine ⟨fun _ => hb, ?_⟩
    cases hr : db.read s (b.position siphash n blob).1 with
    | none =>
      rw [hr] at h
      cases h
    | some v =>
      rw [hr] at h
      dsimp only at h
      cases hw : db.write s (b.position siphash n blob).1
          ((v ||| (1 <<< (b.position siphash n blob).2)) % 256) with
      | none =>
        rw [hw] at h
        cases h
      | some s2 =>
        rw [hw] at h
        dsimp only at h
        intro i hi
        cases i with
        | zero =>
          have hfirst : Marked db s2 (b.position siphash n blob).1
              (b.position siphash n blob).2 := by
            intro u hu
            rw [(law s _ _ s2 hw _ u hu).1 rfl]
            exact set_bit _ _ _ (position_lt b siphash n blob) (Or.inl rfl)
          have := Marked_updateLoop db law siphash b blob _ _ (position_lt b siphash n blob)
            fuel (n + 1) s2 s1 false h hfirst
          simpa using this
        | succ i =>
          have := (ih (n + 1) s2 h).2 i (by omega)
          have e : n + 1 + (i : Int) = n + ((i + 1 : Nat) : Int) := by
            push_cast
            ring
          rw [e] at this
          exact this

/-- The loop of `Filter` over bits that are set ends with `c.eof` false. -/
theorem filterLoop_marked {σ : Type} (db : Blob σ)
    (siphash : Nat → Nat → Bytes → Nat) (b : bloom) (blob : Bytes) (s : σ)
    (fuel : Nat) (n : Int) (hb : 0 < fuel → b.bits ≠ 0)
    (hm : ∀ i : Nat, i < fuel →
      Marked db s (b.position siphash (n + i) blob).1 (b.position siphash (n + i) blob).2) :
    ∃ err, filterLoop db siphash b blob s fuel n false = some (false, err) := by
  induction fuel generalizing n with
  | zero => exact ⟨false, rfl⟩
  | succ fuel ih =>
    unfold filterLoop
    rw [if_neg (hb (Nat.succ_pos _))]
    cases hr : db.read s (b.position siphash n blob).1 with
    | none => exact ⟨true, rfl⟩
    | some v =>
      dsimp only
      have h0 := hm 0 (Nat.succ_pos _) v (by simpa using hr)
      rw [if_neg (by simpa using h0)]
      apply ih (n + 1)
      · intro hf
        exact hb (Nat.succ_pos _)
      · intro i hi
        have := hm (i + 1) (by omega)
        have e : n + 1 + (i : Int) = n + ((i + 1 : Nat) : Int) := by
          push_cast
          ring
        rw [e]
        exact this

theorem Marked_Update {σ : Type} (db : Blob σ) (law : db.Lawful)
    (siphash : Nat → Nat → Bytes → Nat) (b : bloom) (blob : Bytes) (pos k : Nat) (hk : k < 8)
    (s s1 : σ) (e : Bool) (h : b.Update db siphash s true blob = some (s1, e))
    (hm : Marked db s pos k) : Marked db s1 pos k := by
  unfold bloom.Update at h
  simp only [Bool.not_true, Bool.false_eq_true, if_false] at h
  split_ifs at h
  · cases h
    exact hm
  · exact Marked_updateLoop db law siphash b blob pos k hk _ _ s s1 e h hm

theorem Marked_inserts {σ : Type} (db : Blob σ) (law : db.Lawful)
    (siphash : Nat → Nat → Bytes → Nat) (b : bloom) (pos k : Nat) (hk : k < 8)
    (others : List Bytes) (s : σ) (hm : Marked db s pos k) :
    Marked db (b.inserts db siphash s others) pos k := by
  induction others generalizing s with
  | nil => exact hm
  | cons blob rest ih =>
    unfold bloom.inserts
    cases hu : b.Update db siphash s true blob with
    | none => exact ih s hm
    | some r =>
      obtain ⟨s1, e⟩ := r
      exact ih s1 (Marked_Update db law siphash b blob pos k hk s s1 e hu hm)

/-- C30: over a blob that returns what was written to it, for every filter,
whatever its length and its number of hash functions, and every byte string
`w`: once `Update` has inserted `w` without an error, then after any further
insertions, successful or not, a `Filter` called with `w` returns with the
cursor not at end-of-file, whatever the storage held before. -/
theorem no_false_negatives {σ : Type} (db : Blob σ) (law : db.Lawful)
    (siphash : Nat → Nat → Bytes → Nat) (b : bloom) (w : Bytes) (s s1 : σ)
    (others : List Bytes) (eof : Bool)
    (h : b.Update db siphash s true w = some (s1, false)) :
    ∃ err, cursor.Filter b db siphash (b.inserts db siphash s1 others) eof [w]
      = some (false, err) := by
  unfold bloom.Update at h
  simp only [Bool.not_true, Bool.false_eq_true, if_false] at h
  split_ifs at h with ho
  · simp at h
  unfold cursor.Filter
  dsimp only
  by_cases hopen : db.openBlob (b.inserts db siphash s1 others) false = true
  · rw [hopen]
    simp only [Bool.not_true, Bool.false_eq_true, if_false]
    obtain ⟨hb, hm⟩ := updateLoop_marks db law siphash b w _ 0 s s1 h
    apply filterLoop_marked db siphash b w _ _ 0 hb
    intro i hi
    exact Marked_inserts db law siphash b _ _ (position_lt b siphash _ w) others s1 (hm i hi)
  · simp only [Bool.not_eq_true] at hopen
    rw [hopen]
    exact ⟨true, rfl⟩

theorem listBlob_lawful : listBlob.Lawful := by
  intro s pos v s1 hw q u hu
  simp only [listBlob] at hw hu
  split_ifs at hw with hp
  cases hw
  rw [List.getElem?_set] at hu
  constructor
  · intro hq
    subst hq
    rw [if_pos rfl, if_pos hp] at hu
    exact (Option.some.inj hu).symm
  · intro hq
    rw [if_neg (fun e => hq e.symm)] at hu
    exact hu

/-- C30 for a filter of two bytes with three hash functions over a list of
bytes: `[1, 2]` is inserted, then `[5]`, and `[1, 2]` is found. -/
theorem no_false_negatives_witness :
    bloom.Update ⟨2, 3⟩ listBlob sumHash [0, 0] true [1, 2] = some ([10, 4], false) ∧
      ∃ err, cursor.Filter ⟨2, 3⟩ listBlob sumHash
        (bloom.inserts ⟨2, 3⟩ listBlob sumHash [10, 4] [[5]]) true [[1, 2]]
          = some (false, err) :=
  ⟨by decide,
   no_false_negatives listBlob listBlob_lawful sumHash ⟨2, 3⟩ [1, 2] [0, 0] [10, 4] [[5]] true
     (by decide)⟩

end ext

/-! ## C26: `EXCLUSIVE` on an OS file keeps the other handles out -/

namespace vfs

open LockLevel sqlite3

theorem osLock_iff (files : List vfsFile) (i : Nat) (byte : vfsFile → ByteLock)
    (want : ByteLock) :
    osLock files i byte want = true ↔
      ∀ (j : Nat) (g : vfsFile), j ≠ i → files[j]? = some g →
        (byte g).compatible want = true := by
  unfold osLock
  rw [List.all_eq_true]
  constructor
  · intro h j g hji hg
    have hj : j < files.length := by
      by_contra hlt
      rw [List.getElem?_eq_none (by omega)] at hg
      cases hg
    have := h j (List.mem_range.mpr hj)
    simp only [hg, Bool.or_eq_true, decide_eq_true_eq] at this
    rcases this with this | this
    · exact absurd this hji
    · exact this
  · intro h j _
    by_cases hji : j = i
    · simp [hji]
    · cases hg : files[j]? with
      | none => simp
      | some g => simp [h j g hji hg]

theorem apart_unlocked (b : ByteLock) : ByteLock.Apart .unlocked b :=
  ⟨fun h => (by cases h), fun _ => rfl⟩

theorem apart_of_compatible (want held : ByteLock) (hw : want ≠ .unlocked)
    (h : held.compatible want = true) : ByteLock.Apart want held := by
  cases want <;> cases held <;> simp_all [ByteLock.compatible, ByteLock.Apart]

theorem apart_symm (a b : ByteLock) (h : a.Apart b) : b.Apart a := ⟨h.2, h.1⟩

/-- Replacing the handle `i` by one that holds what its level asks for, and
whose locks are as the operating system allows with those of every other
handle, keeps the lock bytes in order. -/
theorem lockBytes_set (files : List vfsFile) (h : LockBytes files) (i : Nat) (f1 : vfsFile)
    (hheld : f1.Held)
    (hp : ∀ (j : Nat) (g : vfsFile), j ≠ i → files[j]? = some g → f1.pending.Apart g.pending)
    (hr : ∀ (j : Nat) (g : vfsFile), j ≠ i → files[j]? = some g → f1.region.Apart g.region) :
    LockBytes (files.set i f1) := by
  have hget : ∀ (j : Nat) (g : vfsFile), (files.set i f1)[j]? = some g →
      (j = i ∧ g = f1) ∨ (j ≠ i ∧ files[j]? = some g) := by
    intro j g hg
    rw [List.getElem?_set] at hg
    by_cases hij : i = j
    · rw [if_pos hij] at hg
      split_ifs at hg
      exact Or.inl ⟨hij.symm, (Option.some.inj hg).symm⟩
    · rw [if_neg hij] at hg
      exact Or.inr ⟨fun e => hij e.symm, hg⟩
  constructor
  · intro j g hg
    rcases hget j g hg with ⟨_, e⟩ | ⟨_, e⟩
    · rw [e]
      exact hheld
    · exact h.held j g e
  · intro a b f g hab hf hg
    rcases hget a f hf with ⟨ea, ef⟩ | ⟨na, ef⟩ <;> rcases hget b g hg with ⟨eb, eg⟩ | ⟨nb, eg⟩
    · exact absurd (ea.trans eb.symm) hab
    · rw [ef]
      exact hp b g nb eg
    · rw [eg]
      exact apart_symm _ _ (hp a f na ef)
    · exact h.pending a b f g hab ef eg
  · intro a b f g hab hf hg
    rcases hget a f hf with ⟨ea, ef⟩ | ⟨na, ef⟩ <;> rcases hget b g hg with ⟨eb, eg⟩ | ⟨nb, eg⟩
    · exact absurd (ea.trans eb.symm) hab
    · rw [ef]
      exact hr b g nb eg
    · rw [eg]
      exact apart_symm _ _ (hr a f na ef)
    · exact h.region a b f g hab ef eg

theorem lockBytes_vfsLock (files files1 : List vfsFile) (h : LockBytes files) (i : Nat)
    (eLock : LockLevel) (rc : ErrorCode) (hl : vfsLock files i eLock = some (files1, rc)) :
    LockBytes files1 := by
  unfold vfsLock at hl
  cases hf : files[i]? with
  | none =>
    rw [hf] at hl
    cases hl
  | some f =>
    rw [hf] at hl
    dsimp only at hl
    have hfh := h.held i f hf
    have hold_p := fun (j : Nat) (g : vfsFile) (hj : j ≠ i) (hg : files[j]? = some g) =>
      h.pending i j f g (fun e => hj e.symm) hf hg
    have hold_r := fun (j : Nat) (g : vfsFile) (hj : j ≠ i) (hg : files[j]? = some g) =>
      h.region i j f g (fun e => hj e.symm) hf hg
    by_cases hle : eLock ≤ f.lock
    · rw [if_pos hle] at hl
      cases hl
      exact h
    · rw [if_neg hle] at hl
      obtain ⟨l, p, r, s⟩ := f
      cases l <;> cases eLock <;> simp only [reduceCtorEq] at hl
      · -- NONE → SHARED
        split_ifs at hl with h1 h2
        · cases hl
          exact h
        · cases hl
          exact h
        · cases hl
          have h2b : osLock files i (·.region) .shared = true := by simpa using h2
          rw [osLock_iff] at h2b
          apply lockBytes_set files h
          · simp only [vfsFile.Held] at hfh ⊢
            simp [hfh.1, hfh.2.1]
          · exact hold_p
          · intro j g hj hg
            exact apart_of_compatible .shared g.region (by decide) (h2b j g hj hg)
      · -- SHARED → RESERVED
        split_ifs at hl with h1
        · cases hl
          exact h
        · cases hl
          apply lockBytes_set files h
          · simp only [vfsFile.Held] at hfh ⊢
            simp [hfh.1, hfh.2.2]
          · exact hold_p
          · exact hold_r
      · -- RESERVED → EXCLUSIVE
        split_ifs at hl with h1 h2
        · cases hl
          exact h
        · cases hl
          have h1b : osLock files i (·.pending) .exclusive = true := by simpa using h1
          rw [osLock_iff] at h1b
          apply lockBytes_set files h
          · simp only [vfsFile.Held] at hfh ⊢
            simp [hfh.2.1, hfh.2.2]
          · intro j g hj hg
            exact apart_of_compatible .exclusive g.pending (by decide) (h1b j g hj hg)
          · exact hold_r
        · cases hl
          have h1b : osLock files i (·.pending) .exclusive = true := by simpa using h1
          have h2b : osLock files i (·.region) .exclusive = true := by simpa using h2
          rw [osLock_iff] at h1b h2b
          apply lockBytes_set files h
          · simp only [vfsFile.Held] at hfh ⊢
            simp [hfh.2.1]
          · intro j g hj hg
            exact apart_of_compatible .exclusive g.pending (by decide) (h1b j g hj hg)
          · intro j g hj hg
            exact apart_of_compatible .exclusive g.region (by decide) (h2b j g hj hg)

theorem lockBytes_vfsUnlock (files files1 : List vfsFile) (h : LockBytes files) (i : Nat)
    (eLock : LockLevel) (rc : ErrorCode) (hl : vfsUnlock files i eLock = some (files1, rc)) :
    LockBytes files1 := by
  unfold vfsUnlock at hl
  cases hf : files[i]? with
  | none =>
    rw [hf] at hl
    cases hl
  | some f =>
    rw [hf] at hl
    dsimp only at hl
    cases eLock <;> simp only [reduceCtorEq] at hl
    · cases hl
      apply lockBytes_set files h
      · exact ⟨rfl, rfl, rfl⟩
      · intro j g _ _
        exact apart_unlocked _
      · intro j g _ _
        exact apart_unlocked _
    · split_ifs at hl with he
      cases hl
      have hfh := h.held i f hf
      simp only [vfsFile.Held, he] at hfh
      apply lockBytes_set files h
      · exact ⟨rfl, rfl, rfl⟩
      · intro j g _ _
        exact apart_unlocked _
      · intro j g hj hg
        have := (h.region i j f g (fun e => hj e.symm) hf hg).1 hfh.2.2
        rw [this]
        exact apart_symm _ _ (apart_unlocked _)

theorem lockBytes_opened (n : Nat) : LockBytes (List.replicate n vfsFile.fresh) := by
  have hget : ∀ (i : Nat) (f : vfsFile), (List.replicate n vfsFile.fresh)[i]? = some f →
      f = vfsFile.fresh := by
    intro i f hf
    rw [List.getElem?_replicate] at hf
    split_ifs at hf
    exact (Option.some.inj hf).symm
  constructor
  · intro i f hf
    rw [hget i f hf]
    exact ⟨rfl, rfl, rfl⟩
  · intro i j f g _ hf _
    rw [hget i f hf]
    exact apart_unlocked _
  · intro i j f g _ hf _
    rw [hget i f hf]
    exact apart_unlocked _

/-- After any calls the lock bytes are in order. -/
theorem lockBytes_of_locked (files : List vfsFile) (h : Locked files) : LockBytes files := by
  induction h with
  | opened n => exact lockBytes_opened n
  | lock i eLock _ hl ih => exact lockBytes_vfsLock _ _ ih i eLock _ hl
  | unlock i eLock _ hl ih => exact lockBytes_vfsUnlock _ _ ih i eLock _ hl

/-- A handle whose shared region is not locked is at `NONE`. -/
theorem lock_none_of_region (f : vfsFile) (h : f.Held) (hr : f.region = .unlocked) :
    f.lock = LOCK_NONE := by
  obtain ⟨l, p, r, s⟩ := f
  cases l <;> simp_all [vfsFile.Held]

/-- C26: among the handles of one OS-file database, after any calls of `Lock`
and `Unlock`: when the handle `a` is at `EXCLUSIVE`, every other handle `b` is
at `NONE`, `Lock(SHARED)` of `b` gives `BUSY` and changes nothing, so that `b`
stays at `NONE`; `Unlock(SHARED)` of `a` succeeds and leaves `a` at `SHARED`,
and the `Lock(SHARED)` of `b` that follows succeeds and leaves `b` at
`SHARED`. -/
theorem exclusive_excludes (files : List vfsFile) (h : Locked files) (a b : Nat)
    (A B : vfsFile) (hab : a ≠ b) (hA : files[a]? = some A) (hB : files[b]? = some B)
    (hx : A.lock = LOCK_EXCLUSIVE) :
    B.lock = LOCK_NONE ∧
    vfsLock files b LOCK_SHARED = some (files, BUSY) ∧
    ∃ files1, vfsUnlock files a LOCK_SHARED = some (files1, _OK) ∧
      files1[a]?.map (·.lock) = some LOCK_SHARED ∧
      ∃ files2, vfsLock files1 b LOCK_SHARED = some (files2, _OK) ∧
        files2[b]?.map (·.lock) = some LOCK_SHARED ∧
        files2[a]?.map (·.lock) = some LOCK_SHARED := by
  have inv := lockBytes_of_locked files h
  have hAh := inv.held a A hA
  obtain ⟨la, pa, ra, sa⟩ := A
  simp only at hx
  subst hx
  simp only [vfsFile.Held] at hAh
  obtain ⟨hpa, _, hsa⟩ := hAh
  subst hpa hsa
  have hother : ∀ (j : Nat) (g : vfsFile), j ≠ a → files[j]? = some g →
      g.pending = .unlocked ∧ g.region = .unlocked := fun j g hj hg =>
    ⟨(inv.pending a j _ g (fun e => hj e.symm) hA hg).1 rfl,
     (inv.region a j _ g (fun e => hj e.symm) hA hg).1 rfl⟩
  have hBl := lock_none_of_region B (inv.held b B hB) (hother b B (fun e => hab e.symm) hB).2
  have hla : a < files.length := by
    by_contra hlt
    rw [List.getElem?_eq_none (by omega)] at hA
    cases hA
  have hlb : b < files.length := by
    by_contra hlt
    rw [List.getElem?_eq_none (by omega)] at hB
    cases hB
  obtain ⟨lb, pb, rb, sb⟩ := B
  simp only at hBl
  subst hBl
  refine ⟨rfl, ?_, ?_⟩
  · have hbusy : osLock files b (·.pending) .shared = false := by
      cases ho : osLock files b (·.pending) .shared with
      | false => rfl
      | true =>
        rw [osLock_iff] at ho
        have := ho a _ hab hA
        simp [ByteLock.compatible] at this
    unfold vfsLock
    rw [hB]
    dsimp only
    rw [if_neg (by decide)]
    simp only [hbusy, Bool.not_false, if_true]
  · refine ⟨files.set a ⟨LOCK_SHARED, .unlocked, .unlocked, .shared⟩, ?_, ?_, ?_⟩
    · unfold vfsUnlock
      rw [hA]
      rfl
    · rw [List.getElem?_set, if_pos rfl, if_pos hla]
      rfl
    · have hB1 : (files.set a ⟨LOCK_SHARED, .unlocked, .unlocked, .shared⟩)[b]?
          = some ⟨LOCK_NONE, pb, rb, sb⟩ := by
        rw [List.getElem?_set, if_neg hab]
        exact hB
      have hget : ∀ (j : Nat) (g : vfsFile),
          (files.set a ⟨LOCK_SHARED, .unlocked, .unlocked, .shared⟩)[j]? = some g →
          g.pending = .unlocked ∧ g.region ≠ .exclusive := by
        intro j g hg
        rw [List.getElem?_set] at hg
        by_cases haj : a = j
        · rw [if_pos haj] at hg
          split_ifs at hg
          cases hg
          exact ⟨rfl, by decide⟩
        · rw [if_neg haj] at hg
          have := hother j g (fun e => haj e.symm) hg
          refine ⟨this.1, ?_⟩
          rw [this.2]
          decide
      have hp1 : osLock (files.set a ⟨LOCK_SHARED, .unlocked, .unlocked, .shared⟩) b
          (·.pending) .shared = true := by
        rw [osLock_iff]
        intro j g _ hg
        simp [ByteLock.compatible, (hget j g hg).1]
      have hr1 : osLock (files.set a ⟨LOCK_SHARED, .unlocked, .unlocked, .shared⟩) b
          (·.region) .shared = true := by
        rw [osLock_iff]
        intro j g _ hg
        simpa [ByteLock.compatible] using (hget j g hg).2
      refine ⟨(files.set a ⟨LOCK_SHARED, .unlocked, .unlocked, .shared⟩).set b
          ⟨LOCK_SHARED, pb, rb, .shared⟩, ?_, ?_, ?_⟩
      · unfold vfsLock
        rw [hB1]
        dsimp only
        rw [if_neg (by decide)]
        simp only [hp1, hr1, Bool.not_true, Bool.false_eq_true, if_false]
      · rw [List.getElem?_set, if_pos rfl, if_pos (by rw [List.length_set]; exact hlb)]
        rfl
      · rw [List.getElem?_set, if_neg (fun e => hab e.symm), List.getElem?_set, if_pos rfl,
          if_pos hla]
        rfl

/-- C26 on the two handles of the test: the second is at `EXCLUSIVE`, the first
asks for `SHARED`. -/
theorem exclusive_excludes_witness :
    vfsLock secondExclusive 0 LOCK_SHARED = some (secondExclusive, BUSY) ∧
    ∃ files1, vfsUnlock secondExclusive 1 LOCK_SHARED = some (files1, _OK) ∧
      files1[1]?.map (·.lock) = some LOCK_SHARED ∧
      ∃ files2, vfsLock files1 0 LOCK_SHARED = some (files2, _OK) ∧
        files2[0]?.map (·.lock) = some LOCK_SHARED ∧
        files2[1]?.map (·.lock) = some LOCK_SHARED :=
  (exclusive_excludes secondExclusive
    (Locked.lock 1 LOCK_EXCLUSIVE
      (Locked.lock 1 LOCK_RESERVED
        (Locked.lock 1 LOCK_SHARED (Locked.opened 2)
          (show vfsLock (List.replicate 2 vfsFile.fresh) 1 LOCK_SHARED = some (_, _OK) from rfl))
        (show vfsLock _ 1 LOCK_RESERVED = some (_, _OK) from rfl))
      (show vfsLock _ 1 LOCK_EXCLUSIVE = some (secondExclusive, _OK) from rfl))
    1 0 ⟨LOCK_EXCLUSIVE, .exclusive, .exclusive, .exclusive⟩ vfsFile.fresh (by decide) rfl rfl
    rfl).2

end vfs

/-! ## C25: the handshake of `SetInterrupt` with its interrupter -/

namespace sqlite3

theorem getElem?_set_cases {α : Type} (l : List α) (i j : Nat) (x t : α)
    (h : (l.set i x)[j]? = some t) : (j = i ∧ t = x) ∨ (j ≠ i ∧ l[j]? = some t) := by
  rw [List.getElem?_set] at h
  by_cases hij : i = j
  · rw [if_pos hij] at h
    split_ifs at h
    exact Or.inl ⟨hij.symm, (Option.some.inj h).symm⟩
  · rw [if_neg hij] at h
    exact Or.inr ⟨fun e => hij e.symm, h⟩

/-- The record of the calls when a call is entered. -/
theorem record_enter (calls olds : List (Option Nat)) (done0 d : Option Nat)
    (hret : olds = (none :: calls).take olds.length)
    (hcur : (none :: calls)[olds.length]? = some done0)
    (hlen : olds.length = calls.length) :
    olds = (none :: (calls ++ [d])).take olds.length ∧
    (none :: (calls ++ [d]))[olds.length]? = some done0 ∧
    calls ++ [d] = (calls ++ [d]).take olds.length ++ [d] ∧
    (calls ++ [d]).take olds.length = calls.take olds.length := by
  have e : none :: (calls ++ [d]) = (none :: calls) ++ [d] := rfl
  refine ⟨?_, ?_, ?_, ?_⟩
  · rw [e, List.take_append_of_le_length (by simp; omega)]
    exact hret
  · rw [e, List.getElem?_append_left (by simp; omega)]
    exact hcur
  · rw [hlen, List.take_left']
    rfl
  · rw [hlen, List.take_left' rfl, List.take_length]

/-- The record of the calls when a call returns. -/
theorem record_return (calls olds : List (Option Nat)) (done0 d : Option Nat)
    (hret : olds = (none :: calls).take olds.length)
    (hcur : (none :: calls)[olds.length]? = some done0)
    (hpen : calls = calls.take olds.length ++ [d]) :
    olds ++ [done0] = (none :: calls).take (olds.length + 1) ∧
    (none :: calls)[olds.length + 1]? = some d ∧
    olds.length + 1 = calls.length ∧
    calls.take (olds.length + 1) = calls.take olds.length ++ [d] := by
  have hn : olds.length ≤ calls.length := by
    by_contra hlt
    rw [List.getElem?_eq_none (by simp; omega)] at hcur
    cases hcur
  have hlen : olds.length + 1 = calls.length := by
    have := congrArg List.length hpen
    rw [List.length_append, List.length_take, min_eq_left hn] at this
    simp at this
    omega
  refine ⟨?_, ?_, hlen, ?_⟩
  · rw [List.take_succ, hcur, ← hret]
    rfl
  · rw [List.getElem?_cons_succ]
    have hd : calls[olds.length]? = (calls.take olds.length ++ [d])[olds.length]? := by
      rw [← hpen]
    rw [hd, List.getElem?_append_right (by simp)]
    simp [min_eq_left hn]
  · rw [hlen, List.take_length]
    exact hpen

theorem handshake_start : Handshake Sys.start := by
  constructor <;> simp [Sys.start]

/-- The end of `SetInterrupt`, with no interrupter left, keeps the handshake. -/
theorem handshake_install (s : Sys) (d : Option Nat) (hw : s.waiter = none)
    (hfin : ∀ (i : Nat) (t : Interrupter), s.tasks[i]? = some t → t = .finished)
    (hret : s.olds = (none :: s.calls).take s.olds.length)
    (hcur : (none :: s.calls)[s.olds.length]? = some s.done)
    (hpen : s.calls = s.calls.take s.olds.length ++ [d])
    (hst : s.tasks.length = ((s.calls.take s.olds.length).filter Option.isSome).length) :
    Handshake (s.install d) := by
  obtain ⟨done0, waiter, tasks, pc, calls, olds⟩ := s
  simp only at hw hfin hret hcur hpen hst
  subst hw
  obtain ⟨r1, r2, r3, r4⟩ := record_return calls olds done0 d hret hcur hpen
  cases d with
  | none =>
    simp only [Sys.install]
    constructor
    · intro i t hi hne
      exact absurd (hfin i t hi) hne
    · intro w hw
      cases hw
    · intro w t hw
      cases hw
    · intro h
      exact absurd rfl h
    · intro _
      exact ⟨fun _ => rfl, fun _ => rfl⟩
    · simpa using r1
    · simpa using r2
    · intro _
      simpa using r3
    · intro done h
      rcases h with h | h <;> cases h
    · simp only [List.length_append, List.length_singleton, r4, List.filter_append]
      simpa using hst
  | some x =>
    simp only [Sys.install]
    constructor
    · intro i t hi hne
      have hi1 : (tasks ++ [Interrupter.selecting])[i]? = some t := hi
      by_cases hlt : i < tasks.length
      · rw [List.getElem?_append_left hlt] at hi1
        exact absurd (hfin i t hi1) hne
      · have hi2 : i < (tasks ++ [Interrupter.selecting]).length := by
          by_contra hge
          rw [List.getElem?_eq_none (by omega)] at hi1
          cases hi1
        simp only [List.length_append, List.length_singleton] at hi2
        have : i = tasks.length := by omega
        rw [this]
    · intro w hw
      cases hw
      simp
    · intro w t hw hi
      cases hw
      simp only [List.getElem?_concat_length] at hi
      cases hi
      refine ⟨by decide, ?_⟩
      constructor
      · intro h
        cases h
      · rintro ⟨done, h⟩
        cases h
    · intro h
      exact absurd rfl h
    · intro _
      constructor <;> intro h <;> cases h
    · simpa using r1
    · simpa using r2
    · intro _
      simpa using r3
    · intro done h
      rcases h with h | h <;> cases h
    · simp only [List.length_append, List.length_singleton, r4, List.filter_append]
      simp [hst]

/-- A step of the interrupter that leaves it in its `select` statements or at
its call keeps the handshake. -/
theorem handshake_move (s : Sys) (h : Handshake s) (i : Nat) (t0 t1 : Interrupter)
    (hi : s.tasks[i]? = some t0)
    (h0 : t0 ≠ .finished ∧ t0 ≠ .acknowledging) (h1 : t1 ≠ .finished ∧ t1 ≠ .acknowledging) :
    Handshake { s with tasks := s.tasks.set i t1 } := by
  have hwi := h.others i t0 hi h0.1
  have hnot : ¬ ∃ done, s.pc = .awaiting done := fun hex =>
    h0.2 ((h.live i t0 hwi hi).2.mpr hex)
  constructor
  · intro j t hj hne
    rcases getElem?_set_cases _ _ _ _ _ hj with ⟨e, _⟩ | ⟨_, e⟩
    · rw [e]
      exact hwi
    · exact h.others j t e hne
  · intro w hw
    rw [List.length_set]
    exact h.last w hw
  · intro w t hw hj
    rcases getElem?_set_cases _ _ _ _ _ hj with ⟨_, e⟩ | ⟨_, e⟩
    · rw [e]
      exact ⟨h1.1, fun hx => absurd hx h1.2, fun hx => absurd hx hnot⟩
    · exact h.live w t hw e
  · exact h.inside
  · exact h.outside
  · exact h.returned
  · exact h.current
  · exact h.complete
  · exact h.pending
  · rw [List.length_set]
    exact h.started

/-- Every step keeps the handshake. -/
theorem handshake_step (s s1 : Sys) (h : Handshake s) (e : Event) (hs : s.step e = some s1) :
    Handshake s1 := by
  cases e with
  | SetInterrupt d =>
    obtain ⟨done0, waiter, tasks, pc, calls, olds⟩ := s
    cases pc with
    | idle =>
      obtain ⟨r1, r2, r3, r4⟩ := record_enter calls olds done0 d h.returned h.current
        (h.complete rfl)
      cases waiter with
      | none =>
        simp only [Sys.step, Option.some.injEq] at hs
        rw [← hs]
        apply handshake_install
        · rfl
        · intro i t hi
          by_contra hne
          have := h.others i t hi hne
          cases this
        · exact r1
        · exact r2
        · exact r3
        · simp only [r4]
          exact h.started
      | some w =>
        simp only [Sys.step, Option.some.injEq] at hs
        rw [← hs]
        constructor
        · exact h.others
        · exact h.last
        · intro w1 t hw ht
          refine ⟨(h.live w1 t hw ht).1, ?_⟩
          constructor
          · intro ha
            obtain ⟨_, hx⟩ := (h.live w1 t hw ht).2.mp ha
            cases hx
          · rintro ⟨_, hx⟩
            cases hx
        · intro _ hx
          cases hx
        · intro hx
          cases hx
        · exact r1
        · exact r2
        · intro hx
          cases hx
        · intro done hx
          rcases hx with hx | hx <;> cases hx
          exact r3
        · simp only [r4]
          exact h.started
    | cancelling _ => simp [Sys.step] at hs
    | awaiting _ => simp [Sys.step] at hs
  | proceed =>
    obtain ⟨done0, waiter, tasks, pc, calls, olds⟩ := s
    cases pc with
    | idle => simp [Sys.step] at hs
    | cancelling d =>
      cases waiter with
      | none => simp [Sys.step] at hs
      | some w =>
        have key : ∀ t0, tasks[w]? = some t0 →
            Handshake ⟨done0, some w, tasks.set w .acknowledging, .awaiting d, calls, olds⟩ := by
          intro t0 ht0
          constructor
          · intro j t hj hne
            rcases getElem?_set_cases _ _ _ _ _ hj with ⟨e, _⟩ | ⟨_, e⟩
            · rw [e]
            · exact h.others j t e hne
          · intro w1 hw
            rw [List.length_set]
            exact h.last w1 hw
          · intro w1 t hw hj
            cases hw
            rcases getElem?_set_cases _ _ _ _ _ hj with ⟨_, e⟩ | ⟨e, _⟩
            · rw [e]
              exact ⟨by decide, fun _ => ⟨d, rfl⟩, fun _ => rfl⟩
            · exact absurd rfl e
          · intro _ hx
            cases hx
          · intro hx
            cases hx
          · exact h.returned
          · exact h.current
          · intro hx
            cases hx
          · intro done hx
            rcases hx with hx | hx <;> cases hx
            exact h.pending d (Or.inl rfl)
          · rw [List.length_set]
            exact h.started
        simp only [Sys.step] at hs
        cases ht : tasks[w]? with
        | none => simp [ht] at hs
        | some t0 =>
          rw [ht] at hs
          cases t0 <;> simp only [Option.some.injEq, reduceCtorEq] at hs
          · rw [← hs]
            exact key _ ht
          · rw [← hs]
            exact key _ ht
    | awaiting d =>
      cases waiter with
      | none => simp [Sys.step] at hs
      | some w =>
        simp only [Sys.step] at hs
        cases ht : tasks[w]? with
        | none => simp [ht] at hs
        | some t0 =>
          rw [ht] at hs
          cases t0 <;> simp only [Option.some.injEq, reduceCtorEq] at hs
          rw [← hs]
          apply handshake_install
          · rfl
          · intro j t hj
            rcases getElem?_set_cases _ _ _ _ _ hj with ⟨_, e⟩ | ⟨hne, e⟩
            · exact e
            · by_contra hnf
              have := h.others j t e hnf
              cases this
              exact hne rfl
          · exact h.returned
          · exact h.current
          · exact h.pending d (Or.inr rfl)
          · simp only [List.length_set]
            exact h.started
  | closed i =>
    simp only [Sys.step] at hs
    cases ht : s.tasks[i]? with
    | none => simp [ht] at hs
    | some t0 =>
      rw [ht] at hs
      cases t0 <;> simp only [Option.some.injEq, reduceCtorEq] at hs
      rw [← hs]
      exact handshake_move s h i _ _ ht ⟨by decide, by decide⟩ ⟨by decide, by decide⟩
  | interrupted i =>
    simp only [Sys.step] at hs
    cases ht : s.tasks[i]? with
    | none => simp [ht] at hs
    | some t0 =>
      rw [ht] at hs
      cases t0 <;> simp only [Option.some.injEq, reduceCtorEq] at hs
      rw [← hs]
      exact handshake_move s h i _ _ ht ⟨by decide, by decide⟩ ⟨by decide, by decide⟩
  | tick i =>
    simp only [Sys.step] at hs
    cases ht : s.tasks[i]? with
    | none => simp [ht] at hs
    | some t0 =>
      rw [ht] at hs
      cases t0 <;> simp only [Option.some.injEq, reduceCtorEq] at hs
      rw [← hs]
      exact handshake_move s h i _ _ ht ⟨by decide, by decide⟩ ⟨by decide, by decide⟩

theorem handshake_of_runs (s : Sys) (h : Runs s) : Handshake s := by
  induction h with
  | start => exact handshake_start
  | step e _ hs ih => exact handshake_step _ _ ih e hs

theorem runs_of_run (es : List Event) (s s1 : Sys) (h : Runs s) (hr : s.run es = some s1) :
    Runs s1 := by
  induction es generalizing s with
  | nil =>
    simp only [Sys.run, Option.some.injEq] at hr
    rw [← hr]
    exact h
  | cons e es ih =>
    simp only [Sys.run] at hr
    cases hs : s.step e with
    | none => simp [hs] at hr
    | some s2 =>
      rw [hs] at hr
      exact ih s2 (Runs.step e h hs) hr

theorem install_returns (s : Sys) (d : Option Nat) :
    (s.install d).pc = .idle ∧ (s.install d).olds = s.olds ++ [s.done] ∧
      (s.install d).calls = s.calls := by
  cases d <;> exact ⟨rfl, rfl, rfl⟩

/-- The receive `<-c.waiter` takes the acknowledgement, and the call returns. -/
theorem awaiting_returns (done0 : Option Nat) (w : Nat) (tasks : List Interrupter)
    (d : Option Nat) (calls olds : List (Option Nat))
    (ht : tasks[w]? = some .acknowledging) :
    ∃ s1, Sys.step ⟨done0, some w, tasks, .awaiting d, calls, olds⟩ .proceed = some s1 ∧
      s1.pc = .idle ∧ s1.olds = olds ++ [done0] ∧ s1.calls = calls := by
  refine ⟨Sys.install ⟨done0, none, tasks.set w .finished, .awaiting d, calls, olds⟩ d, ?_,
    install_returns _ d⟩
  simp only [Sys.step, ht]

/-- The send `c.waiter <- struct{}{}` is taken by an interrupter in one of its
`select` statements, and then the call returns. -/
theorem cancelling_returns (done0 : Option Nat) (w : Nat) (tasks : List Interrupter)
    (d : Option Nat) (calls olds : List (Option Nat)) (t : Interrupter)
    (ht : tasks[w]? = some t) (hsel : t = .selecting ∨ t = .waiting) :
    ∃ s1, Sys.run ⟨done0, some w, tasks, .cancelling d, calls, olds⟩ [.proceed, .proceed]
        = some s1 ∧
      s1.pc = .idle ∧ s1.olds = olds ++ [done0] ∧ s1.calls = calls := by
  have hw : w < tasks.length := by
    by_contra hlt
    rw [List.getElem?_eq_none (by omega)] at ht
    cases ht
  have hack : (tasks.set w Interrupter.acknowledging)[w]? = some .acknowledging := by
    rw [List.getElem?_set, if_pos rfl, if_pos hw]
  obtain ⟨s1, h1, h2⟩ := awaiting_returns done0 w _ d calls olds hack
  refine ⟨s1, ?_, h2⟩
  have hstep : Sys.step ⟨done0, some w, tasks, .cancelling d, calls, olds⟩ .proceed
      = some ⟨done0, some w, tasks.set w .acknowledging, .awaiting d, calls, olds⟩ := by
    rcases hsel with e | e <;> subst e <;> simp only [Sys.step, ht]
  simp only [Sys.run, hstep, h1]

/-- A call that stands at a channel operation can go on to its return. -/
theorem call_returns (s : Sys) (h : Handshake s) (hpc : s.pc ≠ .idle) :
    ∃ es s1, es.length ≤ 3 ∧ (∀ e ∈ es, ∀ d, e ≠ .SetInterrupt d) ∧ s.run es = some s1 ∧
      s1.pc = .idle ∧ s1.olds = s.olds ++ [s.done] ∧ s1.calls = s.calls := by
  obtain ⟨w, hw⟩ := Option.ne_none_iff_exists'.mp (h.inside hpc)
  have hlen := h.last w hw
  obtain ⟨t, ht⟩ : ∃ t, s.tasks[w]? = some t :=
    ⟨s.tasks[w], List.getElem?_eq_getElem (by omega)⟩
  have hlive := h.live w t hw ht
  obtain ⟨done0, waiter, tasks, pc, calls, olds⟩ := s
  simp only at hw ht hlive hpc hlen
  subst hw
  cases pc with
  | idle => exact absurd rfl hpc
  | awaiting d =>
    have hack : t = .acknowledging := hlive.2.mpr ⟨d, rfl⟩
    subst hack
    obtain ⟨s1, h1, h2⟩ := awaiting_returns done0 w tasks d calls olds ht
    refine ⟨[.proceed], s1, by decide, ?_, ?_, h2⟩
    · intro e he d1
      simp only [List.mem_singleton] at he
      rw [he]
      exact fun hx => (by cases hx)
    · simp only [Sys.run, h1]
  | cancelling d =>
    have hnack : t ≠ .acknowledging := fun hx => by
      obtain ⟨_, hy⟩ := hlive.2.mp hx
      cases hy
    by_cases hint : t = .interrupting
    · subst hint
      have hwl : w < tasks.length := by omega
      have hwait : (tasks.set w Interrupter.waiting)[w]? = some .waiting := by
        rw [List.getElem?_set, if_pos rfl, if_pos hwl]
      obtain ⟨s1, h1, h2⟩ := cancelling_returns done0 w _ d calls olds _ hwait (Or.inr rfl)
      refine ⟨[.interrupted w, .proceed, .proceed], s1, le_refl 3, ?_, ?_, h2⟩
      · intro e he d1
        simp only [List.mem_cons, List.mem_singleton, List.not_mem_nil, or_false] at he
        rcases he with he | he | he <;> rw [he] <;> exact fun hx => (by cases hx)
      · have hstep : Sys.step ⟨done0, some w, tasks, .cancelling d, calls, olds⟩
            (.interrupted w)
            = some ⟨done0, some w, tasks.set w .waiting, .cancelling d, calls, olds⟩ := by
          simp only [Sys.step, ht]
        rw [Sys.run, hstep]
        exact h1
    · have hsel : t = .selecting ∨ t = .waiting := by
        have := hlive.1
        cases t <;> simp_all
      obtain ⟨s1, h1, h2⟩ := cancelling_returns done0 w tasks d calls olds t ht hsel
      refine ⟨[.proceed, .proceed], s1, by decide, ?_, h1, h2⟩
      intro e he d1
      simp only [List.mem_cons, List.mem_singleton, List.not_mem_nil, or_false] at he
      rcases he with he | he <;> rw [he] <;> exact fun hx => (by cases hx)

/-- C25: in every state that a connection and its interrupter goroutines go
through, with `SetInterrupt` entered only by a caller that is not inside of
it. The values that the calls returned are nil for the first and, for each
later one, the signal given to the call before it. At most one interrupter is
not finished. When no call is under way every call has returned, every
interrupter but the last one started has sent its acknowledgement, and all of
them have when the signal of the last call is nil. As many interrupters were
started as calls with a signal that is not nil got to their end. A call that
is under way is not stuck: in at most three steps of itself and its
interrupter it returns the signal that was installed. -/
theorem interrupter_handshake (s : Sys) (h : Runs s) :
    s.olds = (none :: s.calls).take s.olds.length ∧
    (∀ (i j : Nat) (ti tj : Interrupter), s.tasks[i]? = some ti → s.tasks[j]? = some tj →
      ti ≠ .finished → tj ≠ .finished → i = j) ∧
    (s.pc = .idle →
      s.olds.length = s.calls.length ∧
      (∀ (i : Nat) (t : Interrupter), s.tasks[i]? = some t → i + 1 < s.tasks.length →
        t = .finished) ∧
      (s.calls.getLast? = some none → ∀ t ∈ s.tasks, t = .finished)) ∧
    s.tasks.length = ((s.calls.take s.olds.length).filter Option.isSome).length ∧
    (s.pc ≠ .idle →
      ∃ es s1, es.length ≤ 3 ∧ (∀ e ∈ es, ∀ d, e ≠ .SetInterrupt d) ∧ s.run es = some s1 ∧
        s1.pc = .idle ∧ s1.olds = s.olds ++ [s.done] ∧ s1.calls = s.calls) := by
  have inv := handshake_of_runs s h
  refine ⟨inv.returned, ?_, ?_, inv.started, call_returns s inv⟩
  · intro i j ti tj hi hj hni hnj
    have h1 := inv.others i ti hi hni
    have h2 := inv.others j tj hj hnj
    rw [h1] at h2
    exact Option.some.inj h2
  · intro hidle
    refine ⟨inv.complete hidle, ?_, ?_⟩
    · intro i t hi hlt
      by_contra hne
      have := inv.last i (inv.others i t hi hne)
      omega
    · intro hlast t ht
      have hcur := inv.current
      rw [inv.complete hidle] at hcur
      have hd : s.done = none := by
        rw [List.getLast?_eq_getElem?] at hlast
        have hpos : 0 < s.calls.length := by
          by_contra hz
          rw [List.getElem?_eq_none (by omega)] at hlast
          cases hlast
        have e : s.calls.length = (s.calls.length - 1) + 1 := by omega
        rw [e, List.getElem?_cons_succ, hlast] at hcur
        exact (Option.some.inj hcur).symm
      have hw := (inv.outside hidle).mpr hd
      obtain ⟨i, hi⟩ := List.getElem?_of_mem ht
      by_contra hne
      have := inv.others i t hi hne
      rw [hw] at this
      cases this

/-- C25 on the test "interrupter reset" of the spec: `SetInterrupt(a)` has
returned nil and started an interrupter, which has interrupted; the call
`SetInterrupt(b)` that is under way returns `a`. -/
theorem interrupter_handshake_witness :
    Sys.start.run resetEvents = some resetState ∧
    ∃ es s1, es.length ≤ 3 ∧ (∀ e ∈ es, ∀ d, e ≠ .SetInterrupt d) ∧
      resetState.run es = some s1 ∧ s1.pc = .idle ∧ s1.olds = [none, some 1] ∧
      s1.calls = [some 1, some 2] :=
  ⟨rfl, (interrupter_handshake resetState
    (runs_of_run resetEvents Sys.start resetState Runs.start rfl)).2.2.2.2 (by decide)⟩

end sqlite3
